import Mathlib

/-!
# EquivalenceClasses (llvm/ADT/EquivalenceClasses.h)

A shallow embedding of the union-find collection `EquivalenceClasses<ElemTy>`.

* The nodes of `std::set<ECValue> TheMapping` are modelled as a list of records kept in
  strictly ascending `Data` order.  A node of a `std::set` never moves and no two nodes carry
  the same `Data`, so a pointer `const ECValue *` is modelled by the `Data` of the node it
  points to, and the null pointer by `none`.
* The field `Next` packs a pointer and the leader flag in its low bit; the model keeps the
  two parts apart: `Next` is what `getNext()` returns and `leaderBit` what `isLeader()` returns.
* A failed `assert` stops the program: operations return `Except Failure _`.  The writes
  made before the check stay in the collection; `unionSetsStop` gives the collection at the
  moment `unionSets` returns or stops.
-/

deriving instance DecidableEq for Except

namespace llvm

/-- The ways an operation can stop without a result. -/
inductive Failure where
  /-- The check `assert(L1 != member_end() && L2 != member_end() && "Illegal inputs!")`. -/
  | IllegalInputs
  /-- The check `assert(isLeader() && "Cannot get the end of a list for a non-leader!")`. -/
  | EndOfListOfNonLeader
  /-- The check `assert(getNext() == 0 && "Already has a next pointer!")`. -/
  | AlreadyHasNext
  /-- The check `assert(Node != 0 && "Dereferencing end()!")`. -/
  | DereferencingEnd
  /-- The check `assert(Node != 0)` of `operator++` of a member iterator. -/
  | IncrementedOffEnd
  /-- A pointer that refers to no node of the set is followed. -/
  | BadPointer
  /-- The recursion or loop did not finish within the fuel it was given. -/
  | OutOfFuel
  deriving DecidableEq

/-- The record `ECValue` kept for one element. -/
structure ECValue (ElemTy : Type) where
  /-- The field `Leader`: the end-of-list pointer of a leader, the leader pointer of any
  other node. -/
  Leader : ElemTy
  /-- The pointer part of `Next` (`getNext()`); `none` is the null pointer. -/
  Next : Option ElemTy
  /-- The low bit of `Next` (`isLeader()`). -/
  leaderBit : Bool
  /-- The field `Data`: the element. -/
  Data : ElemTy
  deriving DecidableEq

/-- The nodes of a `std::set<ECValue>`, in ascending order of `Data`. -/
abbrev NodeSet (ElemTy : Type) := List (ECValue ElemTy)

/-- The collection: `std::set<ECValue> TheMapping`. -/
structure EquivalenceClasses (ElemTy : Type) where
  TheMapping : NodeSet ElemTy
  deriving DecidableEq

/-- A `std::set<ECValue>::const_iterator`: `none` is `end()`, `some k` the node whose `Data`
is `k`. -/
abbrev iterator (ElemTy : Type) := Option ElemTy

/-- A `member_iterator`: its field `Node`, `none` being the null pointer. -/
abbrev member_iterator (ElemTy : Type) := Option ElemTy

section
variable {ElemTy : Type} [LinearOrder ElemTy]

namespace ECValue

/-- The constructor
`ECValue(const ElemTy &Elt) : Leader(this), Next((ECValue*)(intptr_t)1), Data(Elt)`. -/
def ofElt (Elt : ElemTy) : ECValue ElemTy :=
  { Leader := Elt, Next := none, leaderBit := true, Data := Elt }

/-- The method `isLeader()`. -/
def isLeader (r : ECValue ElemTy) : Bool := r.leaderBit

/-- The method `getData()`. -/
def getData (r : ECValue ElemTy) : ElemTy := r.Data

/-- The method `getNext()`. -/
def getNext (r : ECValue ElemTy) : Option ElemTy := r.Next

/-- The method `getEndOfList()`. -/
def getEndOfList (r : ECValue ElemTy) : Except Failure ElemTy :=
  if r.isLeader then .ok r.Leader else .error .EndOfListOfNonLeader

end ECValue

namespace NodeSet

/-- The node a pointer refers to. -/
def deref (m : NodeSet ElemTy) (p : ElemTy) : Option (ECValue ElemTy) :=
  m.find? (fun r => decide (r.Data = p))

/-- A write through a pointer to the mutable fields of a node. -/
def modify (m : NodeSet ElemTy) (p : ElemTy) (f : ECValue ElemTy → ECValue ElemTy) :
    NodeSet ElemTy :=
  match m with
  | [] => []
  | r :: rs => if r.Data = p then f r :: rs else r :: modify rs p f

/-- The method `std::set::insert`: the position is found with `operator<`; an equivalent
node already in the set is left as it is.  A new node is copy-constructed from the temporary
`ECValue(Data)`, a leader without successor, so the check "Not a singleton!" of the copy
constructor holds and the new node is again `ECValue.ofElt Data`. -/
def insert (m : NodeSet ElemTy) (Data : ElemTy) : NodeSet ElemTy :=
  match m with
  | [] => [ECValue.ofElt Data]
  | r :: rs =>
    if Data < r.Data then ECValue.ofElt Data :: r :: rs
    else if r.Data < Data then r :: insert rs Data
    else r :: rs

/-- The method `std::set::find`. -/
def find (m : NodeSet ElemTy) (V : ElemTy) : iterator ElemTy :=
  match deref m V with
  | some _ => some V
  | none => none

/-- The method `ECValue::getLeader()` called on the node `self`, with a bound on the
recursion depth.
```
if (isLeader()) return this;
if (Leader->isLeader() == 0) return Leader;
return Leader = Leader->getLeader();
```
-/
def getLeaderFuel : Nat → NodeSet ElemTy → ElemTy → Except Failure (ElemTy × NodeSet ElemTy)
  | 0, _, _ => .error .OutOfFuel
  | fuel + 1, m, self =>
    match deref m self with
    | none => .error .BadPointer
    | some r =>
      if r.isLeader then .ok (self, m)
      else
        match deref m r.Leader with
        | none => .error .BadPointer
        | some l =>
          if l.isLeader == false then .ok (r.Leader, m)
          else
            match getLeaderFuel fuel m r.Leader with
            | .error e => .error e
            | .ok (res, m1) => .ok (res, modify m1 self (fun x => { x with Leader := res }))

/-- The method `ECValue::getLeader()`; the recursion is given one level per node and one
more. -/
def getLeader (m : NodeSet ElemTy) (self : ElemTy) : Except Failure (ElemTy × NodeSet ElemTy) :=
  getLeaderFuel (m.length + 1) m self

/-- The method `ECValue::getEndOfList()` through a pointer. -/
def getEndOfList (m : NodeSet ElemTy) (self : ElemTy) : Except Failure ElemTy :=
  match deref m self with
  | none => .error .BadPointer
  | some r => r.getEndOfList

/-- The method `ECValue::setNext(NewNext)` through a pointer:
`assert(getNext() == 0); Next = NewNext | isLeader()`. -/
def setNext (m : NodeSet ElemTy) (self : ElemTy) (NewNext : ElemTy) :
    Except Failure (NodeSet ElemTy) :=
  match deref m self with
  | none => .error .BadPointer
  | some r =>
    if r.getNext = none then .ok (modify m self (fun x => { x with Next := some NewNext }))
    else .error .AlreadyHasNext

end NodeSet

namespace EquivalenceClasses

/-- The constructor `EquivalenceClasses() {}`. -/
def empty : EquivalenceClasses ElemTy := ⟨[]⟩

/-- The range `begin()` .. `end()`: all nodes in ascending order. -/
def nodes (EC : EquivalenceClasses ElemTy) : List (ECValue ElemTy) := EC.TheMapping

/-- The method `member_end()`. -/
def member_end : member_iterator ElemTy := none

/-- The method `member_begin(I)`: `member_iterator(I->isLeader() ? &*I : 0)`. -/
def member_begin (I : ECValue ElemTy) : member_iterator ElemTy :=
  if I.isLeader then some I.Data else none

/-- The method `getNumClasses()`. -/
def getNumClasses (EC : EquivalenceClasses ElemTy) : Nat :=
  EC.TheMapping.foldl (fun NC I => if I.isLeader then NC + 1 else NC) 0

/-- The method `insert(Data)`: `TheMapping.insert(Data).first`. -/
def insert (EC : EquivalenceClasses ElemTy) (Data : ElemTy) :
    iterator ElemTy × EquivalenceClasses ElemTy :=
  (some Data, ⟨NodeSet.insert EC.TheMapping Data⟩)

/-- The method `findLeader(iterator I)`. -/
def findLeaderIt (EC : EquivalenceClasses ElemTy) (I : iterator ElemTy) :
    Except Failure (member_iterator ElemTy × EquivalenceClasses ElemTy) :=
  match I with
  | none => .ok (member_end, EC)
  | some p =>
    match NodeSet.getLeader EC.TheMapping p with
    | .error e => .error e
    | .ok (l, m) => .ok (some l, ⟨m⟩)

/-- The method `findLeader(const ElemTy &V)`: `findLeader(TheMapping.find(V))`. -/
def findLeader (EC : EquivalenceClasses ElemTy) (V : ElemTy) :
    Except Failure (member_iterator ElemTy × EquivalenceClasses ElemTy) :=
  findLeaderIt EC (NodeSet.find EC.TheMapping V)

/-- The method `unionSets(member_iterator L1, member_iterator L2)`. -/
def unionSetsIt (EC : EquivalenceClasses ElemTy) (L1 L2 : member_iterator ElemTy) :
    Except Failure (member_iterator ElemTy × EquivalenceClasses ElemTy) :=
  match L1, L2 with
  | some L1LV, some L2LV =>
    if L1LV = L2LV then .ok (some L1LV, EC)
    else
      -- L1LV.getEndOfList()->setNext(&L2LV);
      match NodeSet.getEndOfList EC.TheMapping L1LV with
      | .error e => .error e
      | .ok endOfL1 =>
        match NodeSet.setNext EC.TheMapping endOfL1 L2LV with
        | .error e => .error e
        | .ok m1 =>
          -- L1LV.Leader = L2LV.getEndOfList();
          match NodeSet.getEndOfList m1 L2LV with
          | .error e => .error e
          | .ok endOfL2 =>
            let m2 := NodeSet.modify m1 L1LV (fun x => { x with Leader := endOfL2 })
            -- L2LV.Next = L2LV.getNext();
            let m3 := NodeSet.modify m2 L2LV (fun x => { x with leaderBit := false })
            -- L2LV.Leader = &L1LV;
            let m4 := NodeSet.modify m3 L2LV (fun x => { x with Leader := L1LV })
            .ok (some L1LV, ⟨m4⟩)
  | _, _ => .error .IllegalInputs

/-- The method `unionSets(const ElemTy &V1, const ElemTy &V2)`:
`unionSets(findLeader(insert(V1)), findLeader(insert(V2)))`.  The two arguments of the inner
call are unsequenced in C++; each is evaluated as a whole here, the first one first. -/
def unionSets (EC : EquivalenceClasses ElemTy) (V1 V2 : ElemTy) :
    Except Failure (member_iterator ElemTy × EquivalenceClasses ElemTy) :=
  let (I1, EC1) := EC.insert V1
  match EC1.findLeaderIt I1 with
  | .error e => .error e
  | .ok (L1, EC2) =>
    let (I2, EC3) := EC2.insert V2
    match EC3.findLeaderIt I2 with
    | .error e => .error e
    | .ok (L2, EC4) => EC4.unionSetsIt L1 L2

/-- The operator `*MI` of a member iterator: `assert(Node != 0); return Node->getData()`. -/
def star (EC : EquivalenceClasses ElemTy) (MI : member_iterator ElemTy) :
    Except Failure ElemTy :=
  match MI with
  | none => .error .DereferencingEnd
  | some p =>
    match NodeSet.deref EC.TheMapping p with
    | none => .error .BadPointer
    | some r => .ok r.getData

/-- The operator `++MI` of a member iterator: `assert(Node != 0); Node = Node->getNext()`. -/
def incr (EC : EquivalenceClasses ElemTy) (MI : member_iterator ElemTy) :
    Except Failure (member_iterator ElemTy) :=
  match MI with
  | none => .error .IncrementedOffEnd
  | some p =>
    match NodeSet.deref EC.TheMapping p with
    | none => .error .BadPointer
    | some r => .ok r.getNext

/-- The member loop `for (; MI != member_end(); ++MI) out.push_back(*MI)` with a bound on
the number of rounds. -/
def membersFuel : Nat → EquivalenceClasses ElemTy → member_iterator ElemTy →
    Except Failure (List ElemTy)
  | _, _, none => .ok []
  | 0, _, some _ => .error .OutOfFuel
  | fuel + 1, EC, some p =>
    match EC.star (some p) with
    | .error e => .error e
    | .ok v =>
      match EC.incr (some p) with
      | .error e => .error e
      | .ok MI =>
        match membersFuel fuel EC MI with
        | .error e => .error e
        | .ok rest => .ok (v :: rest)

/-- The member walk from `MI`: the loop above, with one round per node of the set. -/
def members (EC : EquivalenceClasses ElemTy) (MI : member_iterator ElemTy) :
    Except Failure (List ElemTy) :=
  membersFuel EC.TheMapping.length EC MI

/-- The loop of the class comment: every node in ascending order, the non-leaders skipped,
the members of each leader walked. -/
def classes (EC : EquivalenceClasses ElemTy) : List (Except Failure (List ElemTy)) :=
  (EC.nodes.filter (fun I => I.isLeader)).map (fun I => EC.members (member_begin I))

end EquivalenceClasses

/-- A call that changes the collection. -/
inductive Op (ElemTy : Type) where
  | insert (Data : ElemTy)
  | unionSets (V1 V2 : ElemTy)
  deriving DecidableEq

/-- The values a call names. -/
def Op.args : Op ElemTy → List ElemTy
  | .insert v => [v]
  | .unionSets a b => [a, b]

/-- One call on a collection. -/
def Op.apply (EC : EquivalenceClasses ElemTy) :
    Op ElemTy → Except Failure (EquivalenceClasses ElemTy)
  | .insert v => .ok (EC.insert v).2
  | .unionSets a b =>
    match EC.unionSets a b with
    | .error e => .error e
    | .ok (_, EC1) => .ok EC1

/-- A sequence of calls, from the first to the last, on a collection. -/
def runFrom (EC : EquivalenceClasses ElemTy) : List (Op ElemTy) →
    Except Failure (EquivalenceClasses ElemTy)
  | [] => .ok EC
  | op :: ops =>
    match op.apply EC with
    | .error e => .error e
    | .ok EC1 => runFrom EC1 ops

/-- A sequence of calls on the empty collection. -/
def run (ops : List (Op ElemTy)) : Except Failure (EquivalenceClasses ElemTy) :=
  runFrom EquivalenceClasses.empty ops

/-- A state built from the empty collection by a finite sequence of `insert` and `unionSets`
calls, none of which failed. -/
def Reachable (EC : EquivalenceClasses ElemTy) : Prop :=
  ∃ ops : List (Op ElemTy), run ops = .ok EC

/-- The nodes after the four writes of a real union of the leaders `L1LV` and `L2LV`, with
`endOfL1` and `endOfL2` their end-of-list pointers. -/
def NodeSet.merged (m : NodeSet ElemTy) (L1LV L2LV endOfL1 endOfL2 : ElemTy) : NodeSet ElemTy :=
  NodeSet.modify (NodeSet.modify (NodeSet.modify
    (NodeSet.modify m endOfL1 (fun x => { x with Next := some L2LV }))
    L1LV (fun x => { x with Leader := endOfL2 }))
    L2LV (fun x => { x with leaderBit := false }))
    L2LV (fun x => { x with Leader := L1LV })

/-- Following `Next` from `p` visits exactly the nodes `c`, in this order, and arrives at
`q`. -/
def IsSeg (m : NodeSet ElemTy) : Option ElemTy → List ElemTy → Option ElemTy → Prop
  | p, [], q => p = q
  | p, x :: xs, q => p = some x ∧ ∃ r, NodeSet.deref m x = some r ∧ IsSeg m r.Next xs q

/-- The node `p` is a leader and `c` is the chain of nodes that starts at it. -/
def IsClass (m : NodeSet ElemTy) (p : ElemTy) (c : List ElemTy) : Prop :=
  (∃ r, NodeSet.deref m p = some r ∧ r.leaderBit = true) ∧ IsSeg m (some p) c none

/-- The shape of the nodes of a collection that `insert` and `unionSets` maintain. -/
structure Inv (m : NodeSet ElemTy) : Prop where
  /-- The nodes are in strictly ascending order. -/
  sorted : m.Pairwise (fun a b => a.Data < b.Data)
  /-- Every `Leader` pointer refers to a node. -/
  leaderPtr : ∀ p r, NodeSet.deref m p = some r → ∃ l, NodeSet.deref m r.Leader = some l
  /-- The chain of a leader ends, at the node its end-of-list pointer refers to, and visits
  no node twice. -/
  chain : ∀ p r, NodeSet.deref m p = some r → r.leaderBit = true →
    ∃ c, IsSeg m (some p) c none ∧ c.getLast? = some r.Leader ∧ c.Nodup
  /-- The chains of two leaders share no node. -/
  disjoint : ∀ p1 p2 c1 c2 x, IsClass m p1 c1 → IsClass m p2 c2 → x ∈ c1 → x ∈ c2 → p1 = p2
  /-- Every node is on the chain of a leader. -/
  cover : ∀ x rx, NodeSet.deref m x = some rx → ∃ p c, IsClass m p c ∧ x ∈ c

/-- In a chain the `Leader` pointer of a node that is not a leader refers to a node that
comes earlier in the same chain. -/
def Anchored (m : NodeSet ElemTy) : Prop :=
  ∀ p c x rx, IsClass m p c → x ∈ c → NodeSet.deref m x = some rx → rx.leaderBit = false →
    rx.Leader ∈ c ∧ c.indexOf rx.Leader < c.indexOf x

/-- Following the `Leader` pointers from the node `p` up to the first node that is a leader:
the number of pointers followed and the leader arrived at, with a bound on the number of
nodes visited. -/
def NodeSet.climbFuel : Nat → NodeSet ElemTy → ElemTy → Option (Nat × ElemTy)
  | 0, _, _ => none
  | fuel + 1, m, p =>
    match NodeSet.deref m p with
    | none => none
    | some r =>
      if r.isLeader then some (0, p)
      else
        match climbFuel fuel m r.Leader with
        | none => none
        | some (n, l) => some (n + 1, l)

/-- The number of `Leader` pointers to follow from the node `p` to reach a leader; a visit
per node of the set is allowed. -/
def EquivalenceClasses.hops (EC : EquivalenceClasses ElemTy) (p : ElemTy) : Option Nat :=
  (NodeSet.climbFuel EC.TheMapping.length EC.TheMapping p).map Prod.fst

/-- One round of the loop of `operator=`, at the node `I` of `RHS`:
`if (I->isLeader()) insert(I->getData()); else unionSets(I->getData(), *RHS.findLeader(I));`
The result is the assigned collection and `RHS`, whose mutable fields `findLeader` may
write. -/
def EquivalenceClasses.assignStep (self RHS : EquivalenceClasses ElemTy) (I : ElemTy) :
    Except Failure (EquivalenceClasses ElemTy × EquivalenceClasses ElemTy) :=
  match NodeSet.deref RHS.TheMapping I with
  | none => .error .BadPointer
  | some r =>
    if r.isLeader then .ok ((self.insert r.getData).2, RHS)
    else
      match RHS.findLeaderIt (some I) with
      | .error e => .error e
      | .ok (MI, RHS1) =>
        match RHS1.star MI with
        | .error e => .error e
        | .ok V =>
          match self.unionSets r.getData V with
          | .error e => .error e
          | .ok (_, self1) => .ok (self1, RHS1)

/-- The loop of `operator=` over the nodes of `RHS` that are still to visit. -/
def EquivalenceClasses.assignLoop (self RHS : EquivalenceClasses ElemTy) :
    List ElemTy → Except Failure (EquivalenceClasses ElemTy × EquivalenceClasses ElemTy)
  | [] => .ok (self, RHS)
  | I :: rest =>
    match self.assignStep RHS I with
    | .error e => .error e
    | .ok (self1, RHS1) => assignLoop self1 RHS1 rest

/-- The operator `operator=(RHS)` on a collection other than `RHS`: the loop over
`RHS.begin()` .. `RHS.end()`.  The set of `RHS` keeps its nodes during the loop, so the
nodes to visit are those it has at the start. -/
def EquivalenceClasses.assign (self RHS : EquivalenceClasses ElemTy) :
    Except Failure (EquivalenceClasses ElemTy × EquivalenceClasses ElemTy) :=
  self.assignLoop RHS (RHS.nodes.map ECValue.getData)

/-- The copy constructor `EquivalenceClasses(const EquivalenceClasses &RHS)`:
`operator=(RHS)` on the empty collection. -/
def EquivalenceClasses.copy (RHS : EquivalenceClasses ElemTy) :
    Except Failure (EquivalenceClasses ElemTy × EquivalenceClasses ElemTy) :=
  EquivalenceClasses.empty.assign RHS

/-- The calls `unionSets(z, y1); unionSets(y1, y2); ...` along a list of values. -/
def chainFrom : ElemTy → List ElemTy → List (Op ElemTy)
  | _, [] => []
  | z, y :: t => .unionSets z y :: chainFrom y t

/-- The calls `unionSets(x1, x2); unionSets(x2, x3); ...` along a list of values. -/
def chainOps : List ElemTy → List (Op ElemTy)
  | [] => []
  | x :: t => chainFrom x t

/-- The nodes are those of the values `l`, chained in this order from the leader `x1`, and
the `Leader` pointer of every other node refers to `x1`. -/
def ChainShape (m : NodeSet ElemTy) (x1 : ElemTy) (l : List ElemTy) : Prop :=
  IsSeg m (some x1) l none ∧
  (∃ r, NodeSet.deref m x1 = some r ∧ r.leaderBit = true) ∧
  (∀ x ∈ l, x ≠ x1 → ∃ r, NodeSet.deref m x = some r ∧ r.leaderBit = false ∧ r.Leader = x1) ∧
  (∀ q r, NodeSet.deref m q = some r → q ∈ l)

/-- While a collection `S` is copied into the nodes `t`: the `Leader` pointer of a node of
`t` that is not a leader refers to a value that `S` stores in a node that is not a leader. -/
def CopyShape (S t : NodeSet ElemTy) : Prop :=
  ∀ x rx, NodeSet.deref t x = some rx → rx.leaderBit = false →
    ∃ ry, NodeSet.deref S rx.Leader = some ry ∧ ry.leaderBit = false

/-- While a collection `S` is copied into the nodes `t`: for every node of `S` among `done`
that is not a leader and whose `Leader` pointer refers to a leader of `S`, that leader has
in `t` a node that is not a leader. -/
def CopyDone (S t : NodeSet ElemTy) (done : List ElemTy) : Prop :=
  ∀ k ∈ done, ∀ rk rl, NodeSet.deref S k = some rk → rk.leaderBit = false →
    NodeSet.deref S rk.Leader = some rl → rl.leaderBit = true →
    (NodeSet.deref t rk.Leader).map ECValue.isLeader = some false

/-- The collection at the moment `unionSets(L1, L2)` returns or stops at a check: the writes
of `EquivalenceClasses.unionSetsIt` made up to there.  A check comes before the write of its
statement, so that the first `getEndOfList` and `setNext` leave the collection as it was, and
the second `getEndOfList` leaves it with the `Next` pointer that `setNext` has written. -/
def EquivalenceClasses.unionSetsItStop (EC : EquivalenceClasses ElemTy)
    (L1 L2 : member_iterator ElemTy) : EquivalenceClasses ElemTy :=
  match L1, L2 with
  | some L1LV, some L2LV =>
    if L1LV = L2LV then EC
    else
      match NodeSet.getEndOfList EC.TheMapping L1LV with
      | .error _ => EC
      | .ok endOfL1 =>
        match NodeSet.setNext EC.TheMapping endOfL1 L2LV with
        | .error _ => EC
        | .ok m1 =>
          match NodeSet.getEndOfList m1 L2LV with
          | .error _ => ⟨m1⟩
          | .ok endOfL2 =>
            let m2 := NodeSet.modify m1 L1LV (fun x => { x with Leader := endOfL2 })
            let m3 := NodeSet.modify m2 L2LV (fun x => { x with leaderBit := false })
            let m4 := NodeSet.modify m3 L2LV (fun x => { x with Leader := L1LV })
            ⟨m4⟩
  | _, _ => EC

/-- The collection at the moment `unionSets(V1, V2)` returns or stops at a check: the two
insertions of `EquivalenceClasses.unionSets` and then the writes of the inner call made up
to there. -/
def EquivalenceClasses.unionSetsStop (EC : EquivalenceClasses ElemTy) (V1 V2 : ElemTy) :
    EquivalenceClasses ElemTy :=
  let (I1, EC1) := EC.insert V1
  match EC1.findLeaderIt I1 with
  | .error _ => EC1
  | .ok (L1, EC2) =>
    let (I2, EC3) := EC2.insert V2
    match EC3.findLeaderIt I2 with
    | .error _ => EC3
    | .ok (L2, EC4) => EC4.unionSetsItStop L1 L2

/-- The values `x` and `y` are on the chain of one leader. -/
def SameWalk (m : NodeSet ElemTy) (x y : ElemTy) : Prop :=
  ∃ p c, IsClass m p c ∧ x ∈ c ∧ y ∈ c

end

/-- A byte of a file. -/
abbrev Byte := Fin 256

/-- The constant `EOF`. -/
def EOF : Int := -1

/-- The call `get()` on an input stream with the bytes still to read: the next byte as an
`int`, or `EOF` at the end, and the stream after the call. -/
def ifstreamGet : List Byte → Int × List Byte
  | [] => (EOF, [])
  | c :: rest => ((c.val : Int), rest)

/-- The loop of `DiffFiles`, with a bound on the number of rounds:
`do { C1 = FileAStream.get(); C2 = FileBStream.get(); if (C1 != C2) return true; }`
`while (C1 != EOF); return false;` -/
def DiffFilesLoop : Nat → List Byte → List Byte → Option Bool
  | 0, _, _ => none
  | fuel + 1, FileAStream, FileBStream =>
    let C1 := ifstreamGet FileAStream
    let C2 := ifstreamGet FileBStream
    if C1.1 ≠ C2.1 then some true
    else if C1.1 ≠ EOF then DiffFilesLoop fuel C1.2 C2.2
    else some false

/-- The message `"Couldn't open file '" + File + "'"`. -/
def couldntOpen (File : String) : String :=
  "Couldn't open file '" ++ File ++ "'"

/-- The function `llvm::DiffFiles(FileA, FileB, Error)`.  The file system `fs` gives the bytes
of a file that can be opened; `Error` is `none` for a null pointer and else the string it
points to.  The result is the value returned and the string after the call; the loop gets a
round per byte of the first file and one more. -/
def DiffFiles (fs : String → Option (List Byte)) (FileA FileB : String)
    (Error : Option String) : Option (Bool × Option String) :=
  match fs FileA with
  | none => some (true, Error.map (fun _ => couldntOpen FileA))
  | some FileAStream =>
    match fs FileB with
    | none => some (true, Error.map (fun _ => couldntOpen FileB))
    | some FileBStream =>
      (DiffFilesLoop (FileAStream.length + 1) FileAStream FileBStream).map
        (fun differ => (differ, Error))

section
variable {ElemTy : Type} [LinearOrder ElemTy]

/-! ## Pointers and writes -/

namespace NodeSet

theorem deref_data {m : NodeSet ElemTy} {p : ElemTy} {r : ECValue ElemTy}
    (h : deref m p = some r) : r.Data = p := by
  have := List.find?_some h
  simpa using this

theorem deref_mem {m : NodeSet ElemTy} {p : ElemTy} {r : ECValue ElemTy}
    (h : deref m p = some r) : r ∈ m :=
  List.mem_of_find?_eq_some h

theorem deref_nil (p : ElemTy) : deref ([] : NodeSet ElemTy) p = none := rfl

theorem deref_cons (r : ECValue ElemTy) (rs : NodeSet ElemTy) (p : ElemTy) :
    deref (r :: rs) p = if r.Data = p then some r else deref rs p := by
  unfold deref
  by_cases h : r.Data = p <;> simp [List.find?_cons, h]

theorem deref_eq_none_iff {m : NodeSet ElemTy} {p : ElemTy} :
    deref m p = none ↔ ∀ r ∈ m, r.Data ≠ p := by
  unfold deref
  simp [List.find?_eq_none]

theorem deref_modify (m : NodeSet ElemTy) (p q : ElemTy) (f : ECValue ElemTy → ECValue ElemTy)
    (hf : ∀ x, (f x).Data = x.Data) :
    deref (modify m p f) q = if q = p then (deref m p).map f else deref m q := by
  induction m with
  | nil => simp [modify, deref_nil]
  | cons r rs ih =>
    unfold modify
    by_cases h1 : r.Data = p
    · by_cases h2 : q = p
      · subst h2; simp [h1, deref_cons, hf]
      · have h3 : ¬ p = q := fun h => h2 h.symm
        simp [h1, h2, h3, deref_cons, hf]
    · by_cases h2 : q = p
      · subst h2; simp [h1, deref_cons, ih]
      · simp only [h1, h2, if_false, deref_cons, ih]

theorem modify_eq_self {m : NodeSet ElemTy} {p : ElemTy} {r : ECValue ElemTy}
    (f : ECValue ElemTy → ECValue ElemTy) (h : deref m p = some r) (hf : f r = r) :
    modify m p f = m := by
  induction m with
  | nil => rfl
  | cons a rs ih =>
    unfold modify
    rw [deref_cons] at h
    by_cases h1 : a.Data = p
    · simp only [h1, if_true, Option.some.injEq] at h
      subst h; simp [h1, hf]
    · simp only [h1, if_false] at h
      simp [h1, ih h]

theorem length_modify (m : NodeSet ElemTy) (p : ElemTy) (f : ECValue ElemTy → ECValue ElemTy) :
    (modify m p f).length = m.length := by
  induction m with
  | nil => rfl
  | cons a rs ih => unfold modify; split <;> simp [ih]

theorem map_data_modify (m : NodeSet ElemTy) (p : ElemTy) (f : ECValue ElemTy → ECValue ElemTy)
    (hf : ∀ x, (f x).Data = x.Data) :
    (modify m p f).map ECValue.Data = m.map ECValue.Data := by
  induction m with
  | nil => rfl
  | cons a rs ih => unfold modify; split <;> simp [ih, hf]

/-- What `getLeader` does: a leader answers itself, any other node the node its `Leader`
pointer refers to; no node is changed. -/
theorem getLeaderFuel_eq (n : Nat) (m : NodeSet ElemTy) (p : ElemTy) :
    getLeaderFuel (n + 2) m p =
      match deref m p with
      | none => .error .BadPointer
      | some r =>
        if r.leaderBit then .ok (p, m)
        else match deref m r.Leader with
          | none => .error .BadPointer
          | some _ => .ok (r.Leader, m) := by
  rw [getLeaderFuel]
  cases hp : deref m p with
  | none => rfl
  | some r =>
    simp only [ECValue.isLeader]
    by_cases hl : r.leaderBit = true
    · simp [hl]
    · simp only [hl, if_false]
      cases hq : deref m r.Leader with
      | none => rfl
      | some l =>
        simp only
        by_cases hll : l.leaderBit = true
        · simp only [hll, beq_iff_eq, if_false]
          rw [getLeaderFuel]
          simp only [hq, ECValue.isLeader, hll, if_true]
          rw [modify_eq_self _ hp rfl]
          simp
        · simp [hll]

theorem getLeader_eq (m : NodeSet ElemTy) (p : ElemTy) :
    getLeader m p =
      match deref m p with
      | none => .error .BadPointer
      | some r =>
        if r.leaderBit then .ok (p, m)
        else match deref m r.Leader with
          | none => .error .BadPointer
          | some _ => .ok (r.Leader, m) := by
  unfold getLeader
  cases m with
  | nil => simp [getLeaderFuel, deref_nil]
  | cons a rs => exact getLeaderFuel_eq rs.length (a :: rs) p

end NodeSet
/-! ## Insertion into the set; chains -/

namespace NodeSet

theorem mem_insert {m : NodeSet ElemTy} {v : ElemTy} {x : ECValue ElemTy}
    (h : x ∈ insert m v) : x = ECValue.ofElt v ∨ x ∈ m := by
  induction m with
  | nil => simpa [insert] using h
  | cons a rs ih =>
    unfold insert at h
    split_ifs at h with h1 h2
    · simp only [List.mem_cons] at h ⊢
      tauto
    · simp only [List.mem_cons] at h ⊢
      rcases h with h | h
      · tauto
      · rcases ih h with h | h <;> tauto
    · exact Or.inr h

theorem sorted_insert {m : NodeSet ElemTy} (v : ElemTy)
    (h : m.Pairwise (fun a b => a.Data < b.Data)) :
    (insert m v).Pairwise (fun a b => a.Data < b.Data) := by
  induction m with
  | nil => simp [insert]
  | cons a rs ih =>
    rw [List.pairwise_cons] at h
    unfold insert
    split_ifs with h1 h2
    · refine List.pairwise_cons.2 ⟨?_, List.pairwise_cons.2 h⟩
      intro b hb
      rcases List.mem_cons.1 hb with hb | hb
      · subst hb; exact h1
      · exact lt_trans h1 (h.1 b hb)
    · refine List.pairwise_cons.2 ⟨?_, ih h.2⟩
      intro b hb
      rcases mem_insert hb with hb | hb
      · subst hb; exact h2
      · exact h.1 b hb
    · exact List.pairwise_cons.2 h

theorem deref_insert_ne (m : NodeSet ElemTy) {v q : ElemTy} (h : q ≠ v) :
    deref (insert m v) q = deref m q := by
  induction m with
  | nil =>
    have h1 : ¬ v = q := fun e => h e.symm
    simp [insert, deref_cons, deref_nil, ECValue.ofElt, h1]
  | cons a rs ih =>
    unfold insert
    split_ifs with h1 h2
    · have h3 : ¬ v = q := fun e => h e.symm
      rw [deref_cons]; simp [ECValue.ofElt, h3]
    · rw [deref_cons, deref_cons, ih]
    · rfl

theorem deref_insert_self (m : NodeSet ElemTy) {v : ElemTy} (h : deref m v = none) :
    deref (insert m v) v = some (ECValue.ofElt v) := by
  induction m with
  | nil => simp [insert, deref_cons, ECValue.ofElt]
  | cons a rs ih =>
    rw [deref_cons] at h
    split_ifs at h with h0
    unfold insert
    split_ifs with h1 h2
    · rw [deref_cons]; simp [ECValue.ofElt]
    · rw [deref_cons, if_neg h0, ih h]
    · exact absurd (le_antisymm (not_lt.1 h1) (not_lt.1 h2)) h0

theorem insert_eq_self {m : NodeSet ElemTy} {v : ElemTy} {r : ECValue ElemTy}
    (hs : m.Pairwise (fun a b => a.Data < b.Data)) (h : deref m v = some r) :
    insert m v = m := by
  induction m with
  | nil => simp [deref_nil] at h
  | cons a rs ih =>
    rw [List.pairwise_cons] at hs
    rw [deref_cons] at h
    unfold insert
    split_ifs at h with h0
    · subst h0; simp
    · have hr := deref_mem h
      have hd := deref_data h
      have h1 : a.Data < v := hd ▸ hs.1 r hr
      simp [h1, not_lt_of_lt h1, ih hs.2 h]

end NodeSet

theorem IsSeg.congr {m m1 : NodeSet ElemTy} {c : List ElemTy} {p q : Option ElemTy}
    (h : ∀ x ∈ c, ∀ r, NodeSet.deref m x = some r →
      ∃ r1, NodeSet.deref m1 x = some r1 ∧ r1.Next = r.Next)
    (hs : IsSeg m p c q) : IsSeg m1 p c q := by
  induction c generalizing p with
  | nil => exact hs
  | cons x xs ih =>
    obtain ⟨hp, r, hr, hrest⟩ := hs
    obtain ⟨r1, hr1, hn⟩ := h x (List.mem_cons_self _ _) r hr
    refine ⟨hp, r1, hr1, ?_⟩
    rw [hn]
    exact ih (fun y hy => h y (List.mem_cons_of_mem _ hy)) hrest

theorem IsSeg.append {m : NodeSet ElemTy} {c1 c2 : List ElemTy} {p q t : Option ElemTy}
    (h1 : IsSeg m p c1 q) (h2 : IsSeg m q c2 t) : IsSeg m p (c1 ++ c2) t := by
  induction c1 generalizing p with
  | nil => cases h1; exact h2
  | cons x xs ih =>
    obtain ⟨hp, r, hr, hrest⟩ := h1
    exact ⟨hp, r, hr, ih hrest⟩

theorem IsSeg.unique {m : NodeSet ElemTy} {c1 c2 : List ElemTy} {p : Option ElemTy}
    (h1 : IsSeg m p c1 none) (h2 : IsSeg m p c2 none) : c1 = c2 := by
  induction c1 generalizing p c2 with
  | nil =>
    cases c2 with
    | nil => rfl
    | cons y ys =>
      have e1 : p = none := h1
      have e2 : p = some y := h2.1
      rw [e1] at e2; cases e2
  | cons x xs ih =>
    cases c2 with
    | nil =>
      have e1 : p = none := h2
      have e2 : p = some x := h1.1
      rw [e1] at e2; cases e2
    | cons y ys =>
      obtain ⟨hp, r, hr, hrest⟩ := h1
      obtain ⟨hp2, r2, hr2, hrest2⟩ := h2
      rw [hp] at hp2
      cases hp2
      rw [hr] at hr2
      cases hr2
      rw [ih hrest hrest2]

theorem IsSeg.deref_of_mem {m : NodeSet ElemTy} {c : List ElemTy} {p q : Option ElemTy}
    (hs : IsSeg m p c q) {x : ElemTy} (hx : x ∈ c) : ∃ r, NodeSet.deref m x = some r := by
  induction c generalizing p with
  | nil => cases hx
  | cons y ys ih =>
    obtain ⟨_, r, hr, hrest⟩ := hs
    rcases List.mem_cons.1 hx with h | h
    · subst h; exact ⟨r, hr⟩
    · exact ih hrest h

theorem IsSeg.head {m : NodeSet ElemTy} {c : List ElemTy} {p : ElemTy}
    (hs : IsSeg m (some p) c none) : ∃ t, c = p :: t := by
  cases c with
  | nil => cases hs
  | cons y ys =>
    have e : some p = some y := hs.1
    cases e
    exact ⟨ys, rfl⟩

theorem IsSeg.last_next {m : NodeSet ElemTy} {c : List ElemTy} {p : Option ElemTy} {t : ElemTy}
    (hs : IsSeg m p c none) (hl : c.getLast? = some t) :
    ∃ r, NodeSet.deref m t = some r ∧ r.Next = none := by
  induction c generalizing p with
  | nil => simp at hl
  | cons y ys ih =>
    obtain ⟨_, r, hr, hrest⟩ := hs
    cases ys with
    | nil =>
      simp at hl
      subst hl
      exact ⟨r, hr, hrest⟩
    | cons z zs =>
      rw [List.getLast?_cons_cons] at hl
      exact ih hrest hl

/-- Redirecting the `Next` pointer of the last node of a chain: the chain now arrives at
the new target. -/
theorem IsSeg.redirect {m m1 : NodeSet ElemTy} {c : List ElemTy} {p : Option ElemTy}
    {t n : ElemTy} (hs : IsSeg m p c none) (hl : c.getLast? = some t) (hnd : c.Nodup)
    (hsame : ∀ x ∈ c, x ≠ t → ∀ r, NodeSet.deref m x = some r →
      ∃ r1, NodeSet.deref m1 x = some r1 ∧ r1.Next = r.Next)
    (ht : ∃ r1, NodeSet.deref m1 t = some r1 ∧ r1.Next = some n) :
    IsSeg m1 p c (some n) := by
  induction c generalizing p with
  | nil => simp at hl
  | cons y ys ih =>
    obtain ⟨hp, r, hr, hrest⟩ := hs
    cases ys with
    | nil =>
      simp at hl
      subst hl
      obtain ⟨r1, hr1, hn1⟩ := ht
      exact ⟨hp, r1, hr1, hn1⟩
    | cons z zs =>
      rw [List.getLast?_cons_cons] at hl
      rw [List.nodup_cons] at hnd
      have hyt : y ≠ t := by
        intro e
        apply hnd.1
        rw [e]
        exact List.mem_of_getLast?_eq_some hl
      obtain ⟨r1, hr1, hn1⟩ := hsame y (List.mem_cons_self _ _) hyt r hr
      refine ⟨hp, r1, hr1, ?_⟩
      rw [hn1]
      exact ih hrest hl hnd.2 (fun x hx => hsame x (List.mem_cons_of_mem _ hx))

/-! ## The invariant under `insert` -/

theorem Inv.nil : Inv ([] : NodeSet ElemTy) where
  sorted := List.Pairwise.nil
  leaderPtr := fun p r h => by simp [NodeSet.deref_nil] at h
  chain := fun p r h => by simp [NodeSet.deref_nil] at h
  disjoint := fun p1 p2 c1 c2 x h => by
    obtain ⟨⟨r, hr, _⟩, _⟩ := h
    simp [NodeSet.deref_nil] at hr
  cover := fun x rx h => by simp [NodeSet.deref_nil] at h

/-- The chain of a leader is determined by the leader. -/
theorem Inv.class_of_leader {m : NodeSet ElemTy} (h : Inv m) {p : ElemTy} {r : ECValue ElemTy}
    (hr : NodeSet.deref m p = some r) (hl : r.leaderBit = true) :
    ∃ c, IsClass m p c ∧ c.getLast? = some r.Leader ∧ c.Nodup := by
  obtain ⟨c, hc, hlast, hnd⟩ := h.chain p r hr hl
  exact ⟨c, ⟨⟨r, hr, hl⟩, hc⟩, hlast, hnd⟩

theorem Inv.insert_new {m : NodeSet ElemTy} (h : Inv m) {v : ElemTy}
    (hv : NodeSet.deref m v = none) : Inv (NodeSet.insert m v) := by
  have hself := NodeSet.deref_insert_self m hv
  have hne : ∀ q, q ≠ v → NodeSet.deref (NodeSet.insert m v) q = NodeSet.deref m q :=
    fun q hq => NodeSet.deref_insert_ne m hq
  have hold : ∀ q r, NodeSet.deref m q = some r → q ≠ v := by
    intro q r hq e
    rw [e, hv] at hq
    cases hq
  have hfwd : ∀ p c q, IsSeg m p c q → IsSeg (NodeSet.insert m v) p c q := by
    intro p c q hs
    refine IsSeg.congr ?_ hs
    intro x _ r hr
    exact ⟨r, by rw [hne x (hold x r hr), hr], rfl⟩
  have hnew : IsSeg (NodeSet.insert m v) (some v) [v] none :=
    ⟨rfl, _, hself, rfl⟩
  have hchar : ∀ p c, IsClass (NodeSet.insert m v) p c →
      (p = v ∧ c = [v]) ∨ (p ≠ v ∧ IsClass m p c) := by
    intro p c hc
    by_cases hp : p = v
    · subst hp
      exact Or.inl ⟨rfl, IsSeg.unique hc.2 hnew⟩
    · obtain ⟨⟨r, hr, hl⟩, hs⟩ := hc
      rw [hne p hp] at hr
      obtain ⟨c0, hc0, _, _⟩ := h.class_of_leader hr hl
      have e : c = c0 := IsSeg.unique hs (hfwd _ _ _ hc0.2)
      exact Or.inr ⟨hp, e ▸ hc0⟩
  have hmem : ∀ p c x, IsClass m p c → x ∈ c → x ≠ v := by
    intro p c x hc hx
    obtain ⟨r, hr⟩ := hc.2.deref_of_mem hx
    exact hold x r hr
  refine ⟨NodeSet.sorted_insert v h.sorted, ?_, ?_, ?_, ?_⟩
  · intro p r hr
    by_cases hp : p = v
    · subst hp
      rw [hself] at hr
      cases hr
      exact ⟨_, hself⟩
    · rw [hne p hp] at hr
      obtain ⟨l, hl⟩ := h.leaderPtr p r hr
      exact ⟨l, by rw [hne _ (hold _ l hl), hl]⟩
  · intro p r hr hl
    by_cases hp : p = v
    · subst hp
      rw [hself] at hr
      cases hr
      exact ⟨[p], hnew, rfl, List.nodup_singleton _⟩
    · rw [hne p hp] at hr
      obtain ⟨c, hc, hlast, hnd⟩ := h.chain p r hr hl
      exact ⟨c, hfwd _ _ _ hc, hlast, hnd⟩
  · intro p1 p2 c1 c2 x h1 h2 hx1 hx2
    rcases hchar p1 c1 h1 with ⟨e1, ec1⟩ | ⟨n1, o1⟩ <;>
      rcases hchar p2 c2 h2 with ⟨e2, ec2⟩ | ⟨n2, o2⟩
    · rw [e1, e2]
    · subst ec1
      rw [List.mem_singleton] at hx1
      exact absurd hx1 (hmem p2 c2 x o2 hx2)
    · subst ec2
      rw [List.mem_singleton] at hx2
      exact absurd hx2 (hmem p1 c1 x o1 hx1)
    · exact h.disjoint p1 p2 c1 c2 x o1 o2 hx1 hx2
  · intro x rx hx
    by_cases hp : x = v
    · subst hp
      exact ⟨x, [x], ⟨⟨_, hself, rfl⟩, hnew⟩, List.mem_singleton_self _⟩
    · rw [hne x hp] at hx
      obtain ⟨p, c, hc, hxc⟩ := h.cover x rx hx
      obtain ⟨⟨r, hr, hl⟩, hs⟩ := hc
      refine ⟨p, c, ⟨⟨r, ?_, hl⟩, hfwd _ _ _ hs⟩, hxc⟩
      rw [hne p (hold p r hr), hr]

theorem Inv.insert {m : NodeSet ElemTy} (h : Inv m) (v : ElemTy) :
    Inv (NodeSet.insert m v) := by
  cases hv : NodeSet.deref m v with
  | none => exact h.insert_new hv
  | some r => rw [NodeSet.insert_eq_self h.sorted hv]; exact h

/-! ## The four writes of a union -/

namespace NodeSet

theorem deref_modify_next (m : NodeSet ElemTy) (p q n : ElemTy) :
    deref (modify m p (fun x => { x with Next := some n })) q =
      if q = p then (deref m p).map (fun x => { x with Next := some n }) else deref m q :=
  deref_modify m p q _ (fun _ => rfl)

theorem deref_modify_leader (m : NodeSet ElemTy) (p q l : ElemTy) :
    deref (modify m p (fun x => { x with Leader := l })) q =
      if q = p then (deref m p).map (fun x => { x with Leader := l }) else deref m q :=
  deref_modify m p q _ (fun _ => rfl)

theorem deref_modify_bit (m : NodeSet ElemTy) (p q : ElemTy) :
    deref (modify m p (fun x => { x with leaderBit := false })) q =
      if q = p then (deref m p).map (fun x => { x with leaderBit := false }) else deref m q :=
  deref_modify m p q _ (fun _ => rfl)

theorem deref_merged (m : NodeSet ElemTy) {La Lb : ElemTy} (tA tB x : ElemTy) (hne : La ≠ Lb) :
    deref (merged m La Lb tA tB) x = (deref m x).map (fun r =>
      { Leader := if x = Lb then La else if x = La then tB else r.Leader
        Next := if x = tA then some Lb else r.Next
        leaderBit := if x = Lb then false else r.leaderBit
        Data := r.Data }) := by
  simp only [merged, deref_modify_next, deref_modify_leader, deref_modify_bit]
  by_cases h1 : x = Lb
  · subst h1
    have h2 : ¬ x = La := fun e => hne e.symm
    by_cases h3 : x = tA
    · subst h3
      cases deref m x <;> simp [h2]
    · cases deref m x <;> simp [h2, h3]
  · by_cases h2 : x = La
    · subst h2
      by_cases h3 : x = tA
      · subst h3
        cases deref m x <;> simp [h1]
      · cases deref m x <;> simp [h1, h3]
    · by_cases h3 : x = tA
      · subst h3
        cases deref m x <;> simp [h1, h2]
      · cases deref m x <;> simp [h1, h2, h3]

theorem length_merged (m : NodeSet ElemTy) (La Lb tA tB : ElemTy) :
    (merged m La Lb tA tB).length = m.length := by
  simp [merged, length_modify]

theorem map_data_merged (m : NodeSet ElemTy) (La Lb tA tB : ElemTy) :
    (merged m La Lb tA tB).map ECValue.Data = m.map ECValue.Data := by
  unfold merged
  rw [map_data_modify, map_data_modify, map_data_modify, map_data_modify] <;> exact fun _ => rfl

end NodeSet

namespace EquivalenceClasses

/-- A real union of two leaders whose first chain ends in a node without successor goes
through and performs the four writes. -/
theorem unionSetsIt_leaders {m : NodeSet ElemTy} {La Lb : ElemTy} {ra rb rt : ECValue ElemTy}
    (hne : La ≠ Lb) (ha : NodeSet.deref m La = some ra) (hal : ra.leaderBit = true)
    (hb : NodeSet.deref m Lb = some rb) (hbl : rb.leaderBit = true)
    (ht : NodeSet.deref m ra.Leader = some rt) (htn : rt.Next = none) :
    unionSetsIt ⟨m⟩ (some La) (some Lb) =
      .ok (some La, ⟨NodeSet.merged m La Lb ra.Leader rb.Leader⟩) := by
  have hb1 : ∃ rb1, NodeSet.deref (NodeSet.modify m ra.Leader
      (fun x => { x with Next := some Lb })) Lb = some rb1 ∧ rb1.leaderBit = true ∧
      rb1.Leader = rb.Leader := by
    rw [NodeSet.deref_modify_next]
    by_cases e : Lb = ra.Leader
    · rw [if_pos e, ← e, hb]
      exact ⟨_, rfl, hbl, rfl⟩
    · rw [if_neg e, hb]
      exact ⟨_, rfl, hbl, rfl⟩
  obtain ⟨rb1, hrb1, hbl1, hlead1⟩ := hb1
  simp only [unionSetsIt, if_neg hne, NodeSet.getEndOfList, ha, ECValue.getEndOfList,
    ECValue.isLeader, hal, if_true, NodeSet.setNext, ht, ECValue.getNext, htn, hrb1, hbl1,
    hlead1, NodeSet.merged]

/-- A union of two different nodes that went through was a real union of two leaders. -/
theorem unionSetsIt_ok {m : NodeSet ElemTy} {La Lb : ElemTy} {res : member_iterator ElemTy}
    {EC1 : EquivalenceClasses ElemTy} (hne : La ≠ Lb)
    (h : unionSetsIt ⟨m⟩ (some La) (some Lb) = .ok (res, EC1)) :
    ∃ ra rb rt, NodeSet.deref m La = some ra ∧ ra.leaderBit = true ∧
      NodeSet.deref m Lb = some rb ∧ rb.leaderBit = true ∧
      NodeSet.deref m ra.Leader = some rt ∧ rt.Next = none ∧
      res = some La ∧ EC1 = ⟨NodeSet.merged m La Lb ra.Leader rb.Leader⟩ := by
  simp only [unionSetsIt, if_neg hne, NodeSet.getEndOfList] at h
  cases ha : NodeSet.deref m La with
  | none => simp [ha] at h
  | some ra =>
    simp only [ha, ECValue.getEndOfList, ECValue.isLeader] at h
    by_cases hal : ra.leaderBit = true
    · simp only [hal, if_true, NodeSet.setNext] at h
      cases ht : NodeSet.deref m ra.Leader with
      | none => simp [ht] at h
      | some rt =>
        simp only [ht, ECValue.getNext] at h
        by_cases htn : rt.Next = none
        · simp only [htn, if_true] at h
          rw [NodeSet.deref_modify_next] at h
          cases hb : NodeSet.deref m Lb with
          | none =>
            by_cases e : Lb = ra.Leader
            · rw [← e, hb] at ht; cases ht
            · simp [e, hb] at h
          | some rb =>
            have hrb : ∃ rb1, (if Lb = ra.Leader then Option.map
                (fun x => ({ x with Next := some Lb } : ECValue ElemTy))
                (NodeSet.deref m ra.Leader) else NodeSet.deref m Lb) = some rb1 ∧
                rb1.leaderBit = rb.leaderBit ∧ rb1.Leader = rb.Leader := by
              by_cases e : Lb = ra.Leader
              · rw [if_pos e, ← e, hb]; exact ⟨_, rfl, rfl, rfl⟩
              · rw [if_neg e, hb]; exact ⟨_, rfl, rfl, rfl⟩
            obtain ⟨rb1, hrb1, hbl1, hlead1⟩ := hrb
            rw [hrb1] at h
            simp only [hbl1, hlead1] at h
            by_cases hbl : rb.leaderBit = true
            · simp only [hbl, if_true, Except.ok.injEq, Prod.mk.injEq] at h
              exact ⟨ra, rb, rt, rfl, hal, rfl, hbl, ht, htn, h.1.symm, h.2.symm⟩
            · simp [hbl] at h
        · simp [htn] at h
    · simp [hal] at h

end EquivalenceClasses
/-! ## The invariant under a union -/

theorem NodeSet.deref_merged_some (m : NodeSet ElemTy) {La Lb : ElemTy} (tA tB : ElemTy)
    (hne : La ≠ Lb) {x : ElemTy} {r : ECValue ElemTy} (hr : NodeSet.deref m x = some r) :
    NodeSet.deref (NodeSet.merged m La Lb tA tB) x = some
      { Leader := if x = Lb then La else if x = La then tB else r.Leader
        Next := if x = tA then some Lb else r.Next
        leaderBit := if x = Lb then false else r.leaderBit
        Data := r.Data } := by
  rw [NodeSet.deref_merged m tA tB x hne, hr]
  rfl

theorem NodeSet.deref_merged_inv (m : NodeSet ElemTy) {La Lb : ElemTy} (tA tB : ElemTy)
    (hne : La ≠ Lb) {x : ElemTy} {r1 : ECValue ElemTy}
    (hr : NodeSet.deref (NodeSet.merged m La Lb tA tB) x = some r1) :
    ∃ r, NodeSet.deref m x = some r ∧ r1 =
      { Leader := if x = Lb then La else if x = La then tB else r.Leader
        Next := if x = tA then some Lb else r.Next
        leaderBit := if x = Lb then false else r.leaderBit
        Data := r.Data } := by
  rw [NodeSet.deref_merged m tA tB x hne] at hr
  cases h : NodeSet.deref m x with
  | none => rw [h] at hr; cases hr
  | some r =>
    rw [h] at hr
    simp only [Option.map_some', Option.some.injEq] at hr
    exact ⟨r, rfl, hr.symm⟩

/-- A chain that avoids the old end of the first list is not touched by a union. -/
theorem IsSeg.merged_of_not_mem {m : NodeSet ElemTy} {La Lb : ElemTy} (tA tB : ElemTy)
    (hne : La ≠ Lb) {p q : Option ElemTy} {c : List ElemTy} (hc : IsSeg m p c q)
    (ht : tA ∉ c) : IsSeg (NodeSet.merged m La Lb tA tB) p c q := by
  refine IsSeg.congr ?_ hc
  intro x hx r hr
  have hxt : ¬ x = tA := fun e => ht (e ▸ hx)
  exact ⟨_, NodeSet.deref_merged_some m tA tB hne hr, by simp [hxt]⟩

/-- After a real union the chain of the first leader is its old chain followed by the old
chain of the second leader. -/
theorem Inv.merged_chain {m : NodeSet ElemTy} (h : Inv m) {La Lb : ElemTy}
    {ra rb : ECValue ElemTy} {cA cB : List ElemTy}
    (hne : La ≠ Lb) (ha : NodeSet.deref m La = some ra) (hal : ra.leaderBit = true)
    (hb : NodeSet.deref m Lb = some rb) (hbl : rb.leaderBit = true)
    (hcA : IsSeg m (some La) cA none) (hcB : IsSeg m (some Lb) cB none) :
    IsSeg (NodeSet.merged m La Lb ra.Leader rb.Leader) (some La) (cA ++ cB) none := by
  obtain ⟨c, hc, hlast, hnd⟩ := h.chain La ra ha hal
  have e : cA = c := IsSeg.unique hcA hc
  subst e
  have hclA : IsClass m La cA := ⟨⟨ra, ha, hal⟩, hcA⟩
  have hclB : IsClass m Lb cB := ⟨⟨rb, hb, hbl⟩, hcB⟩
  have htA : ra.Leader ∈ cA := List.mem_of_getLast?_eq_some hlast
  have htB : ra.Leader ∉ cB := fun hx => hne (h.disjoint La Lb cA cB _ hclA hclB htA hx)
  obtain ⟨rt, hrt, _⟩ := hcA.last_next hlast
  have h1 : IsSeg (NodeSet.merged m La Lb ra.Leader rb.Leader) (some La) cA (some Lb) := by
    refine IsSeg.redirect hcA hlast hnd ?_ ?_
    · intro x _ hxt r hr
      exact ⟨_, NodeSet.deref_merged_some m _ _ hne hr, by simp [hxt]⟩
    · exact ⟨_, NodeSet.deref_merged_some m _ _ hne hrt, by simp⟩
  exact h1.append (hcB.merged_of_not_mem _ _ hne htB)

/-- A real union of two leaders keeps the shape of the nodes. -/
theorem Inv.merged {m : NodeSet ElemTy} (h : Inv m) {La Lb : ElemTy} {ra rb : ECValue ElemTy}
    (hne : La ≠ Lb) (ha : NodeSet.deref m La = some ra) (hal : ra.leaderBit = true)
    (hb : NodeSet.deref m Lb = some rb) (hbl : rb.leaderBit = true) :
    Inv (NodeSet.merged m La Lb ra.Leader rb.Leader) := by
  obtain ⟨cA, hclA, hlastA, hndA⟩ := h.class_of_leader ha hal
  obtain ⟨cB, hclB, hlastB, hndB⟩ := h.class_of_leader hb hbl
  have hAB := h.merged_chain hne ha hal hb hbl hclA.2 hclB.2
  have htA : ra.Leader ∈ cA := List.mem_of_getLast?_eq_some hlastA
  have htB : rb.Leader ∈ cB := List.mem_of_getLast?_eq_some hlastB
  have hdisj : ∀ x, x ∈ cA → x ∈ cB → False :=
    fun x h1 h2 => hne (h.disjoint La Lb cA cB x hclA hclB h1 h2)
  have hsome : ∀ x r, NodeSet.deref m x = some r →
      ∃ r1, NodeSet.deref (NodeSet.merged m La Lb ra.Leader rb.Leader) x = some r1 :=
    fun x r hr => ⟨_, NodeSet.deref_merged_some m _ _ hne hr⟩
  -- a class of the old nodes, other than the two merged ones, is a class of the new nodes
  have hkeep : ∀ p c, IsClass m p c → p ≠ La → p ≠ Lb →
      IsClass (NodeSet.merged m La Lb ra.Leader rb.Leader) p c := by
    intro p c hc hpa hpb
    obtain ⟨⟨r, hr, hl⟩, hs⟩ := hc
    refine ⟨⟨_, NodeSet.deref_merged_some m _ _ hne hr, by simp [hpb, hl]⟩, ?_⟩
    refine hs.merged_of_not_mem _ _ hne ?_
    intro hx
    exact hpa (h.disjoint p La c cA _ ⟨⟨r, hr, hl⟩, hs⟩ hclA hx htA)
  have hchar : ∀ p c, IsClass (NodeSet.merged m La Lb ra.Leader rb.Leader) p c →
      (p = La ∧ c = cA ++ cB) ∨ (p ≠ La ∧ p ≠ Lb ∧ IsClass m p c) := by
    intro p c hc
    obtain ⟨⟨r1, hr1, hl1⟩, hs⟩ := hc
    obtain ⟨r, hr, e⟩ := NodeSet.deref_merged_inv m _ _ hne hr1
    have hpb : p ≠ Lb := by
      intro hp
      rw [e] at hl1
      simp [hp] at hl1
    have hl : r.leaderBit = true := by
      rw [e] at hl1
      simpa [hpb] using hl1
    by_cases hpa : p = La
    · subst hpa
      exact Or.inl ⟨rfl, IsSeg.unique hs hAB⟩
    · obtain ⟨c0, hc0, _, _⟩ := h.class_of_leader hr hl
      have e0 : c = c0 := IsSeg.unique hs (hkeep p c0 hc0 hpa hpb).2
      exact Or.inr ⟨hpa, hpb, e0 ▸ hc0⟩
  refine ⟨?_, ?_, ?_, ?_, ?_⟩
  · have := h.sorted
    rw [← List.pairwise_map] at this ⊢
    rw [NodeSet.map_data_merged]
    exact this
  · intro p r1 hr1
    obtain ⟨r, hr, e⟩ := NodeSet.deref_merged_inv m _ _ hne hr1
    subst e
    simp only
    split_ifs
    · exact hsome _ _ ha
    · obtain ⟨rt, hrt⟩ := hclB.2.deref_of_mem htB
      exact hsome _ _ hrt
    · obtain ⟨l, hl⟩ := h.leaderPtr p r hr
      exact hsome _ _ hl
  · intro p r1 hr1 hl1
    obtain ⟨r, hr, e⟩ := NodeSet.deref_merged_inv m _ _ hne hr1
    have hpb : p ≠ Lb := by
      intro hp
      rw [e] at hl1
      simp [hp] at hl1
    have hl : r.leaderBit = true := by
      rw [e] at hl1
      simpa [hpb] using hl1
    by_cases hpa : p = La
    · subst hpa
      refine ⟨cA ++ cB, hAB, ?_, ?_⟩
      · rw [ha] at hr
        cases hr
        rw [e]
        simp only [if_neg hne, if_true]
        obtain ⟨t, ht⟩ := hclB.2.head
        rw [ht, List.getLast?_append_cons, ← ht, hlastB]
      · exact List.nodup_append.2 ⟨hndA, hndB, fun x h1 h2 => hdisj x h1 h2⟩
    · obtain ⟨c0, hc0, hlast0, hnd0⟩ := h.class_of_leader hr hl
      refine ⟨c0, (hkeep p c0 hc0 hpa hpb).2, ?_, hnd0⟩
      rw [e]
      simp [hpa, hpb, hlast0]
  · intro p1 p2 c1 c2 x h1 h2 hx1 hx2
    rcases hchar p1 c1 h1 with ⟨e1, ec1⟩ | ⟨na1, nb1, o1⟩ <;>
      rcases hchar p2 c2 h2 with ⟨e2, ec2⟩ | ⟨na2, nb2, o2⟩
    · rw [e1, e2]
    · subst ec1
      rcases List.mem_append.1 hx1 with hx | hx
      · exact absurd (h.disjoint p2 La c2 cA x o2 hclA hx2 hx) na2
      · exact absurd (h.disjoint p2 Lb c2 cB x o2 hclB hx2 hx) nb2
    · subst ec2
      rcases List.mem_append.1 hx2 with hx | hx
      · exact absurd (h.disjoint p1 La c1 cA x o1 hclA hx1 hx) na1
      · exact absurd (h.disjoint p1 Lb c1 cB x o1 hclB hx1 hx) nb1
    · exact h.disjoint p1 p2 c1 c2 x o1 o2 hx1 hx2
  · intro x r1 hr1
    obtain ⟨r, hr, _⟩ := NodeSet.deref_merged_inv m _ _ hne hr1
    obtain ⟨p, c, hc, hxc⟩ := h.cover x r hr
    have hnew : IsClass (NodeSet.merged m La Lb ra.Leader rb.Leader) La (cA ++ cB) :=
      ⟨⟨_, NodeSet.deref_merged_some m _ _ hne ha, by simp [hne, hal]⟩, hAB⟩
    by_cases hpa : p = La
    · subst hpa
      have e : c = cA := IsSeg.unique hc.2 hclA.2
      exact ⟨p, cA ++ cB, hnew, List.mem_append.2 (Or.inl (e ▸ hxc))⟩
    · by_cases hpb : p = Lb
      · subst hpb
        have e : c = cB := IsSeg.unique hc.2 hclB.2
        exact ⟨La, cA ++ cB, hnew, List.mem_append.2 (Or.inr (e ▸ hxc))⟩
      · exact ⟨p, c, hkeep p c hc hpa hpb, hxc⟩

/-! ## Operations on a well-shaped collection -/

theorem NodeSet.deref_insert_of_some {m : NodeSet ElemTy} (v : ElemTy)
    (hs : m.Pairwise (fun a b => a.Data < b.Data)) {q : ElemTy} {r : ECValue ElemTy}
    (h : NodeSet.deref m q = some r) : NodeSet.deref (NodeSet.insert m v) q = some r := by
  by_cases e : q = v
  · subst e
    rw [NodeSet.insert_eq_self hs h, h]
  · rw [NodeSet.deref_insert_ne m e, h]

theorem NodeSet.deref_insert_same (m : NodeSet ElemTy) (v : ElemTy)
    (hs : m.Pairwise (fun a b => a.Data < b.Data)) :
    ∃ r, NodeSet.deref (NodeSet.insert m v) v = some r := by
  cases h : NodeSet.deref m v with
  | none => exact ⟨_, NodeSet.deref_insert_self m h⟩
  | some r => exact ⟨r, NodeSet.deref_insert_of_some v hs h⟩

theorem NodeSet.deref_insert_isSome (m : NodeSet ElemTy) (v q : ElemTy)
    (hs : m.Pairwise (fun a b => a.Data < b.Data)) :
    (NodeSet.deref (NodeSet.insert m v) q).isSome = true ↔
      q = v ∨ (NodeSet.deref m q).isSome = true := by
  by_cases e : q = v
  · subst e
    obtain ⟨r, hr⟩ := NodeSet.deref_insert_same m q hs
    simp [hr]
  · rw [NodeSet.deref_insert_ne m e]
    simp [e]

namespace EquivalenceClasses

/-- What `findLeader(iterator)` does on a well-shaped collection: it answers the node itself
for a leader and the target of the `Leader` pointer for any other node, and changes
nothing. -/
theorem findLeaderIt_eq {m : NodeSet ElemTy} (h : Inv m) {p : ElemTy} {r : ECValue ElemTy}
    (hr : NodeSet.deref m p = some r) :
    findLeaderIt ⟨m⟩ (some p) = .ok (some (if r.leaderBit then p else r.Leader), ⟨m⟩) := by
  obtain ⟨l, hl⟩ := h.leaderPtr p r hr
  simp only [findLeaderIt, NodeSet.getLeader_eq, hr]
  by_cases hb : r.leaderBit = true
  · simp [hb]
  · simp [hb, hl]

theorem findLeader_eq {m : NodeSet ElemTy} (h : Inv m) (v : ElemTy) :
    findLeader ⟨m⟩ v =
      match NodeSet.deref m v with
      | none => .ok (none, ⟨m⟩)
      | some r => .ok (some (if r.leaderBit then v else r.Leader), ⟨m⟩) := by
  unfold findLeader NodeSet.find
  cases hr : NodeSet.deref m v with
  | none => rfl
  | some r => exact findLeaderIt_eq h hr

/-- The two-value `unionSets` on a well-shaped collection: both values get a node, and the
iterator version is called with what `findLeader` answers for them. -/
theorem unionSets_eq {m : NodeSet ElemTy} (h : Inv m) (a b : ElemTy) :
    ∃ ra rb, NodeSet.deref (NodeSet.insert (NodeSet.insert m a) b) a = some ra ∧
      NodeSet.deref (NodeSet.insert (NodeSet.insert m a) b) b = some rb ∧
      unionSets ⟨m⟩ a b = unionSetsIt ⟨NodeSet.insert (NodeSet.insert m a) b⟩
        (some (if ra.leaderBit then a else ra.Leader))
        (some (if rb.leaderBit then b else rb.Leader)) := by
  have h1 := h.insert a
  have h2 := h1.insert b
  obtain ⟨ra, hra⟩ := NodeSet.deref_insert_same m a h.sorted
  obtain ⟨rb, hrb⟩ := NodeSet.deref_insert_same (NodeSet.insert m a) b h1.sorted
  have hra2 := NodeSet.deref_insert_of_some b h1.sorted hra
  refine ⟨ra, rb, hra2, hrb, ?_⟩
  simp only [unionSets, insert, findLeaderIt_eq h1 hra, findLeaderIt_eq h2 hrb]

theorem unionSets_inv {m : NodeSet ElemTy} (h : Inv m) {a b : ElemTy}
    {res : member_iterator ElemTy} {EC1 : EquivalenceClasses ElemTy}
    (hu : unionSets ⟨m⟩ a b = .ok (res, EC1)) : Inv EC1.TheMapping := by
  obtain ⟨ra, rb, hra, hrb, e⟩ := unionSets_eq h a b
  rw [e] at hu
  have h2 := (h.insert a).insert b
  by_cases hne : (if ra.leaderBit then a else ra.Leader) = (if rb.leaderBit then b else rb.Leader)
  · simp only [unionSetsIt, hne, if_true, Except.ok.injEq, Prod.mk.injEq] at hu
    rw [← hu.2]
    exact h2
  · obtain ⟨la, lb, lt, hla, hlal, hlb, hlbl, _, _, _, e1⟩ := unionSetsIt_ok hne hu
    rw [e1]
    exact h2.merged hne hla hlal hlb hlbl

/-- Nodes are never removed by `unionSets`, and only the two arguments are added. -/
theorem unionSets_isSome {m : NodeSet ElemTy} (h : Inv m) {a b : ElemTy}
    {res : member_iterator ElemTy} {EC1 : EquivalenceClasses ElemTy}
    (hu : unionSets ⟨m⟩ a b = .ok (res, EC1)) (q : ElemTy) :
    (NodeSet.deref EC1.TheMapping q).isSome = true ↔
      (q = a ∨ q = b) ∨ (NodeSet.deref m q).isSome = true := by
  obtain ⟨ra, rb, hra, hrb, e⟩ := unionSets_eq h a b
  rw [e] at hu
  have h1 := h.insert a
  have key : (NodeSet.deref (NodeSet.insert (NodeSet.insert m a) b) q).isSome = true ↔
      (q = a ∨ q = b) ∨ (NodeSet.deref m q).isSome = true := by
    rw [NodeSet.deref_insert_isSome _ _ _ h1.sorted, NodeSet.deref_insert_isSome _ _ _ h.sorted]
    tauto
  by_cases hne : (if ra.leaderBit then a else ra.Leader) = (if rb.leaderBit then b else rb.Leader)
  · simp only [unionSetsIt, hne, if_true, Except.ok.injEq, Prod.mk.injEq] at hu
    rw [← hu.2]
    exact key
  · obtain ⟨la, lb, lt, hla, hlal, hlb, hlbl, _, _, _, e1⟩ := unionSetsIt_ok hne hu
    rw [e1, ← key]
    simp only [NodeSet.deref_merged _ _ _ _ hne, Option.isSome_map']

end EquivalenceClasses

theorem Op.apply_inv {EC EC1 : EquivalenceClasses ElemTy} (h : Inv EC.TheMapping)
    {op : Op ElemTy} (ha : op.apply EC = .ok EC1) : Inv EC1.TheMapping := by
  cases op with
  | insert v =>
    simp only [Op.apply, EquivalenceClasses.insert, Except.ok.injEq] at ha
    rw [← ha]
    exact h.insert v
  | unionSets a b =>
    simp only [Op.apply] at ha
    cases hu : EC.unionSets a b with
    | error e => rw [hu] at ha; cases ha
    | ok x =>
      obtain ⟨res, EC2⟩ := x
      rw [hu] at ha
      simp only [Except.ok.injEq] at ha
      rw [← ha]
      exact EquivalenceClasses.unionSets_inv h hu

theorem Op.apply_isSome {EC EC1 : EquivalenceClasses ElemTy} (h : Inv EC.TheMapping)
    {op : Op ElemTy} (ha : op.apply EC = .ok EC1) (q : ElemTy) :
    (NodeSet.deref EC1.TheMapping q).isSome = true ↔
      q ∈ op.args ∨ (NodeSet.deref EC.TheMapping q).isSome = true := by
  cases op with
  | insert v =>
    simp only [Op.apply, EquivalenceClasses.insert, Except.ok.injEq] at ha
    rw [← ha]
    simp only [Op.args, List.mem_singleton]
    exact NodeSet.deref_insert_isSome _ _ _ h.sorted
  | unionSets a b =>
    simp only [Op.apply] at ha
    cases hu : EC.unionSets a b with
    | error e => rw [hu] at ha; cases ha
    | ok x =>
      obtain ⟨res, EC2⟩ := x
      rw [hu] at ha
      simp only [Except.ok.injEq] at ha
      rw [← ha]
      simp only [Op.args, List.mem_cons, List.mem_singleton, List.not_mem_nil, or_false]
      exact EquivalenceClasses.unionSets_isSome h hu q

theorem runFrom_inv {ops : List (Op ElemTy)} {EC EC1 : EquivalenceClasses ElemTy}
    (h : Inv EC.TheMapping) (hr : runFrom EC ops = .ok EC1) : Inv EC1.TheMapping := by
  induction ops generalizing EC with
  | nil =>
    simp only [runFrom, Except.ok.injEq] at hr
    rw [← hr]; exact h
  | cons op ops ih =>
    simp only [runFrom] at hr
    cases ha : op.apply EC with
    | error e => rw [ha] at hr; cases hr
    | ok EC2 =>
      rw [ha] at hr
      exact ih (Op.apply_inv h ha) hr

theorem runFrom_isSome {ops : List (Op ElemTy)} {EC EC1 : EquivalenceClasses ElemTy}
    (h : Inv EC.TheMapping) (hr : runFrom EC ops = .ok EC1) (q : ElemTy) :
    (NodeSet.deref EC1.TheMapping q).isSome = true ↔
      (∃ op ∈ ops, q ∈ op.args) ∨ (NodeSet.deref EC.TheMapping q).isSome = true := by
  induction ops generalizing EC with
  | nil =>
    simp only [runFrom, Except.ok.injEq] at hr
    rw [← hr]; simp
  | cons op ops ih =>
    simp only [runFrom] at hr
    cases ha : op.apply EC with
    | error e => rw [ha] at hr; cases hr
    | ok EC2 =>
      rw [ha] at hr
      rw [ih (Op.apply_inv h ha) hr, Op.apply_isSome h ha q]
      simp only [List.mem_cons, exists_eq_or_imp]
      constructor
      · rintro (h1 | h1 | h1)
        · exact Or.inl (Or.inr h1)
        · exact Or.inl (Or.inl h1)
        · exact Or.inr h1
      · rintro ((h1 | h1) | h1)
        · exact Or.inr (Or.inl h1)
        · exact Or.inl h1
        · exact Or.inr (Or.inr h1)

theorem Reachable.inv {EC : EquivalenceClasses ElemTy} (h : Reachable EC) :
    Inv EC.TheMapping := by
  obtain ⟨ops, hr⟩ := h
  exact runFrom_inv Inv.nil hr

/-! ## The member loop -/

namespace EquivalenceClasses

theorem membersFuel_none (fuel : Nat) (EC : EquivalenceClasses ElemTy) :
    membersFuel fuel EC none = .ok [] := by
  cases fuel <;> rfl

/-- The member loop walks a chain that ends, given a round per node of the chain. -/
theorem membersFuel_of_seg {m : NodeSet ElemTy} {p : Option ElemTy} {c : List ElemTy}
    (hs : IsSeg m p c none) {fuel : Nat} (hf : c.length ≤ fuel) :
    membersFuel fuel ⟨m⟩ p = .ok c := by
  induction c generalizing p fuel with
  | nil =>
    have e : p = none := hs
    rw [e, membersFuel_none]
  | cons x xs ih =>
    obtain ⟨hp, r, hr, hrest⟩ := hs
    cases fuel with
    | zero => simp at hf
    | succ n =>
      have hd := NodeSet.deref_data hr
      rw [hp]
      simp only [membersFuel, star, incr, hr, ECValue.getData, ECValue.getNext,
        ih hrest (Nat.le_of_succ_le_succ hf), hd]

/-- What the member loop returns is a chain that ends. -/
theorem seg_of_membersFuel {m : NodeSet ElemTy} {fuel : Nat} {p : Option ElemTy}
    {c : List ElemTy} (h : membersFuel fuel ⟨m⟩ p = .ok c) : IsSeg m p c none := by
  induction fuel generalizing p c with
  | zero =>
    cases p with
    | none =>
      rw [membersFuel_none] at h
      cases h
      exact rfl
    | some x => simp [membersFuel] at h
  | succ n ih =>
    cases p with
    | none =>
      rw [membersFuel_none] at h
      cases h
      exact rfl
    | some x =>
      simp only [membersFuel, star, incr] at h
      cases hr : NodeSet.deref m x with
      | none => simp [hr] at h
      | some r =>
        simp only [hr, ECValue.getData, ECValue.getNext] at h
        cases hrest : membersFuel n ⟨m⟩ r.Next with
        | error e => simp [hrest] at h
        | ok rest =>
          simp only [hrest, Except.ok.injEq] at h
          have hd := NodeSet.deref_data hr
          rw [← h, hd]
          exact ⟨rfl, r, hr, ih hrest⟩

end EquivalenceClasses

/-- A chain without repetition has at most as many nodes as the set. -/
theorem IsSeg.length_le {m : NodeSet ElemTy} {p q : Option ElemTy} {c : List ElemTy}
    (hs : IsSeg m p c q) (hnd : c.Nodup) : c.length ≤ m.length := by
  have hsub : c ⊆ m.map ECValue.Data := by
    intro x hx
    obtain ⟨r, hr⟩ := hs.deref_of_mem hx
    exact List.mem_map.2 ⟨r, NodeSet.deref_mem hr, NodeSet.deref_data hr⟩
  have := (hnd.subperm hsub).length_le
  simpa using this

/-- In a well-shaped collection the member loop from a leader returns its chain. -/
theorem Inv.members_eq {m : NodeSet ElemTy} (h : Inv m) {p : ElemTy} {c : List ElemTy}
    (hc : IsClass m p c) : EquivalenceClasses.members ⟨m⟩ (some p) = .ok c := by
  obtain ⟨⟨r, hr, hl⟩, hs⟩ := hc
  obtain ⟨c0, hc0, _, hnd⟩ := h.chain p r hr hl
  have e : c = c0 := IsSeg.unique hs hc0
  subst e
  exact EquivalenceClasses.membersFuel_of_seg hs (hs.length_le hnd)

/-! ## Which checks `unionSets` can violate -/

end

/-- C1 (fails on the code): after `unionSets(1,2); unionSets(3,1)` the call `findLeader(2)`
returns the node of `1`, which is not a leader: `getLeader` returns the `Leader` pointer of a
non-leader when its target is itself a non-leader. -/
theorem C1_findLeader_returns_member :
    ∃ EC : EquivalenceClasses Int,
      run [.unionSets 1 2, .unionSets 3 1] = .ok EC ∧
      EC.findLeader 2 = .ok (some 1, EC) ∧
      (NodeSet.deref EC.TheMapping 1).map ECValue.isLeader = some false ∧
      (NodeSet.deref EC.TheMapping 3).map ECValue.isLeader = some true ∧
      EC.members (some 3) = .ok [3, 1, 2] :=
  ⟨⟨[⟨3, some 2, false, 1⟩, ⟨1, none, false, 2⟩, ⟨2, some 1, true, 3⟩]⟩,
   by decide, by decide, by decide, by decide, by decide⟩

/-- C2 (fails on the code): after `unionSets(1,2)`, the call `unionSets(3,2)` returns the
node of `3`, and afterwards `findLeader(3)` is the node of `3` while `findLeader(2)` is the
node of `1`. -/
theorem C2_union_then_two_answers :
    ∃ EC0 EC1 : EquivalenceClasses Int,
      run [.unionSets 1 2] = .ok EC0 ∧
      EC0.unionSets 3 2 = .ok (some 3, EC1) ∧
      EC1.findLeader 3 = .ok (some 3, EC1) ∧
      EC1.findLeader 2 = .ok (some 1, EC1) :=
  ⟨⟨[⟨2, some 2, true, 1⟩, ⟨1, none, false, 2⟩]⟩,
   ⟨[⟨3, some 2, false, 1⟩, ⟨1, none, false, 2⟩, ⟨2, some 1, true, 3⟩]⟩,
   by decide, by decide, by decide, by decide⟩

/-- C3 (fails on the code): after `unionSets(1,2)` the values `1` and `2` have the same
`findLeader`; after a further `unionSets(3,1)` they no longer have: `findLeader(1)` is the
node of `3` and `findLeader(2)` the node of `1`. -/
theorem C3_union_separates :
    ∃ EC0 EC1 : EquivalenceClasses Int,
      run [.unionSets 1 2] = .ok EC0 ∧
      EC0.findLeader 1 = .ok (some 1, EC0) ∧
      EC0.findLeader 2 = .ok (some 1, EC0) ∧
      EC0.unionSets 3 1 = .ok (some 3, EC1) ∧
      EC1.findLeader 1 = .ok (some 3, EC1) ∧
      EC1.findLeader 2 = .ok (some 1, EC1) :=
  ⟨⟨[⟨2, some 2, true, 1⟩, ⟨1, none, false, 2⟩]⟩,
   ⟨[⟨3, some 2, false, 1⟩, ⟨1, none, false, 2⟩, ⟨2, some 1, true, 3⟩]⟩,
   by decide, by decide, by decide, by decide, by decide, by decide⟩

/-- C4 (fails on the code): after `unionSets(1,2); unionSets(3,1)`, with `a = 2` and `b = 4`
the representatives computed after the insertions are the nodes of `1` and `4`, which are
different, and `unionSets(2,4)` stops at the check of `getEndOfList` instead of returning
the node of `1`, which is not a leader. -/
theorem C4_union_from_member_fails :
    ∃ EC EC1 : EquivalenceClasses Int,
      run [.unionSets 1 2, .unionSets 3 1] = .ok EC ∧
      ((EC.insert 2).2.insert 4).2 = EC1 ∧
      EC1.findLeader 2 = .ok (some 1, EC1) ∧
      EC1.findLeader 4 = .ok (some 4, EC1) ∧
      (NodeSet.deref EC1.TheMapping 1).map ECValue.isLeader = some false ∧
      EC.unionSets 2 4 = .error .EndOfListOfNonLeader :=
  ⟨⟨[⟨3, some 2, false, 1⟩, ⟨1, none, false, 2⟩, ⟨2, some 1, true, 3⟩]⟩,
   ⟨[⟨3, some 2, false, 1⟩, ⟨1, none, false, 2⟩, ⟨2, some 1, true, 3⟩, ⟨4, none, true, 4⟩]⟩,
   by decide, by decide, by decide, by decide, by decide, by decide⟩

/-- C5: on a reachable collection, for two different leaders `La` and `Lb` whose member
walks are `A` and `B`, the call `unionSets(La, Lb)` goes through, returns `La`, and
afterwards the member walk from `La` is `A ++ B`. -/
theorem C5_merge_traversal_order {ElemTy : Type} [LinearOrder ElemTy]
    (EC : EquivalenceClasses ElemTy) (La Lb : ElemTy) (A B : List ElemTy)
    (hR : Reachable EC)
    (hLa : ∃ r, NodeSet.deref EC.TheMapping La = some r ∧ r.isLeader = true)
    (hLb : ∃ r, NodeSet.deref EC.TheMapping Lb = some r ∧ r.isLeader = true)
    (hne : La ≠ Lb)
    (hA : EC.members (some La) = .ok A) (hB : EC.members (some Lb) = .ok B) :
    ∃ EC1, EC.unionSetsIt (some La) (some Lb) = .ok (some La, EC1) ∧
      EC1.members (some La) = .ok (A ++ B) := by
  have h := hR.inv
  obtain ⟨ra, hra, hal⟩ := hLa
  obtain ⟨rb, hrb, hbl⟩ := hLb
  have hsA := EquivalenceClasses.seg_of_membersFuel hA
  have hsB := EquivalenceClasses.seg_of_membersFuel hB
  obtain ⟨c, hc, hlast, _⟩ := h.chain La ra hra hal
  obtain ⟨rt, hrt, htn⟩ := hc.last_next hlast
  refine ⟨_, EquivalenceClasses.unionSetsIt_leaders hne hra hal hrb hbl hrt htn, ?_⟩
  have hm := h.merged hne hra hal hrb hbl
  refine hm.members_eq ⟨⟨_, NodeSet.deref_merged_some _ _ _ hne hra, ?_⟩,
    h.merged_chain hne hra hal hrb hbl hsA hsB⟩
  simpa [hne] using hal

/-- C5 at `unionSets(1,2); insert(4); insert(5)` with the leaders `5` and `1`. -/
theorem C5_merge_traversal_order_witness :
    ∃ EC : EquivalenceClasses Int,
      run [.unionSets 1 2, .insert 4, .insert 5] = .ok EC ∧
      ∃ EC1, EC.unionSetsIt (some 5) (some 1) = .ok (some 5, EC1) ∧
        EC1.members (some 5) = .ok ([5] ++ [1, 2]) :=
  ⟨⟨[⟨2, some 2, true, 1⟩, ⟨1, none, false, 2⟩, ⟨4, none, true, 4⟩, ⟨5, none, true, 5⟩]⟩,
   by decide,
   C5_merge_traversal_order _ 5 1 [5] [1, 2]
     ⟨[.unionSets 1 2, .insert 4, .insert 5], by decide⟩
     ⟨⟨5, none, true, 5⟩, by decide, by decide⟩
     ⟨⟨2, some 2, true, 1⟩, by decide, by decide⟩
     (by decide) (by decide) (by decide)⟩

/-- C6: the example of the class comment: `unionSets(1,2)` returns `1`, then after
`insert(4); insert(5)` the call `unionSets(5,1)` returns `5`; the loop over all nodes that
walks the members of each leader yields `[4]` and then `[5, 1, 2]`, and `getNumClasses()`
is `2`. -/
theorem C6_documented_example :
    ∃ EC1 EC2 : EquivalenceClasses Int,
      EquivalenceClasses.empty.unionSets 1 2 = .ok (some 1, EC1) ∧
      ((EC1.insert 4).2.insert 5).2.unionSets 5 1 = .ok (some 5, EC2) ∧
      EC2.classes = [.ok [4], .ok [5, 1, 2]] ∧
      EC2.getNumClasses = 2 :=
  ⟨⟨[⟨2, some 2, true, 1⟩, ⟨1, none, false, 2⟩]⟩,
   ⟨[⟨5, some 2, false, 1⟩, ⟨1, none, false, 2⟩, ⟨4, none, true, 4⟩, ⟨2, some 1, true, 5⟩]⟩,
   by decide, by decide, by decide, by decide⟩

/-- C7 (fails on the code): after `unionSets(1,2); unionSets(3,1)` the values `1` and `2`
are both on the member walk of the leader `3`, yet `unionSets(1,2)` stops at the check of
`getEndOfList`, and `unionSets(2,2)` returns the node of `1`, which is not the leader. -/
theorem C7_same_class_union_not_noop :
    ∃ EC : EquivalenceClasses Int,
      run [.unionSets 1 2, .unionSets 3 1] = .ok EC ∧
      (NodeSet.deref EC.TheMapping 3).map ECValue.isLeader = some true ∧
      EC.members (some 3) = .ok [3, 1, 2] ∧
      EC.unionSets 1 2 = .error .EndOfListOfNonLeader ∧
      EC.unionSets 2 2 = .ok (some 1, EC) :=
  ⟨⟨[⟨3, some 2, false, 1⟩, ⟨1, none, false, 2⟩, ⟨2, some 1, true, 3⟩]⟩,
   by decide, by decide, by decide, by decide, by decide⟩

/-- C8 (fails on the code): after `unionSets(1,2); unionSets(3,1)` the call `unionSets(2,3)`
violates the check "Cannot get the end of a list for a non-leader!". -/
theorem C8_unionSets_fails :
    ∃ EC : EquivalenceClasses Int,
      run [.unionSets 1 2, .unionSets 3 1] = .ok EC ∧
      EC.unionSets 2 3 = .error .EndOfListOfNonLeader :=
  ⟨⟨[⟨3, some 2, false, 1⟩, ⟨1, none, false, 2⟩, ⟨2, some 1, true, 3⟩]⟩,
   by decide, by decide⟩

/-- C9: on the collection that a sequence of calls builds, `findLeader(v)` goes through and
leaves the collection as it is; what it returns is the end iterator exactly when no call of
the sequence named `v`. -/
theorem C9_findLeader_not_found_iff {ElemTy : Type} [LinearOrder ElemTy]
    (ops : List (Op ElemTy)) (EC : EquivalenceClasses ElemTy) (v : ElemTy)
    (h : run ops = .ok EC) :
    ∃ MI, EC.findLeader v = .ok (MI, EC) ∧
      (MI = EquivalenceClasses.member_end ↔ ¬ ∃ op ∈ ops, v ∈ op.args) := by
  have hinv : Inv EC.TheMapping := runFrom_inv Inv.nil h
  have hkeys := runFrom_isSome Inv.nil h v
  simp only [EquivalenceClasses.empty, NodeSet.deref_nil, Option.isSome_none,
    Bool.false_eq_true, or_false] at hkeys
  rw [show EC = ⟨EC.TheMapping⟩ from rfl, EquivalenceClasses.findLeader_eq hinv v]
  cases hr : NodeSet.deref EC.TheMapping v with
  | none =>
    refine ⟨none, rfl, ?_⟩
    rw [← hkeys, hr]
    simp [EquivalenceClasses.member_end]
  | some r =>
    refine ⟨_, rfl, ?_⟩
    rw [← hkeys, hr]
    simp [EquivalenceClasses.member_end]

/-- C9 at `unionSets(1,2); insert(4)` and the value `5`. -/
theorem C9_findLeader_not_found_iff_witness :
    ∃ EC : EquivalenceClasses Int,
      run [.unionSets 1 2, .insert 4] = .ok EC ∧
      ∃ MI, EC.findLeader 5 = .ok (MI, EC) ∧
        (MI = EquivalenceClasses.member_end ↔
          ¬ ∃ op ∈ [Op.unionSets (1 : Int) 2, .insert 4], (5 : Int) ∈ op.args) :=
  ⟨⟨[⟨2, some 2, true, 1⟩, ⟨1, none, false, 2⟩, ⟨4, none, true, 4⟩]⟩, by decide,
   C9_findLeader_not_found_iff _ _ 5 (by decide)⟩

/-- C10: on a reachable collection, `insert(v)` of a value that has a node returns the
iterator of that node and leaves the whole collection, and so the node, as it is. -/
theorem C10_insert_idempotent {ElemTy : Type} [LinearOrder ElemTy]
    (EC : EquivalenceClasses ElemTy) (v : ElemTy) (r : ECValue ElemTy)
    (hR : Reachable EC) (hr : NodeSet.deref EC.TheMapping v = some r) :
    EC.insert v = (some v, EC) ∧ NodeSet.deref (EC.insert v).2.TheMapping v = some r := by
  have e : EC.insert v = (some v, EC) := by
    simp only [EquivalenceClasses.insert, NodeSet.insert_eq_self hR.inv.sorted hr]
  rw [e]
  exact ⟨rfl, hr⟩

/-- C10 at `unionSets(1,2); unionSets(3,1)` and the value `1`, a non-leader with a
successor. -/
theorem C10_insert_idempotent_witness :
    ∃ EC : EquivalenceClasses Int,
      run [.unionSets 1 2, .unionSets 3 1] = .ok EC ∧
      NodeSet.deref EC.TheMapping 1 = some ⟨3, some 2, false, 1⟩ ∧
      EC.insert 1 = (some 1, EC) ∧
      NodeSet.deref (EC.insert 1).2.TheMapping 1 = some ⟨3, some 2, false, 1⟩ :=
  ⟨⟨[⟨3, some 2, false, 1⟩, ⟨1, none, false, 2⟩, ⟨2, some 1, true, 3⟩]⟩,
   by decide, by decide,
   C10_insert_idempotent _ 1 ⟨3, some 2, false, 1⟩
     ⟨[.unionSets 1 2, .unionSets 3 1], by decide⟩ (by decide)⟩

end llvm

/-! ## Counting leaders; bits under the operations -/

namespace llvm

/-- The count of `getNumClasses()` is the number of nodes that are leaders. -/
theorem EquivalenceClasses.getNumClasses_eq {ElemTy : Type} (EC : EquivalenceClasses ElemTy) :
    EC.getNumClasses = EC.TheMapping.countP (fun I => I.isLeader) := by
  have key : ∀ (l : List (ECValue ElemTy)) (n : Nat),
      l.foldl (fun NC I => if I.isLeader then NC + 1 else NC) n =
        n + l.countP (fun I => I.isLeader) := by
    intro l
    induction l with
    | nil => intro n; simp
    | cons a rs ih =>
      intro n
      rw [List.foldl_cons, ih, List.countP_cons]
      by_cases ha : a.isLeader = true
      · simp only [ha, if_true]
        rw [Nat.add_assoc, Nat.add_comm 1]
      · simp only [ha, if_false]; rfl
  unfold getNumClasses
  rw [key, Nat.zero_add]

section
variable {ElemTy : Type} [LinearOrder ElemTy]

theorem NodeSet.countP_insert_new {m : NodeSet ElemTy} {v : ElemTy}
    (h : NodeSet.deref m v = none) :
    (NodeSet.insert m v).countP (fun I => I.isLeader) =
      m.countP (fun I => I.isLeader) + 1 := by
  induction m with
  | nil => simp [NodeSet.insert, ECValue.ofElt, ECValue.isLeader]
  | cons a rs ih =>
    rw [NodeSet.deref_cons] at h
    split_ifs at h with h0
    unfold NodeSet.insert
    split_ifs with h1 h2
    · rw [List.countP_cons]
      simp [ECValue.ofElt, ECValue.isLeader]
    · rw [List.countP_cons, List.countP_cons, ih h]
      omega
    · exact absurd (le_antisymm (not_lt.1 h1) (not_lt.1 h2)) h0

theorem NodeSet.length_insert_new {m : NodeSet ElemTy} {v : ElemTy}
    (h : NodeSet.deref m v = none) : (NodeSet.insert m v).length = m.length + 1 := by
  induction m with
  | nil => simp [NodeSet.insert]
  | cons a rs ih =>
    rw [NodeSet.deref_cons] at h
    split_ifs at h with h0
    unfold NodeSet.insert
    split_ifs with h1 h2
    · simp
    · simp [ih h]
    · exact absurd (le_antisymm (not_lt.1 h1) (not_lt.1 h2)) h0

/-- A union that went through leaves every node in the set and sets no leader bit. -/
theorem EquivalenceClasses.unionSetsIt_bit {m : NodeSet ElemTy} {L1 L2 res : member_iterator ElemTy}
    {EC1 : EquivalenceClasses ElemTy} (hu : unionSetsIt ⟨m⟩ L1 L2 = .ok (res, EC1))
    {p : ElemTy} {r : ECValue ElemTy} (hr : NodeSet.deref m p = some r) :
    ∃ r1, NodeSet.deref EC1.TheMapping p = some r1 ∧
      (r1.leaderBit = true → r.leaderBit = true) := by
  cases L1 with
  | none => simp [unionSetsIt] at hu
  | some la =>
    cases L2 with
    | none => simp [unionSetsIt] at hu
    | some lb =>
      by_cases hne : la = lb
      · simp only [unionSetsIt, hne, if_true, Except.ok.injEq, Prod.mk.injEq] at hu
        rw [← hu.2]
        exact ⟨r, hr, id⟩
      · obtain ⟨ra, rb, rt, _, _, _, _, _, _, _, e1⟩ := unionSetsIt_ok hne hu
        rw [e1]
        refine ⟨_, NodeSet.deref_merged_some m _ _ hne hr, ?_⟩
        simp only
        split_ifs <;> simp

theorem EquivalenceClasses.unionSets_bit {m : NodeSet ElemTy} (h : Inv m) {a b : ElemTy}
    {res : member_iterator ElemTy} {EC1 : EquivalenceClasses ElemTy}
    (hu : unionSets ⟨m⟩ a b = .ok (res, EC1))
    {p : ElemTy} {r : ECValue ElemTy} (hr : NodeSet.deref m p = some r) :
    ∃ r1, NodeSet.deref EC1.TheMapping p = some r1 ∧
      (r1.leaderBit = true → r.leaderBit = true) := by
  obtain ⟨ra, rb, _, _, e⟩ := unionSets_eq h a b
  rw [e] at hu
  have hr2 := NodeSet.deref_insert_of_some b (h.insert a).sorted
    (NodeSet.deref_insert_of_some a h.sorted hr)
  exact unionSetsIt_bit hu hr2

theorem NodeSet.setNext_bit {m m1 : NodeSet ElemTy} {q n : ElemTy}
    (hs : NodeSet.setNext m q n = .ok m1) (p : ElemTy) :
    (NodeSet.deref m1 p).map ECValue.isLeader = (NodeSet.deref m p).map ECValue.isLeader := by
  unfold NodeSet.setNext at hs
  cases hq : NodeSet.deref m q with
  | none => simp [hq] at hs
  | some rq =>
    simp only [hq] at hs
    split_ifs at hs
    simp only [Except.ok.injEq] at hs
    rw [← hs, NodeSet.deref_modify_next]
    by_cases e : p = q
    · subst e
      simp [hq, ECValue.isLeader]
    · simp [e]

end
end llvm

/-! ## The classes after an operation; the `Leader` pointers of the other nodes -/

namespace llvm
section
variable {ElemTy : Type} [LinearOrder ElemTy]

/-- The classes after the insertion of a new value: the new singleton and the old ones. -/
theorem Inv.class_insert_new {m : NodeSet ElemTy} (h : Inv m) {v : ElemTy}
    (hv : NodeSet.deref m v = none) {p : ElemTy} {c : List ElemTy}
    (hc : IsClass (NodeSet.insert m v) p c) :
    (p = v ∧ c = [v]) ∨ (p ≠ v ∧ IsClass m p c) := by
  have hself := NodeSet.deref_insert_self m hv
  have hold : ∀ q r, NodeSet.deref m q = some r → q ≠ v := by
    intro q r hq e
    rw [e, hv] at hq
    cases hq
  by_cases hp : p = v
  · subst hp
    exact Or.inl ⟨rfl, IsSeg.unique hc.2 ⟨rfl, _, hself, rfl⟩⟩
  · obtain ⟨⟨r, hr, hl⟩, hs⟩ := hc
    rw [NodeSet.deref_insert_ne m hp] at hr
    obtain ⟨c0, hc0, _, _⟩ := h.class_of_leader hr hl
    have hfwd : IsSeg (NodeSet.insert m v) (some p) c0 none := by
      refine IsSeg.congr ?_ hc0.2
      intro x _ r0 hr0
      exact ⟨r0, by rw [NodeSet.deref_insert_ne m (hold x r0 hr0), hr0], rfl⟩
    have e : c = c0 := IsSeg.unique hs hfwd
    exact Or.inr ⟨hp, e ▸ hc0⟩

/-- The classes after a real union: the merged one and the old ones other than the two. -/
theorem Inv.class_merged {m : NodeSet ElemTy} (h : Inv m) {La Lb : ElemTy}
    {ra rb : ECValue ElemTy} {cA cB : List ElemTy}
    (hne : La ≠ Lb) (ha : NodeSet.deref m La = some ra) (hal : ra.leaderBit = true)
    (hb : NodeSet.deref m Lb = some rb) (hbl : rb.leaderBit = true)
    (hcA : IsSeg m (some La) cA none) (hcB : IsSeg m (some Lb) cB none)
    {p : ElemTy} {c : List ElemTy}
    (hc : IsClass (NodeSet.merged m La Lb ra.Leader rb.Leader) p c) :
    (p = La ∧ c = cA ++ cB) ∨ (p ≠ La ∧ p ≠ Lb ∧ IsClass m p c) := by
  have hAB := h.merged_chain hne ha hal hb hbl hcA hcB
  obtain ⟨c1, hc1, hlast1, _⟩ := h.chain La ra ha hal
  have e1 : cA = c1 := IsSeg.unique hcA hc1
  subst e1
  have htA : ra.Leader ∈ cA := List.mem_of_getLast?_eq_some hlast1
  obtain ⟨⟨r1, hr1, hl1⟩, hs⟩ := hc
  obtain ⟨r, hr, e⟩ := NodeSet.deref_merged_inv m _ _ hne hr1
  have hpb : p ≠ Lb := by
    intro hp
    rw [e] at hl1
    simp [hp] at hl1
  have hl : r.leaderBit = true := by
    rw [e] at hl1
    simpa [hpb] using hl1
  by_cases hpa : p = La
  · subst hpa
    exact Or.inl ⟨rfl, IsSeg.unique hs hAB⟩
  · obtain ⟨c0, hc0, _, _⟩ := h.class_of_leader hr hl
    have hkeep : IsSeg (NodeSet.merged m La Lb ra.Leader rb.Leader) (some p) c0 none := by
      refine hc0.2.merged_of_not_mem _ _ hne ?_
      intro hx
      exact hpa (h.disjoint p La c0 cA _ hc0 ⟨⟨ra, ha, hal⟩, hcA⟩ hx htA)
    have e0 : c = c0 := IsSeg.unique hs hkeep
    exact Or.inr ⟨hpa, hpb, e0 ▸ hc0⟩

theorem Anchored.anchored_nil : Anchored ([] : NodeSet ElemTy) := by
  intro p c x rx hc
  obtain ⟨⟨r, hr, _⟩, _⟩ := hc
  simp [NodeSet.deref_nil] at hr

theorem Anchored.anchored_insert {m : NodeSet ElemTy} (ha : Anchored m) (h : Inv m) (v : ElemTy) :
    Anchored (NodeSet.insert m v) := by
  cases hv : NodeSet.deref m v with
  | some r => rw [NodeSet.insert_eq_self h.sorted hv]; exact ha
  | none =>
    intro p c x rx hc hx hrx hbit
    rcases h.class_insert_new hv hc with ⟨_, ec⟩ | ⟨_, hold⟩
    · subst ec
      rw [List.mem_singleton] at hx
      subst hx
      rw [NodeSet.deref_insert_self m hv] at hrx
      cases hrx
      simp [ECValue.ofElt] at hbit
    · obtain ⟨r0, hr0⟩ := hold.2.deref_of_mem hx
      have hxv : x ≠ v := by
        intro e
        rw [e, hv] at hr0
        cases hr0
      rw [NodeSet.deref_insert_ne m hxv] at hrx
      exact ha p c x rx hold hx hrx hbit

/-- A real union keeps the `Leader` pointers of the nodes that are not leaders pointing
backwards in their chains: the demoted leader points at the head of the merged chain. -/
theorem Anchored.anchored_merged {m : NodeSet ElemTy} (hanch : Anchored m) (h : Inv m) {La Lb : ElemTy}
    {ra rb : ECValue ElemTy}
    (hne : La ≠ Lb) (ha : NodeSet.deref m La = some ra) (hal : ra.leaderBit = true)
    (hb : NodeSet.deref m Lb = some rb) (hbl : rb.leaderBit = true) :
    Anchored (NodeSet.merged m La Lb ra.Leader rb.Leader) := by
  obtain ⟨cA, hclA, _, _⟩ := h.class_of_leader ha hal
  obtain ⟨cB, hclB, _, _⟩ := h.class_of_leader hb hbl
  obtain ⟨tA, hcA⟩ := hclA.2.head
  obtain ⟨tB, hcB⟩ := hclB.2.head
  have hLaA : La ∈ cA := by rw [hcA]; exact List.mem_cons_self _ _
  have hLbB : Lb ∈ cB := by rw [hcB]; exact List.mem_cons_self _ _
  have hdisj : ∀ x, x ∈ cA → x ∈ cB → False :=
    fun x h1 h2 => hne (h.disjoint La Lb cA cB x hclA hclB h1 h2)
  intro p c x rx hc hx hrx hbit
  obtain ⟨r, hr, e⟩ := NodeSet.deref_merged_inv m _ _ hne hrx
  rcases h.class_merged hne ha hal hb hbl hclA.2 hclB.2 hc with ⟨_, ec⟩ | ⟨hpa, hpb, hold⟩
  · subst ec
    by_cases hxA : x ∈ cA
    · have hxb : x ≠ Lb := fun e1 => hdisj x hxA (e1 ▸ hLbB)
      have hrb : r.leaderBit = false := by
        rw [e] at hbit
        simpa [hxb] using hbit
      have hxa : x ≠ La := by
        intro e1
        rw [e1, ha] at hr
        cases hr
        rw [hal] at hrb
        cases hrb
      obtain ⟨h1, h2⟩ := hanch La cA x r hclA hxA hr hrb
      have el : rx.Leader = r.Leader := by rw [e]; simp [hxa, hxb]
      rw [el]
      refine ⟨List.mem_append.2 (Or.inl h1), ?_⟩
      rw [List.indexOf_append_of_mem h1, List.indexOf_append_of_mem hxA]
      exact h2
    · have hxB : x ∈ cB := by
        rcases List.mem_append.1 hx with h1 | h1
        · exact absurd h1 hxA
        · exact h1
      have hxa : x ≠ La := fun e1 => hxA (e1 ▸ hLaA)
      by_cases hxb : x = Lb
      · have el : rx.Leader = La := by rw [e]; simp [hxb]
        rw [el]
        refine ⟨List.mem_append.2 (Or.inl hLaA), ?_⟩
        rw [List.indexOf_append_of_mem hLaA, List.indexOf_append_of_not_mem hxA, hcA,
          List.indexOf_cons_self]
        simp
      · have hrb : r.leaderBit = false := by
          rw [e] at hbit
          simpa [hxb] using hbit
        obtain ⟨h1, h2⟩ := hanch Lb cB x r hclB hxB hr hrb
        have el : rx.Leader = r.Leader := by rw [e]; simp [hxa, hxb]
        have hnA : r.Leader ∉ cA := fun h3 => hdisj _ h3 h1
        rw [el]
        refine ⟨List.mem_append.2 (Or.inr h1), ?_⟩
        rw [List.indexOf_append_of_not_mem hnA, List.indexOf_append_of_not_mem hxA]
        omega
  · have hxa : x ≠ La := by
      intro e1
      exact hpa (h.disjoint p La c cA x hold hclA hx (e1 ▸ hLaA))
    have hxb : x ≠ Lb := by
      intro e1
      exact hpb (h.disjoint p Lb c cB x hold hclB hx (e1 ▸ hLbB))
    have hrb : r.leaderBit = false := by
      rw [e] at hbit
      simpa [hxb] using hbit
    have el : rx.Leader = r.Leader := by rw [e]; simp [hxa, hxb]
    rw [el]
    exact hanch p c x r hold hx hr hrb

theorem EquivalenceClasses.unionSets_anchored {m : NodeSet ElemTy} (h : Inv m)
    (hanch : Anchored m) {a b : ElemTy} {res : member_iterator ElemTy}
    {EC1 : EquivalenceClasses ElemTy} (hu : unionSets ⟨m⟩ a b = .ok (res, EC1)) :
    Anchored EC1.TheMapping := by
  obtain ⟨ra, rb, hra, hrb, e⟩ := unionSets_eq h a b
  rw [e] at hu
  have h1 := h.insert a
  have h2 := h1.insert b
  have a2 := (hanch.anchored_insert h a).anchored_insert h1 b
  by_cases hne : (if ra.leaderBit then a else ra.Leader) = (if rb.leaderBit then b else rb.Leader)
  · simp only [unionSetsIt, hne, if_true, Except.ok.injEq, Prod.mk.injEq] at hu
    rw [← hu.2]
    exact a2
  · obtain ⟨la, lb, lt, hla, hlal, hlb, hlbl, _, _, _, e1⟩ := unionSetsIt_ok hne hu
    rw [e1]
    exact a2.anchored_merged h2 hne hla hlal hlb hlbl

theorem Op.apply_anchored {EC EC1 : EquivalenceClasses ElemTy} (h : Inv EC.TheMapping)
    (hanch : Anchored EC.TheMapping) {op : Op ElemTy} (ha : op.apply EC = .ok EC1) :
    Anchored EC1.TheMapping := by
  cases op with
  | insert v =>
    simp only [Op.apply, EquivalenceClasses.insert, Except.ok.injEq] at ha
    rw [← ha]
    exact hanch.anchored_insert h v
  | unionSets a b =>
    simp only [Op.apply] at ha
    cases hu : EC.unionSets a b with
    | error e => rw [hu] at ha; cases ha
    | ok x =>
      obtain ⟨res, EC2⟩ := x
      rw [hu] at ha
      simp only [Except.ok.injEq] at ha
      rw [← ha]
      exact EquivalenceClasses.unionSets_anchored h hanch hu

theorem runFrom_anchored {ops : List (Op ElemTy)} {EC EC1 : EquivalenceClasses ElemTy}
    (h : Inv EC.TheMapping) (hanch : Anchored EC.TheMapping)
    (hr : runFrom EC ops = .ok EC1) : Anchored EC1.TheMapping := by
  induction ops generalizing EC with
  | nil =>
    simp only [runFrom, Except.ok.injEq] at hr
    rw [← hr]; exact hanch
  | cons op ops ih =>
    simp only [runFrom] at hr
    cases ha : op.apply EC with
    | error e => rw [ha] at hr; cases hr
    | ok EC2 =>
      rw [ha] at hr
      exact ih (Op.apply_inv h ha) (Op.apply_anchored h hanch ha) hr

theorem Reachable.anchored {EC : EquivalenceClasses ElemTy} (h : Reachable EC) :
    Anchored EC.TheMapping := by
  obtain ⟨ops, hr⟩ := h
  exact runFrom_anchored Inv.nil Anchored.anchored_nil hr

end
end llvm

/-! ## Following the `Leader` pointers -/

namespace llvm
section
variable {ElemTy : Type} [LinearOrder ElemTy]

namespace NodeSet

theorem climbFuel_succ {m : NodeSet ElemTy} {fuel : Nat} {p : ElemTy} {x : Nat × ElemTy}
    (h : climbFuel fuel m p = some x) : climbFuel (fuel + 1) m p = some x := by
  induction fuel generalizing p x with
  | zero => simp [climbFuel] at h
  | succ f ih =>
    rw [climbFuel] at h ⊢
    cases hr : deref m p with
    | none => simp [hr] at h
    | some r =>
      simp only [hr] at h ⊢
      by_cases hl : r.isLeader = true
      · simpa [hl] using h
      · simp only [hl, if_false] at h ⊢
        cases hc : climbFuel f m r.Leader with
        | none => simp [hc] at h
        | some y =>
          rw [ih hc]
          simpa [hc] using h

theorem climbFuel_le {m : NodeSet ElemTy} {f g : Nat} (hfg : f ≤ g) {p : ElemTy}
    {x : Nat × ElemTy} (h : climbFuel f m p = some x) : climbFuel g m p = some x := by
  induction hfg with
  | refl => exact h
  | step _ ih => exact climbFuel_succ ih

/-- The result of the climb does not depend on the fuel. -/
theorem climbFuel_unique {m : NodeSet ElemTy} {f g : Nat} {p : ElemTy} {x y : Nat × ElemTy}
    (hx : climbFuel f m p = some x) (hy : climbFuel g m p = some y) : x = y := by
  have h1 := climbFuel_le (Nat.le_max_left f g) hx
  have h2 := climbFuel_le (Nat.le_max_right f g) hy
  rw [h1] at h2
  exact Option.some.inj h2

/-- Insertion changes no climb. -/
theorem climbFuel_insert {m : NodeSet ElemTy} (hs : m.Pairwise (fun a b => a.Data < b.Data))
    (v : ElemTy) {fuel : Nat} {p : ElemTy} {x : Nat × ElemTy}
    (h : climbFuel fuel m p = some x) : climbFuel fuel (insert m v) p = some x := by
  induction fuel generalizing p x with
  | zero => simp [climbFuel] at h
  | succ f ih =>
    rw [climbFuel] at h ⊢
    cases hr : deref m p with
    | none => simp [hr] at h
    | some r =>
      simp only [hr] at h
      simp only [deref_insert_of_some v hs hr]
      by_cases hl : r.isLeader = true
      · simpa [hl] using h
      · simp only [hl, if_false] at h ⊢
        cases hc : climbFuel f m r.Leader with
        | none => simp [hc] at h
        | some y =>
          rw [ih hc]
          simpa [hc] using h

/-- A real union lengthens by one pointer the climbs that used to end at the second leader,
which now end at the first one, and changes no other climb. -/
theorem climbFuel_merged {m : NodeSet ElemTy} {La Lb : ElemTy} {ra rb : ECValue ElemTy}
    (tA tB : ElemTy) (hne : La ≠ Lb)
    (ha : deref m La = some ra) (hal : ra.leaderBit = true)
    (hb : deref m Lb = some rb) (hbl : rb.leaderBit = true)
    {fuel : Nat} {p : ElemTy} {n : Nat} {l : ElemTy}
    (h : climbFuel fuel m p = some (n, l)) :
    climbFuel (fuel + 1) (merged m La Lb tA tB) p =
      some (if l = Lb then (n + 1, La) else (n, l)) := by
  induction fuel generalizing p n l with
  | zero => simp [climbFuel] at h
  | succ f ih =>
    rw [climbFuel] at h
    cases hr : deref m p with
    | none => simp [hr] at h
    | some r =>
      simp only [hr] at h
      rw [climbFuel, deref_merged_some m tA tB hne hr]
      by_cases hl : r.isLeader = true
      · simp only [hl, if_true, Option.some.injEq, Prod.mk.injEq] at h
        rcases h with ⟨rfl, rfl⟩
        have hl1 : r.leaderBit = true := hl
        by_cases hpb : p = Lb
        · subst hpb
          have hLa : climbFuel (f + 1) (merged m La p tA tB) La = some (0, La) := by
            rw [climbFuel, deref_merged_some m tA tB hne ha]
            simp [ECValue.isLeader, hne, hal]
          simp [ECValue.isLeader, hLa]
        · simp [ECValue.isLeader, hpb, hl1]
      · have hl1 : r.leaderBit = false := by simpa [ECValue.isLeader] using hl
        have hpa : p ≠ La := by
          intro e
          rw [e, ha] at hr
          cases hr
          rw [hal] at hl1
          cases hl1
        have hpb : p ≠ Lb := by
          intro e
          rw [e, hb] at hr
          cases hr
          rw [hbl] at hl1
          cases hl1
        simp only [hl, if_false] at h
        cases hc : climbFuel f m r.Leader with
        | none => simp [hc] at h
        | some y =>
          obtain ⟨n0, l0⟩ := y
          simp only [hc, Option.some.injEq, Prod.mk.injEq] at h
          rcases h with ⟨rfl, rfl⟩
          simp only [ECValue.isLeader, hpa, hpb, hl1, if_false, ih hc]
          by_cases e : l = Lb <;> simp [e]

end NodeSet

/-- On a well-shaped collection a climb from a node of a chain ends at the head of the
chain, after at most as many pointers as the place of the node in the chain. -/
theorem Anchored.climb_class {m : NodeSet ElemTy} (hanch : Anchored m) (h : Inv m)
    {p : ElemTy} {c : List ElemTy} (hc : IsClass m p c) (k : Nat) :
    ∀ x, x ∈ c → c.indexOf x = k →
      ∃ n, n ≤ k ∧ NodeSet.climbFuel (k + 1) m x = some (n, p) := by
  induction k using Nat.strong_induction_on with
  | _ k ih =>
    intro x hx hk
    obtain ⟨r, hr⟩ := hc.2.deref_of_mem hx
    by_cases hl : r.leaderBit = true
    · obtain ⟨cx, hcx, _, _⟩ := h.class_of_leader hr hl
      obtain ⟨t, ht⟩ := hcx.2.head
      have hxp : x = p := h.disjoint x p cx c x hcx hc (by rw [ht]; exact List.mem_cons_self _ _) hx
      refine ⟨0, Nat.zero_le _, ?_⟩
      rw [NodeSet.climbFuel, hr]
      simp [ECValue.isLeader, hl, hxp]
    · have hl0 : r.leaderBit = false := by simpa using hl
      obtain ⟨h1, h2⟩ := hanch p c x r hc hx hr hl0
      rw [hk] at h2
      obtain ⟨n, hn, hcl⟩ := ih _ h2 r.Leader h1 rfl
      refine ⟨n + 1, by omega, ?_⟩
      have hcl1 : NodeSet.climbFuel k m r.Leader = some (n, p) :=
        NodeSet.climbFuel_le (by omega) hcl
      rw [NodeSet.climbFuel, hr]
      simp [ECValue.isLeader, hl0, hcl1]

/-- On a well-shaped collection the climb from any node ends, within a visit per node, at
the leader on whose chain the node is. -/
theorem Anchored.climb_total {m : NodeSet ElemTy} (hanch : Anchored m) (h : Inv m)
    {x : ElemTy} {rx : ECValue ElemTy} (hx : NodeSet.deref m x = some rx) :
    ∃ n p c, NodeSet.climbFuel m.length m x = some (n, p) ∧ IsClass m p c ∧ x ∈ c ∧
      n ≤ c.indexOf x := by
  obtain ⟨p, c, hc, hxc⟩ := h.cover x rx hx
  obtain ⟨⟨r, hr, hl⟩, hs⟩ := hc
  obtain ⟨c0, hc0, _, hnd⟩ := h.chain p r hr hl
  have e : c = c0 := IsSeg.unique hs hc0
  subst e
  obtain ⟨n, hn, hcl⟩ := hanch.climb_class h ⟨⟨r, hr, hl⟩, hs⟩ (c.indexOf x) x hxc rfl
  have hlt : c.indexOf x < c.length := List.indexOf_lt_length.2 hxc
  have hlen := hs.length_le hnd
  exact ⟨n, p, c, NodeSet.climbFuel_le (by omega) hcl, ⟨⟨r, hr, hl⟩, hs⟩, hxc, hn⟩

end
end llvm

/-! ## Hop counts under the operations -/

namespace llvm
section
variable {ElemTy : Type} [LinearOrder ElemTy]

theorem NodeSet.length_le_insert {m : NodeSet ElemTy}
    (hs : m.Pairwise (fun a b => a.Data < b.Data)) (v : ElemTy) :
    m.length ≤ (NodeSet.insert m v).length := by
  cases hv : NodeSet.deref m v with
  | none => rw [NodeSet.length_insert_new hv]; exact Nat.le_succ _
  | some r => rw [NodeSet.insert_eq_self hs hv]

namespace EquivalenceClasses

/-- The hop count of a node is defined on a well-shaped collection. -/
theorem hops_some {m : NodeSet ElemTy} (h : Inv m) (hanch : Anchored m) {p : ElemTy}
    {r : ECValue ElemTy} (hr : NodeSet.deref m p = some r) :
    ∃ n, hops ⟨m⟩ p = some n := by
  obtain ⟨n, l, c, hcl, _⟩ := hanch.climb_total h hr
  exact ⟨n, by simp [hops, hcl]⟩

theorem hops_insert {m : NodeSet ElemTy} (h : Inv m) (hanch : Anchored m) (v : ElemTy)
    {p : ElemTy} {r : ECValue ElemTy} (hr : NodeSet.deref m p = some r) :
    hops ⟨NodeSet.insert m v⟩ p = hops ⟨m⟩ p := by
  obtain ⟨n, l, c, hcl, _⟩ := hanch.climb_total h hr
  have h1 := NodeSet.climbFuel_le (NodeSet.length_le_insert h.sorted v)
    (NodeSet.climbFuel_insert h.sorted v hcl)
  simp [hops, hcl, h1]

/-- A real union adds one hop for the nodes whose climb ended at the second leader and
leaves the hop count of every other node as it was. -/
theorem hops_merged {m : NodeSet ElemTy} (h : Inv m) (hanch : Anchored m) {La Lb : ElemTy}
    {ra rb : ECValue ElemTy}
    (hne : La ≠ Lb) (ha : NodeSet.deref m La = some ra) (hal : ra.leaderBit = true)
    (hb : NodeSet.deref m Lb = some rb) (hbl : rb.leaderBit = true)
    {p : ElemTy} {r : ECValue ElemTy} (hr : NodeSet.deref m p = some r) :
    ∃ n l, NodeSet.climbFuel m.length m p = some (n, l) ∧ hops ⟨m⟩ p = some n ∧
      hops ⟨NodeSet.merged m La Lb ra.Leader rb.Leader⟩ p =
        some (if l = Lb then n + 1 else n) := by
  obtain ⟨n, l, c, hcl, _⟩ := hanch.climb_total h hr
  have hm := NodeSet.climbFuel_merged ra.Leader rb.Leader hne ha hal hb hbl hcl
  obtain ⟨n1, l1, c1, hcl1, _⟩ := (hanch.anchored_merged h hne ha hal hb hbl).climb_total
    (h.merged hne ha hal hb hbl) (NodeSet.deref_merged_some m _ _ hne hr)
  have e := NodeSet.climbFuel_unique hcl1 hm
  refine ⟨n, l, hcl, by simp [hops, hcl], ?_⟩
  simp only [hops, hcl1, e, Option.map_some']
  by_cases hl : l = Lb <;> simp [hl]

/-- A union of two values that went through leaves the hop count of a node as it was or
adds one hop. -/
theorem hops_unionSets {m : NodeSet ElemTy} (h : Inv m) (hanch : Anchored m) {a b : ElemTy}
    {res : member_iterator ElemTy} {EC1 : EquivalenceClasses ElemTy}
    (hu : unionSets ⟨m⟩ a b = .ok (res, EC1))
    {p : ElemTy} {r : ECValue ElemTy} (hr : NodeSet.deref m p = some r) :
    ∃ n n1, hops ⟨m⟩ p = some n ∧ EC1.hops p = some n1 ∧ n ≤ n1 ∧ n1 ≤ n + 1 := by
  obtain ⟨ra, rb, hra, hrb, e⟩ := unionSets_eq h a b
  rw [e] at hu
  have h1 := h.insert a
  have h2 := h1.insert b
  have a1 := hanch.anchored_insert h a
  have a2 := a1.anchored_insert h1 b
  have hr1 := NodeSet.deref_insert_of_some a h.sorted hr
  have hr2 := NodeSet.deref_insert_of_some b h1.sorted hr1
  have e2 : hops ⟨NodeSet.insert (NodeSet.insert m a) b⟩ p = hops ⟨m⟩ p := by
    rw [hops_insert h1 a1 b hr1, hops_insert h hanch a hr]
  by_cases hne : (if ra.leaderBit then a else ra.Leader) = (if rb.leaderBit then b else rb.Leader)
  · simp only [unionSetsIt, hne, if_true, Except.ok.injEq, Prod.mk.injEq] at hu
    obtain ⟨n, hn⟩ := hops_some h hanch hr
    refine ⟨n, n, hn, ?_, Nat.le_refl _, Nat.le_succ _⟩
    rw [← hu.2, e2, hn]
  · obtain ⟨la, lb, lt, hla, hlal, hlb, hlbl, _, _, _, e1⟩ := unionSetsIt_ok hne hu
    obtain ⟨n, l, _, hn, hn1⟩ := hops_merged h2 a2 hne hla hlal hlb hlbl hr2
    rw [e2] at hn
    refine ⟨n, _, hn, by rw [e1]; exact hn1, ?_, ?_⟩ <;> split_ifs <;> omega

end EquivalenceClasses

end
end llvm

/-! ## The chains partition the nodes -/

namespace llvm
section
variable {ElemTy : Type} [LinearOrder ElemTy]

theorem NodeSet.deref_of_mem_sorted {m : NodeSet ElemTy}
    (hs : m.Pairwise (fun a b => a.Data < b.Data)) {r : ECValue ElemTy} (hr : r ∈ m) :
    NodeSet.deref m r.Data = some r := by
  induction m with
  | nil => cases hr
  | cons a rs ih =>
    rw [List.pairwise_cons] at hs
    rw [NodeSet.deref_cons]
    rcases List.mem_cons.1 hr with e | hmem
    · subst e; simp
    · have hlt := hs.1 r hmem
      rw [if_neg (ne_of_lt hlt)]
      exact ih hs.2 hmem

theorem NodeSet.mem_map_data_iff (m : NodeSet ElemTy) (x : ElemTy) :
    x ∈ m.map ECValue.Data ↔ (NodeSet.deref m x).isSome = true := by
  constructor
  · intro hx
    cases hd : NodeSet.deref m x with
    | some r => rfl
    | none =>
      obtain ⟨r, hr, e⟩ := List.mem_map.1 hx
      exact absurd e (NodeSet.deref_eq_none_iff.1 hd r hr)
  · intro hx
    cases hd : NodeSet.deref m x with
    | none => rw [hd] at hx; cases hx
    | some r => exact List.mem_map.2 ⟨r, NodeSet.deref_mem hd, NodeSet.deref_data hd⟩

theorem NodeSet.nodup_map_data {m : NodeSet ElemTy}
    (hs : m.Pairwise (fun a b => a.Data < b.Data)) : (m.map ECValue.Data).Nodup := by
  rw [List.Nodup, List.pairwise_map]
  exact hs.imp (fun h => ne_of_lt h)

/-- The member walks of a list of distinct leaders: they all end, visit no node twice in
all, and visit exactly the nodes on the chains of these leaders. -/
theorem Inv.walks_of_leaders {m : NodeSet ElemTy} (h : Inv m) (l : List (ECValue ElemTy))
    (hl : ∀ I ∈ l, I ∈ m ∧ I.isLeader = true) (hnd : (l.map ECValue.Data).Nodup) :
    ∃ cs : List (List ElemTy),
      l.map (fun I => EquivalenceClasses.members ⟨m⟩ (EquivalenceClasses.member_begin I)) =
        cs.map Except.ok ∧
      cs.flatten.Nodup ∧
      ∀ x, x ∈ cs.flatten ↔ ∃ I ∈ l, ∃ c, IsClass m I.Data c ∧ x ∈ c := by
  induction l with
  | nil => exact ⟨[], rfl, by simp, by simp⟩
  | cons I rest ih =>
    rw [List.map_cons, List.nodup_cons] at hnd
    obtain ⟨cs, hcs, hnd1, hmem⟩ := ih (fun J hJ => hl J (List.mem_cons_of_mem _ hJ)) hnd.2
    obtain ⟨hIm, hIl⟩ := hl I (List.mem_cons_self _ _)
    have hd := NodeSet.deref_of_mem_sorted h.sorted hIm
    obtain ⟨c, hc, _, hcnd⟩ := h.class_of_leader hd hIl
    refine ⟨c :: cs, ?_, ?_, ?_⟩
    · rw [List.map_cons, List.map_cons, hcs]
      simp only [EquivalenceClasses.member_begin, hIl, if_true, h.members_eq hc]
    · rw [List.flatten_cons, List.nodup_append]
      refine ⟨hcnd, hnd1, ?_⟩
      intro x hx1 hx2
      obtain ⟨J, hJ, cJ, hcJ, hxJ⟩ := (hmem x).1 hx2
      have e := h.disjoint I.Data J.Data c cJ x hc hcJ hx1 hxJ
      exact hnd.1 (List.mem_map.2 ⟨J, hJ, e.symm⟩)
    · intro x
      rw [List.flatten_cons, List.mem_append, hmem x]
      constructor
      · rintro (hx | ⟨J, hJ, cJ, hcJ, hxJ⟩)
        · exact ⟨I, List.mem_cons_self _ _, c, hc, hx⟩
        · exact ⟨J, List.mem_cons_of_mem _ hJ, cJ, hcJ, hxJ⟩
      · rintro ⟨J, hJ, cJ, hcJ, hxJ⟩
        rcases List.mem_cons.1 hJ with e | hJ1
        · subst e
          have ec : cJ = c := IsSeg.unique hcJ.2 hc.2
          exact Or.inl (ec ▸ hxJ)
        · exact Or.inr ⟨J, hJ1, cJ, hcJ, hxJ⟩

/-- On a well-shaped collection the member walks of all the leaders end, and put one after
the other they are a rearrangement of the elements of the set. -/
theorem Inv.classes_perm {m : NodeSet ElemTy} (h : Inv m) :
    ∃ cs : List (List ElemTy),
      EquivalenceClasses.classes ⟨m⟩ = cs.map Except.ok ∧
      cs.flatten.Perm (m.map ECValue.Data) := by
  have hsub : (m.filter (fun I => I.isLeader)).Sublist m := List.filter_sublist m
  obtain ⟨cs, hcs, hnd, hmem⟩ := h.walks_of_leaders (m.filter (fun I => I.isLeader))
    (fun I hI => by
      rw [List.mem_filter] at hI
      exact hI)
    ((NodeSet.nodup_map_data h.sorted).sublist (hsub.map _))
  refine ⟨cs, hcs, ?_⟩
  rw [List.perm_ext_iff_of_nodup hnd (NodeSet.nodup_map_data h.sorted)]
  intro x
  rw [hmem x, NodeSet.mem_map_data_iff]
  constructor
  · rintro ⟨I, _, c, hc, hx⟩
    obtain ⟨r, hr⟩ := hc.2.deref_of_mem hx
    rw [hr]; rfl
  · intro hx
    cases hd : NodeSet.deref m x with
    | none => rw [hd] at hx; cases hx
    | some rx =>
      obtain ⟨p, c, hc, hxc⟩ := h.cover x rx hd
      obtain ⟨⟨r, hr, hrl⟩, hs⟩ := hc
      have e := NodeSet.deref_data hr
      refine ⟨r, List.mem_filter.2 ⟨NodeSet.deref_mem hr, hrl⟩, c, ?_, hxc⟩
      rw [e]
      exact ⟨⟨r, hr, hrl⟩, hs⟩

end
end llvm

/-! ## The number of leaders under the operations -/

namespace llvm
section
variable {ElemTy : Type} [LinearOrder ElemTy]

namespace NodeSet

theorem countP_modify_same (m : NodeSet ElemTy) (p : ElemTy)
    (f : ECValue ElemTy → ECValue ElemTy) (hf : ∀ x, (f x).leaderBit = x.leaderBit) :
    (modify m p f).countP (fun I => I.isLeader) = m.countP (fun I => I.isLeader) := by
  induction m with
  | nil => rfl
  | cons a rs ih =>
    unfold modify
    split_ifs
    · rw [List.countP_cons, List.countP_cons]
      simp [ECValue.isLeader, hf]
    · rw [List.countP_cons, List.countP_cons, ih]

theorem countP_modify_next (m : NodeSet ElemTy) (p n : ElemTy) :
    (modify m p (fun x => { x with Next := some n })).countP (fun I => I.isLeader) =
      m.countP (fun I => I.isLeader) :=
  countP_modify_same m p _ (fun _ => rfl)

theorem countP_modify_leader (m : NodeSet ElemTy) (p l : ElemTy) :
    (modify m p (fun x => { x with Leader := l })).countP (fun I => I.isLeader) =
      m.countP (fun I => I.isLeader) :=
  countP_modify_same m p _ (fun _ => rfl)

theorem countP_modify_clear {m : NodeSet ElemTy} {p : ElemTy} {r : ECValue ElemTy}
    (hr : deref m p = some r) (hl : r.leaderBit = true) :
    (modify m p (fun x => { x with leaderBit := false })).countP (fun I => I.isLeader) + 1 =
      m.countP (fun I => I.isLeader) := by
  induction m with
  | nil => simp [deref_nil] at hr
  | cons a rs ih =>
    rw [deref_cons] at hr
    unfold modify
    split_ifs at hr ⊢ with h0
    · simp only [Option.some.injEq] at hr
      subst hr
      rw [List.countP_cons, List.countP_cons]
      simp [ECValue.isLeader, hl]
    · rw [List.countP_cons, List.countP_cons, ← ih hr]
      omega

/-- A real union lowers the number of leaders by one. -/
theorem countP_merged {m : NodeSet ElemTy} {La Lb : ElemTy} {rb : ECValue ElemTy}
    (tA tB : ElemTy) (hne : La ≠ Lb) (hb : deref m Lb = some rb) (hbl : rb.leaderBit = true) :
    (merged m La Lb tA tB).countP (fun I => I.isLeader) + 1 =
      m.countP (fun I => I.isLeader) := by
  have hb2 : ∃ r2, deref (modify (modify m tA (fun x => { x with Next := some Lb })) La
      (fun x => { x with Leader := tB })) Lb = some r2 ∧ r2.leaderBit = true := by
    rw [deref_modify_leader, if_neg (fun e => hne e.symm), deref_modify_next]
    by_cases e : Lb = tA
    · rw [if_pos e, ← e, hb]; exact ⟨_, rfl, hbl⟩
    · rw [if_neg e, hb]; exact ⟨_, rfl, hbl⟩
  obtain ⟨r2, hr2, hl2⟩ := hb2
  unfold merged
  rw [countP_modify_leader, countP_modify_clear hr2 hl2, countP_modify_leader,
    countP_modify_next]

theorem countP_insert {m : NodeSet ElemTy} (hs : m.Pairwise (fun a b => a.Data < b.Data))
    (v : ElemTy) :
    (insert m v).countP (fun I => I.isLeader) =
      m.countP (fun I => I.isLeader) + (if (deref m v).isNone then 1 else 0) := by
  cases hv : deref m v with
  | none => simp [countP_insert_new hv]
  | some r => simp [insert_eq_self hs hv]

end NodeSet

/-- The class count after a union of two values that went through: the count before, plus
the number of distinct values among the two that had no node, minus one when `findLeader`
answered two different nodes for them after the insertions. -/
theorem EquivalenceClasses.unionSets_getNumClasses {m : NodeSet ElemTy} (h : Inv m)
    {a b : ElemTy} {res : member_iterator ElemTy} {EC1 : EquivalenceClasses ElemTy}
    (hu : unionSets ⟨m⟩ a b = .ok (res, EC1)) :
    ∃ la lb,
      findLeader ⟨NodeSet.insert (NodeSet.insert m a) b⟩ a =
        .ok (some la, ⟨NodeSet.insert (NodeSet.insert m a) b⟩) ∧
      findLeader ⟨NodeSet.insert (NodeSet.insert m a) b⟩ b =
        .ok (some lb, ⟨NodeSet.insert (NodeSet.insert m a) b⟩) ∧
      EC1.getNumClasses + (if la = lb then 0 else 1) =
        getNumClasses ⟨m⟩ +
          (([a, b].dedup).filter (fun v => (NodeSet.deref m v).isNone)).length := by
  obtain ⟨ra, rb, hra, hrb, e⟩ := unionSets_eq h a b
  rw [e] at hu
  have h1 := h.insert a
  have h2 := h1.insert b
  refine ⟨_, _, by rw [findLeader_eq h2 a, hra], by rw [findLeader_eq h2 b, hrb], ?_⟩
  have hcount : (NodeSet.insert (NodeSet.insert m a) b).countP (fun I => I.isLeader) =
      m.countP (fun I => I.isLeader) +
        (([a, b].dedup).filter (fun v => (NodeSet.deref m v).isNone)).length := by
    rw [NodeSet.countP_insert h1.sorted b, NodeSet.countP_insert h.sorted a]
    by_cases hab : a = b
    · subst hab
      obtain ⟨r, hr⟩ := NodeSet.deref_insert_same m a h.sorted
      cases hv : NodeSet.deref m a <;> simp [hr, hv]
    · have hba : b ≠ a := fun e => hab e.symm
      rw [NodeSet.deref_insert_ne m hba]
      cases hva : NodeSet.deref m a <;> cases hvb : NodeSet.deref m b <;>
        simp [hab, hva, hvb, List.filter_cons]
  rw [getNumClasses_eq, getNumClasses_eq]
  by_cases hne : (if ra.leaderBit then a else ra.Leader) = (if rb.leaderBit then b else rb.Leader)
  · simp only [unionSetsIt, hne, if_true, Except.ok.injEq, Prod.mk.injEq] at hu
    rw [← hu.2, if_pos hne]
    exact hcount
  · obtain ⟨la, lb, lt, _, _, hlb, hlbl, _, _, _, e1⟩ := unionSetsIt_ok hne hu
    rw [e1, if_neg hne, ← hcount]
    exact NodeSet.countP_merged _ _ hne hlb hlbl

end
end llvm

/-! ## Claims on insertion, counts, chains, roles, hops and copies -/

namespace llvm

/-- C11: on a reachable collection, `insert(v)` of a value without node returns the iterator
of a new node for `v` that is a leader, has no successor and has itself as end of list;
every other pointer refers to what it referred to before and the set has one node more;
afterwards `findLeader(v)` is the node of `v`, its member walk is `[v]`, and
`getNumClasses()` is one more than before. -/
theorem C11_insert_new {ElemTy : Type} [LinearOrder ElemTy]
    (EC : EquivalenceClasses ElemTy) (v : ElemTy)
    (hR : Reachable EC) (hv : NodeSet.deref EC.TheMapping v = none) :
    (EC.insert v).1 = some v ∧
    NodeSet.deref (EC.insert v).2.TheMapping v =
      some { Leader := v, Next := none, leaderBit := true, Data := v } ∧
    (∀ q, q ≠ v →
      NodeSet.deref (EC.insert v).2.TheMapping q = NodeSet.deref EC.TheMapping q) ∧
    (EC.insert v).2.TheMapping.length = EC.TheMapping.length + 1 ∧
    (EC.insert v).2.findLeader v = .ok (some v, (EC.insert v).2) ∧
    (EC.insert v).2.members (some v) = .ok [v] ∧
    (EC.insert v).2.getNumClasses = EC.getNumClasses + 1 := by
  have h := hR.inv
  have h1 := h.insert v
  have hself := NodeSet.deref_insert_self EC.TheMapping hv
  refine ⟨rfl, hself, fun q hq => NodeSet.deref_insert_ne _ hq,
    NodeSet.length_insert_new hv, ?_, ?_, ?_⟩
  · show EquivalenceClasses.findLeader ⟨NodeSet.insert EC.TheMapping v⟩ v = _
    rw [EquivalenceClasses.findLeader_eq h1 v, hself]
    rfl
  · exact h1.members_eq ⟨⟨_, hself, rfl⟩, ⟨rfl, _, hself, rfl⟩⟩
  · rw [EquivalenceClasses.getNumClasses_eq, EquivalenceClasses.getNumClasses_eq]
    exact NodeSet.countP_insert_new hv

/-- C11 at `unionSets(1,2)` and the new value `4`. -/
theorem C11_insert_new_witness :
    ∃ EC : EquivalenceClasses Int,
      run [.unionSets 1 2] = .ok EC ∧
      NodeSet.deref EC.TheMapping 4 = none ∧
      (EC.insert 4).2.findLeader 4 = .ok (some 4, (EC.insert 4).2) ∧
      (EC.insert 4).2.members (some 4) = .ok [4] ∧
      (EC.insert 4).2.getNumClasses = EC.getNumClasses + 1 :=
  ⟨⟨[⟨2, some 2, true, 1⟩, ⟨1, none, false, 2⟩]⟩, by decide, by decide,
   (C11_insert_new _ 4 ⟨[.unionSets 1 2], by decide⟩ (by decide)).2.2.2.2⟩

/-- C12 (fails on the code): after `unionSets(1,2); unionSets(3,1)` there is one class; with
`a = 4` and `b = 2`, after the insertions `findLeader(4)` is the node of `4` and
`findLeader(2)` the node of `1`, two different nodes, and `unionSets(4,2)` stops at the
check of `getEndOfList`, so that there is no class count after the call. -/
theorem C12_class_count_union_fails :
    ∃ EC EC1 : EquivalenceClasses Int,
      run [.unionSets 1 2, .unionSets 3 1] = .ok EC ∧
      EC.getNumClasses = 1 ∧
      ((EC.insert 4).2.insert 2).2 = EC1 ∧
      EC1.findLeader 4 = .ok (some 4, EC1) ∧
      EC1.findLeader 2 = .ok (some 1, EC1) ∧
      EC.unionSets 4 2 = .error .EndOfListOfNonLeader :=
  ⟨⟨[⟨3, some 2, false, 1⟩, ⟨1, none, false, 2⟩, ⟨2, some 1, true, 3⟩]⟩,
   ⟨[⟨3, some 2, false, 1⟩, ⟨1, none, false, 2⟩, ⟨2, some 1, true, 3⟩, ⟨4, none, true, 4⟩]⟩,
   by decide, by decide, by decide, by decide, by decide, by decide⟩

/-- C13: on the collection that a sequence of calls builds, the member walks of all the
leaders end; the sum of their lengths is the number of nodes; put one after the other they
are a rearrangement of the elements of the set, which are pairwise different; and the number
of nodes is the number of distinct values that the calls named. -/
theorem C13_member_count_conservation {ElemTy : Type} [LinearOrder ElemTy]
    (ops : List (Op ElemTy)) (EC : EquivalenceClasses ElemTy) (h : run ops = .ok EC) :
    ∃ cs : List (List ElemTy),
      EC.classes = cs.map Except.ok ∧
      (cs.map List.length).sum = EC.nodes.length ∧
      cs.flatten.Perm (EC.nodes.map ECValue.getData) ∧
      (EC.nodes.map ECValue.getData).Nodup ∧
      EC.nodes.length = ((ops.map Op.args).flatten.dedup).length := by
  have hinv : Inv EC.TheMapping := runFrom_inv Inv.nil h
  obtain ⟨cs, hcs, hperm⟩ := hinv.classes_perm
  have hnd := NodeSet.nodup_map_data hinv.sorted
  refine ⟨cs, hcs, ?_, hperm, hnd, ?_⟩
  · rw [← List.length_flatten, hperm.length_eq, List.length_map]
    rfl
  · have hp : (EC.TheMapping.map ECValue.Data).Perm ((ops.map Op.args).flatten.dedup) := by
      rw [List.perm_ext_iff_of_nodup hnd (List.nodup_dedup _)]
      intro x
      have hk := runFrom_isSome Inv.nil h x
      simp only [EquivalenceClasses.empty, NodeSet.deref_nil, Option.isSome_none,
        Bool.false_eq_true, or_false] at hk
      rw [NodeSet.mem_map_data_iff, hk, List.mem_dedup, List.mem_flatten]
      constructor
      · rintro ⟨op, hop, hx⟩
        exact ⟨op.args, List.mem_map.2 ⟨op, hop, rfl⟩, hx⟩
      · rintro ⟨l, hl, hx⟩
        obtain ⟨op, hop, e⟩ := List.mem_map.1 hl
        exact ⟨op, hop, e ▸ hx⟩
    have := hp.length_eq
    rw [List.length_map] at this
    exact this

/-- C13 at `unionSets(1,2); insert(4); insert(5); unionSets(5,1)`. -/
theorem C13_member_count_conservation_witness :
    ∃ EC : EquivalenceClasses Int,
      run [.unionSets 1 2, .insert 4, .insert 5, .unionSets 5 1] = .ok EC ∧
      EC.classes = [.ok [4], .ok [5, 1, 2]] ∧
      ∃ cs : List (List Int),
        EC.classes = cs.map Except.ok ∧
        (cs.map List.length).sum = EC.nodes.length ∧
        cs.flatten.Perm (EC.nodes.map ECValue.getData) ∧
        (EC.nodes.map ECValue.getData).Nodup ∧
        EC.nodes.length =
          (([Op.unionSets (1 : Int) 2, .insert 4, .insert 5, .unionSets 5 1].map
            Op.args).flatten.dedup).length :=
  ⟨⟨[⟨5, some 2, false, 1⟩, ⟨1, none, false, 2⟩, ⟨4, none, true, 4⟩, ⟨2, some 1, true, 5⟩]⟩,
   by decide, by decide, C13_member_count_conservation _ _ (by decide)⟩

/-- C14 (fails on the code): the collection `S` after `unionSets(1,2); unionSets(3,1)` is
copied into `T`; `findLeader(1)` and `findLeader(3)` are the same node in `S` and two
different nodes in `T`. -/
theorem C14_copy_changes_partition :
    ∃ S T : EquivalenceClasses Int,
      run [.unionSets 1 2, .unionSets 3 1] = .ok S ∧
      S.copy = .ok (T, S) ∧
      S.findLeader 1 = .ok (some 3, S) ∧ S.findLeader 3 = .ok (some 3, S) ∧
      T.findLeader 1 = .ok (some 2, T) ∧ T.findLeader 3 = .ok (some 1, T) :=
  ⟨⟨[⟨3, some 2, false, 1⟩, ⟨1, none, false, 2⟩, ⟨2, some 1, true, 3⟩]⟩,
   ⟨[⟨2, some 3, false, 1⟩, ⟨3, some 1, true, 2⟩, ⟨1, none, false, 3⟩]⟩,
   by decide, by decide, by decide, by decide, by decide, by decide⟩

/-- C15: on a reachable collection, the elements of the nodes kept by the loop over
`begin()` .. `end()` that skips the non-leaders come in strictly ascending order. -/
theorem C15_ascending_class_iteration {ElemTy : Type} [LinearOrder ElemTy]
    (EC : EquivalenceClasses ElemTy) (hR : Reachable EC) :
    ((EC.nodes.filter (fun I => I.isLeader)).map ECValue.getData).Pairwise (· < ·) := by
  rw [List.pairwise_map]
  exact hR.inv.sorted.sublist (List.filter_sublist _)

/-- C15 at `insert(7); insert(3); insert(5)`: the leaders come as `3, 5, 7`. -/
theorem C15_ascending_class_iteration_witness :
    ∃ EC : EquivalenceClasses Int,
      run [.insert 7, .insert 3, .insert 5] = .ok EC ∧
      (EC.nodes.filter (fun I => I.isLeader)).map ECValue.getData = [3, 5, 7] ∧
      ((EC.nodes.filter (fun I => I.isLeader)).map ECValue.getData).Pairwise (· < ·) :=
  ⟨⟨[⟨3, none, true, 3⟩, ⟨5, none, true, 5⟩, ⟨7, none, true, 7⟩]⟩, by decide, by decide,
   C15_ascending_class_iteration _ ⟨[.insert 7, .insert 3, .insert 5], by decide⟩⟩

/-- C16 (fails on the code): after `unionSets(1,2); unionSets(3,1)`, `findLeader(1)` is the
node of `3`, the member iteration from it is `[3, 1, 2]` and visits `2`, but
`findLeader(2)` is the node of `1`, not the node of `3`. -/
theorem C16_walk_member_other_leader :
    ∃ EC : EquivalenceClasses Int,
      run [.unionSets 1 2, .unionSets 3 1] = .ok EC ∧
      EC.findLeader 1 = .ok (some 3, EC) ∧
      EC.members (some 3) = .ok [3, 1, 2] ∧
      EC.findLeader 2 = .ok (some 1, EC) :=
  ⟨⟨[⟨3, some 2, false, 1⟩, ⟨1, none, false, 2⟩, ⟨2, some 1, true, 3⟩]⟩,
   by decide, by decide, by decide, by decide⟩

/-- C17 (fails on the code): after `unionSets(1,2); unionSets(3,1)`, `getNumClasses()` is
`1` and one node is a leader, but `findLeader` answers two different nodes over the stored
values: the node of `3` for `1` and `3`, and the node of `1` for `2`. -/
theorem C17_two_findLeader_answers_one_class :
    ∃ EC : EquivalenceClasses Int,
      run [.unionSets 1 2, .unionSets 3 1] = .ok EC ∧
      EC.getNumClasses = 1 ∧
      (EC.nodes.filter (fun I => I.isLeader)).length = 1 ∧
      EC.nodes.map (fun I => (EC.findLeader I.getData).map Prod.fst) =
        [.ok (some 3), .ok (some 1), .ok (some 3)] ∧
      ((EC.nodes.map (fun I => (EC.findLeader I.getData).map Prod.fst)).dedup).length = 2 :=
  ⟨⟨[⟨3, some 2, false, 1⟩, ⟨1, none, false, 2⟩, ⟨2, some 1, true, 3⟩]⟩,
   by decide, by decide, by decide, by decide, by decide⟩

/-- C18: on a reachable collection, the member walk from a leader `L` ends and visits no
node twice, and `getEndOfList()` of `L` is the last node of the walk, which is `L` itself
when the walk has one node. -/
theorem C18_chain_invariant {ElemTy : Type} [LinearOrder ElemTy]
    (EC : EquivalenceClasses ElemTy) (L : ElemTy) (r : ECValue ElemTy)
    (hR : Reachable EC) (hr : NodeSet.deref EC.TheMapping L = some r)
    (hl : r.isLeader = true) :
    ∃ c last, EC.members (some L) = .ok c ∧ c.Nodup ∧
      NodeSet.getEndOfList EC.TheMapping L = .ok last ∧ c.getLast? = some last ∧
      (c.length = 1 → last = L) := by
  have h := hR.inv
  obtain ⟨c, hc, hlast, hnd⟩ := h.class_of_leader hr hl
  refine ⟨c, r.Leader, h.members_eq hc, hnd, ?_, hlast, ?_⟩
  · simp [NodeSet.getEndOfList, hr, ECValue.getEndOfList, hl]
  · intro h1
    obtain ⟨t, ht⟩ := hc.2.head
    subst ht
    cases t with
    | nil => simpa using hlast.symm
    | cons y ys => simp at h1

/-- C18 at `unionSets(1,2); unionSets(3,1)` and the leader `3`. -/
theorem C18_chain_invariant_witness :
    ∃ EC : EquivalenceClasses Int,
      run [.unionSets 1 2, .unionSets 3 1] = .ok EC ∧
      EC.members (some 3) = .ok [3, 1, 2] ∧
      ∃ c last, EC.members (some 3) = .ok c ∧ c.Nodup ∧
        NodeSet.getEndOfList EC.TheMapping 3 = .ok last ∧ c.getLast? = some last ∧
        (c.length = 1 → last = 3) :=
  ⟨⟨[⟨3, some 2, false, 1⟩, ⟨1, none, false, 2⟩, ⟨2, some 1, true, 3⟩]⟩,
   by decide, by decide,
   C18_chain_invariant _ 3 ⟨2, some 1, true, 3⟩
     ⟨[.unionSets 1 2, .unionSets 3 1], by decide⟩ (by decide) (by decide)⟩

/-- C19: on a reachable collection a node that is not a leader is still in the set and still
not a leader after `insert`, after `findLeader`, after either `unionSets` that went through
and after `setNext`; a node is created as a leader.  The other operations, `getNumClasses`
and the iterations, write to no node. -/
theorem C19_role_monotonicity {ElemTy : Type} [LinearOrder ElemTy]
    (EC : EquivalenceClasses ElemTy) (p : ElemTy) (r : ECValue ElemTy)
    (hR : Reachable EC) (hr : NodeSet.deref EC.TheMapping p = some r)
    (hm : r.isLeader = false) :
    (∀ v, (NodeSet.deref (EC.insert v).2.TheMapping p).map ECValue.isLeader = some false) ∧
    (∀ v MI EC1, EC.findLeader v = .ok (MI, EC1) →
      (NodeSet.deref EC1.TheMapping p).map ECValue.isLeader = some false) ∧
    (∀ a b res EC1, EC.unionSets a b = .ok (res, EC1) →
      (NodeSet.deref EC1.TheMapping p).map ECValue.isLeader = some false) ∧
    (∀ L1 L2 res EC1, EC.unionSetsIt L1 L2 = .ok (res, EC1) →
      (NodeSet.deref EC1.TheMapping p).map ECValue.isLeader = some false) ∧
    (∀ q n m1, NodeSet.setNext EC.TheMapping q n = .ok m1 →
      (NodeSet.deref m1 p).map ECValue.isLeader = some false) ∧
    (∀ v, NodeSet.deref EC.TheMapping v = none →
      (NodeSet.deref (EC.insert v).2.TheMapping v).map ECValue.isLeader = some true) := by
  have h := hR.inv
  have hbit : ∀ r1 : ECValue ElemTy, (r1.leaderBit = true → r.leaderBit = true) →
      r1.isLeader = false := by
    intro r1 himp
    cases hb : r1.leaderBit with
    | false => exact hb
    | true =>
      have := himp hb
      rw [show r.leaderBit = r.isLeader from rfl, hm] at this
      cases this
  refine ⟨?_, ?_, ?_, ?_, ?_, ?_⟩
  · intro v
    show (NodeSet.deref (NodeSet.insert EC.TheMapping v) p).map ECValue.isLeader = some false
    rw [NodeSet.deref_insert_of_some v h.sorted hr]
    simp [hm]
  · intro v MI EC1 hf
    rw [show EC = ⟨EC.TheMapping⟩ from rfl, EquivalenceClasses.findLeader_eq h v] at hf
    have e : EC1 = EC := by
      cases hd : NodeSet.deref EC.TheMapping v with
      | none => rw [hd] at hf; cases hf; rfl
      | some rv => rw [hd] at hf; cases hf; rfl
    rw [e, hr]
    simp [hm]
  · intro a b res EC1 hu
    obtain ⟨r1, hr1, himp⟩ := EquivalenceClasses.unionSets_bit h hu hr
    rw [hr1]
    simp [hbit r1 himp]
  · intro L1 L2 res EC1 hu
    obtain ⟨r1, hr1, himp⟩ := EquivalenceClasses.unionSetsIt_bit hu hr
    rw [hr1]
    simp [hbit r1 himp]
  · intro q n m1 hs
    rw [NodeSet.setNext_bit hs p, hr]
    simp [hm]
  · intro v hv
    show (NodeSet.deref (NodeSet.insert EC.TheMapping v) v).map ECValue.isLeader = some true
    rw [NodeSet.deref_insert_self _ hv]
    rfl

/-- C19 at `unionSets(1,2)` and the node of `2`, with `unionSets(3,2)` as the union. -/
theorem C19_role_monotonicity_witness :
    ∃ EC EC1 : EquivalenceClasses Int,
      run [.unionSets 1 2] = .ok EC ∧
      NodeSet.deref EC.TheMapping 2 = some ⟨1, none, false, 2⟩ ∧
      EC.unionSets 3 2 = .ok (some 3, EC1) ∧
      (NodeSet.deref EC1.TheMapping 2).map ECValue.isLeader = some false :=
  ⟨⟨[⟨2, some 2, true, 1⟩, ⟨1, none, false, 2⟩]⟩,
   ⟨[⟨3, some 2, false, 1⟩, ⟨1, none, false, 2⟩, ⟨2, some 1, true, 3⟩]⟩,
   by decide, by decide, by decide,
   (C19_role_monotonicity ⟨[⟨2, some 2, true, 1⟩, ⟨1, none, false, 2⟩]⟩ 2 ⟨1, none, false, 2⟩
     ⟨[.unionSets 1 2], by decide⟩ (by decide) (by decide)).2.2.1 3 2 (some 3)
     ⟨[⟨3, some 2, false, 1⟩, ⟨1, none, false, 2⟩, ⟨2, some 1, true, 3⟩]⟩ (by decide)⟩

/-- C20 as stated fails: after `unionSets(1,2)` the node of `2` is not a leader and is one
`Leader` pointer away from a leader; after `unionSets(3,1)` it is two pointers away. -/
theorem C20_union_adds_hop :
    ∃ EC EC1 : EquivalenceClasses Int,
      run [.unionSets 1 2] = .ok EC ∧
      (NodeSet.deref EC.TheMapping 2).map ECValue.isLeader = some false ∧
      EC.hops 2 = some 1 ∧
      EC.unionSets 3 1 = .ok (some 3, EC1) ∧
      EC1.hops 2 = some 2 ∧ ¬ (2 : Nat) ≤ 1 :=
  ⟨⟨[⟨2, some 2, true, 1⟩, ⟨1, none, false, 2⟩]⟩,
   ⟨[⟨3, some 2, false, 1⟩, ⟨1, none, false, 2⟩, ⟨2, some 1, true, 3⟩]⟩,
   by decide, by decide, by decide, by decide, by decide, by decide⟩

/-- C20, amended: on a reachable collection the number of `Leader` pointers from a node that
is not a leader to a leader is defined; `insert` leaves it as it is, `findLeader` does not
raise it, and a `unionSets` that went through raises it by at most one. -/
theorem C20_hops_bounded {ElemTy : Type} [LinearOrder ElemTy]
    (EC : EquivalenceClasses ElemTy) (p : ElemTy) (r : ECValue ElemTy)
    (hR : Reachable EC) (hr : NodeSet.deref EC.TheMapping p = some r)
    (hm : r.isLeader = false) :
    ∃ n, EC.hops p = some n ∧ 1 ≤ n ∧
      (∀ v, (EC.insert v).2.hops p = some n) ∧
      (∀ v MI EC1, EC.findLeader v = .ok (MI, EC1) →
        ∃ n1, EC1.hops p = some n1 ∧ n1 ≤ n) ∧
      (∀ a b res EC1, EC.unionSets a b = .ok (res, EC1) →
        ∃ n1, EC1.hops p = some n1 ∧ n1 ≤ n + 1) := by
  have h := hR.inv
  have ha := hR.anchored
  obtain ⟨n, hn⟩ := EquivalenceClasses.hops_some h ha hr
  refine ⟨n, hn, ?_, ?_, ?_, ?_⟩
  · cases n with
    | succ k => exact Nat.succ_le_succ (Nat.zero_le _)
    | zero =>
      exfalso
      have hlen : 0 < EC.TheMapping.length :=
        List.length_pos_of_mem (NodeSet.deref_mem hr)
      obtain ⟨k, hk⟩ := Nat.exists_eq_succ_of_ne_zero (Nat.pos_iff_ne_zero.1 hlen)
      have hl0 : r.leaderBit = false := hm
      simp only [EquivalenceClasses.hops, hk, NodeSet.climbFuel, hr, ECValue.isLeader, hl0,
        Bool.false_eq_true, if_false] at hn
      cases hc : NodeSet.climbFuel k EC.TheMapping r.Leader with
      | none => simp [hc] at hn
      | some y => simp [hc] at hn
  · intro v
    show EquivalenceClasses.hops ⟨NodeSet.insert EC.TheMapping v⟩ p = some n
    rw [EquivalenceClasses.hops_insert h ha v hr]
    exact hn
  · intro v MI EC1 hf
    rw [show EC = ⟨EC.TheMapping⟩ from rfl, EquivalenceClasses.findLeader_eq h v] at hf
    have e : EC1 = EC := by
      cases hd : NodeSet.deref EC.TheMapping v with
      | none => rw [hd] at hf; cases hf; rfl
      | some rv => rw [hd] at hf; cases hf; rfl
    exact ⟨n, by rw [e]; exact hn, Nat.le_refl _⟩
  · intro a b res EC1 hu
    obtain ⟨n0, n1, hn0, hn1, _, hle⟩ := EquivalenceClasses.hops_unionSets h ha hu hr
    have e : n0 = n := by
      have h2 : EquivalenceClasses.hops ⟨EC.TheMapping⟩ p = some n := hn
      rw [hn0] at h2
      exact Option.some.inj h2
    exact ⟨n1, hn1, e ▸ hle⟩

/-- C20, amended, at `unionSets(1,2)` and the node of `2`. -/
theorem C20_hops_bounded_witness :
    ∃ EC : EquivalenceClasses Int,
      run [.unionSets 1 2] = .ok EC ∧
      EC.hops 2 = some 1 ∧
      ∃ n, EC.hops 2 = some n ∧ 1 ≤ n ∧
        (∀ v, (EC.insert v).2.hops 2 = some n) ∧
        (∀ v MI EC1, EC.findLeader v = .ok (MI, EC1) →
          ∃ n1, EC1.hops 2 = some n1 ∧ n1 ≤ n) ∧
        (∀ a b res EC1, EC.unionSets a b = .ok (res, EC1) →
          ∃ n1, EC1.hops 2 = some n1 ∧ n1 ≤ n + 1) :=
  ⟨⟨[⟨2, some 2, true, 1⟩, ⟨1, none, false, 2⟩]⟩, by decide, by decide,
   C20_hops_bounded _ 2 ⟨1, none, false, 2⟩ ⟨[.unionSets 1 2], by decide⟩
     (by decide) (by decide)⟩

end llvm

/-! ## Comparing two files -/

namespace llvm

theorem ifstreamGet_ne_EOF (c : Byte) : ((c.val : Nat) : Int) ≠ EOF := by
  unfold EOF
  omega

/-- The loop of `DiffFiles` ends within a round per byte of the first stream and one more,
and answers whether the two streams differ. -/
theorem DiffFilesLoop_eq (a : List Byte) :
    ∀ (b : List Byte) (fuel : Nat), a.length < fuel →
      DiffFilesLoop fuel a b = some (decide (a ≠ b)) := by
  induction a with
  | nil =>
    intro b fuel hf
    cases fuel with
    | zero => exact absurd hf (Nat.lt_irrefl _)
    | succ n =>
      cases b with
      | nil => simp [DiffFilesLoop, ifstreamGet]
      | cons y b1 =>
        have h := ifstreamGet_ne_EOF y
        simp [DiffFilesLoop, ifstreamGet, Ne.symm h]
  | cons x a1 ih =>
    intro b fuel hf
    cases fuel with
    | zero => exact absurd hf (Nat.not_lt_zero _)
    | succ n =>
      have hx := ifstreamGet_ne_EOF x
      cases b with
      | nil => simp [DiffFilesLoop, ifstreamGet, hx]
      | cons y b1 =>
        by_cases hxy : x = y
        · subst hxy
          have := ih b1 n (Nat.lt_of_succ_lt_succ hf)
          simp [DiffFilesLoop, ifstreamGet, hx, this]
        · have hv : ((x.val : Nat) : Int) ≠ ((y.val : Nat) : Int) := by
            intro e
            exact hxy (Fin.ext (Int.ofNat.inj e))
          simp [DiffFilesLoop, ifstreamGet, hv, hxy]

end llvm

/-! ## A chain of unions -/

namespace llvm
section
variable {ElemTy : Type} [LinearOrder ElemTy]

/-- One more union on a chain-shaped collection: `unionSets(z, y)` with `z` in the chain
and `y` new returns the leader and appends `y` to the chain. -/
theorem ChainShape.union_step {m : NodeSet ElemTy} {x1 : ElemTy} {l : List ElemTy}
    (hc : ChainShape m x1 l) (h : Inv m) {z y : ElemTy} (hz : z ∈ l) (hy : y ∉ l) :
    ∃ m1, EquivalenceClasses.unionSets ⟨m⟩ z y = .ok (some x1, ⟨m1⟩) ∧ Inv m1 ∧
      ChainShape m1 x1 (l ++ [y]) := by
  obtain ⟨hseg, ⟨r1, hr1, hl1⟩, hmem, hkeys⟩ := hc
  obtain ⟨t, ht⟩ := hseg.head
  have hx1 : x1 ∈ l := by rw [ht]; exact List.mem_cons_self _ _
  have hne : x1 ≠ y := fun e => hy (e ▸ hx1)
  have hzy : z ≠ y := fun e => hy (e ▸ hz)
  obtain ⟨rz, hrz⟩ := hseg.deref_of_mem hz
  have hynone : NodeSet.deref m y = none := by
    cases hd : NodeSet.deref m y with
    | none => rfl
    | some r => exact absurd (hkeys y r hd) hy
  have hins : NodeSet.insert m z = m := NodeSet.insert_eq_self h.sorted hrz
  have h2 := h.insert y
  have hself := NodeSet.deref_insert_self m hynone
  have hold : ∀ q r, NodeSet.deref m q = some r →
      NodeSet.deref (NodeSet.insert m y) q = some r :=
    fun q r hq => NodeSet.deref_insert_of_some y h.sorted hq
  obtain ⟨ra, rb, hra, hrb, e⟩ := EquivalenceClasses.unionSets_eq h z y
  rw [hins] at hra hrb e
  rw [hold z rz hrz] at hra
  rw [hself] at hrb
  cases hra
  cases hrb
  have hla : (if rz.leaderBit = true then z else rz.Leader) = x1 := by
    by_cases hzx : z = x1
    · subst hzx
      rw [hr1] at hrz
      cases hrz
      simp [hl1]
    · obtain ⟨r, hr, hb, hL⟩ := hmem z hz hzx
      rw [hrz] at hr
      cases hr
      simp [hb, hL]
  have hlb : (if (ECValue.ofElt y).leaderBit = true then y else (ECValue.ofElt y).Leader) = y := by
    simp [ECValue.ofElt]
  rw [hla, hlb] at e
  have hr1' := hold x1 r1 hr1
  obtain ⟨c, hcseg, hlast, _⟩ := h2.chain x1 r1 hr1' hl1
  obtain ⟨rt, hrt, htn⟩ := hcseg.last_next hlast
  have hu := EquivalenceClasses.unionSetsIt_leaders hne hr1' hl1 hself rfl hrt htn
  have hseg2 : IsSeg (NodeSet.insert m y) (some x1) l none := by
    refine IsSeg.congr ?_ hseg
    intro x _ r hr
    exact ⟨r, hold x r hr, rfl⟩
  have hsegy : IsSeg (NodeSet.insert m y) (some y) [y] none := ⟨rfl, _, hself, rfl⟩
  refine ⟨_, e.trans hu, h2.merged hne hr1' hl1 hself rfl, ?_, ?_, ?_, ?_⟩
  · exact h2.merged_chain hne hr1' hl1 hself rfl hseg2 hsegy
  · exact ⟨_, NodeSet.deref_merged_some _ _ _ hne hr1', by simp [hne, hl1]⟩
  · intro x hx hxx
    rcases List.mem_append.1 hx with hxl | hxy
    · obtain ⟨r, hr, hb, hL⟩ := hmem x hxl hxx
      have hxy : x ≠ y := fun e1 => hy (e1 ▸ hxl)
      exact ⟨_, NodeSet.deref_merged_some _ _ _ hne (hold x r hr), by simp [hxy, hb],
        by simp [hxy, hxx, hL]⟩
    · rw [List.mem_singleton] at hxy
      subst hxy
      exact ⟨_, NodeSet.deref_merged_some _ _ _ hne hself, by simp, by simp⟩
  · intro q r hq
    obtain ⟨r0, hr0, _⟩ := NodeSet.deref_merged_inv _ _ _ hne hq
    by_cases hqy : q = y
    · exact List.mem_append.2 (Or.inr (by rw [hqy]; exact List.mem_singleton_self _))
    · rw [NodeSet.deref_insert_ne m hqy] at hr0
      exact List.mem_append.2 (Or.inl (hkeys q r0 hr0))

/-- The unions along a list of new, pairwise different values, on a chain-shaped
collection, all go through and append the values to the chain. -/
theorem ChainShape.run_chain {x1 : ElemTy} (t : List ElemTy) :
    ∀ (l : List ElemTy) (m : NodeSet ElemTy) (z : ElemTy), ChainShape m x1 l → Inv m →
      z ∈ l → (l ++ t).Nodup →
      ∃ m1, runFrom ⟨m⟩ (chainFrom z t) = .ok ⟨m1⟩ ∧ Inv m1 ∧ ChainShape m1 x1 (l ++ t) := by
  induction t with
  | nil =>
    intro l m z hc h _ _
    exact ⟨m, rfl, h, by rw [List.append_nil]; exact hc⟩
  | cons y t ih =>
    intro l m z hc h hz hnd
    have hy : y ∉ l := by
      intro hyl
      have := (List.nodup_append.1 hnd).2.2
      exact this hyl (List.mem_cons_self _ _)
    obtain ⟨m1, hu, h1, hc1⟩ := hc.union_step h hz hy
    have hnd1 : ((l ++ [y]) ++ t).Nodup := by
      rw [List.append_assoc]
      exact hnd
    obtain ⟨m2, hrun, h2, hc2⟩ := ih (l ++ [y]) m1 y hc1 h1
      (List.mem_append.2 (Or.inr (List.mem_singleton_self _))) hnd1
    refine ⟨m2, ?_, h2, ?_⟩
    · simp only [chainFrom, runFrom, Op.apply, hu]
      exact hrun
    · rw [List.append_assoc] at hc2
      exact hc2

/-- The first union of a chain on the empty collection acts as on the collection that has
the first value alone. -/
theorem EquivalenceClasses.unionSets_empty (a b : ElemTy) :
    unionSets (empty : EquivalenceClasses ElemTy) a b = unionSets ⟨[ECValue.ofElt a]⟩ a b := by
  simp [unionSets, EquivalenceClasses.insert, empty, NodeSet.insert, ECValue.ofElt]

theorem ChainShape.of_single (x1 : ElemTy) :
    ChainShape ([ECValue.ofElt x1] : NodeSet ElemTy) x1 [x1] := by
  have hd : NodeSet.deref ([ECValue.ofElt x1] : NodeSet ElemTy) x1 = some (ECValue.ofElt x1) := by
    simp [NodeSet.deref_cons, ECValue.ofElt]
  refine ⟨⟨rfl, _, hd, rfl⟩, ⟨_, hd, rfl⟩, ?_, ?_⟩
  · intro x hx hxx
    rw [List.mem_singleton] at hx
    exact absurd hx hxx
  · intro q r hq
    rw [NodeSet.deref_cons] at hq
    split_ifs at hq with e
    · rw [List.mem_singleton]
      simpa [ECValue.ofElt] using e.symm
    · simp [NodeSet.deref_nil] at hq

end
end llvm

/-! ## The copy loop -/

namespace llvm
section
variable {ElemTy : Type} [LinearOrder ElemTy]

/-- One round of the copy loop on a well-shaped source: a leader is inserted, any other
node is united with the target of its `Leader` pointer, and the source is not changed. -/
theorem EquivalenceClasses.assignStep_eq {S : NodeSet ElemTy} (hS : Inv S)
    (self : EquivalenceClasses ElemTy) {I : ElemTy} {r : ECValue ElemTy}
    (hr : NodeSet.deref S I = some r) :
    assignStep self ⟨S⟩ I =
      if r.leaderBit then .ok ((self.insert I).2, ⟨S⟩)
      else
        match self.unionSets I r.Leader with
        | .error e => .error e
        | .ok (_, self1) => .ok (self1, ⟨S⟩) := by
  have hd := NodeSet.deref_data hr
  obtain ⟨l, hl⟩ := hS.leaderPtr I r hr
  have hdl := NodeSet.deref_data hl
  unfold assignStep
  simp only [hr, ECValue.isLeader, ECValue.getData, hd]
  by_cases hb : r.leaderBit = true
  · simp [hb]
  · simp only [hb, if_false]
    rw [findLeaderIt_eq hS hr]
    simp only [hb, if_false, star, hl, ECValue.getData, hdl, Bool.false_eq_true]

theorem CopyShape.copy_insert {S t : NodeSet ElemTy} (hc : CopyShape S t) (ht : Inv t)
    (v : ElemTy) : CopyShape S (NodeSet.insert t v) := by
  cases hv : NodeSet.deref t v with
  | some r => rw [NodeSet.insert_eq_self ht.sorted hv]; exact hc
  | none =>
    intro x rx hx hb
    by_cases e : x = v
    · subst e
      rw [NodeSet.deref_insert_self t hv] at hx
      cases hx
      simp [ECValue.ofElt] at hb
    · rw [NodeSet.deref_insert_ne t e] at hx
      exact hc x rx hx hb

/-- The first of the two nodes that a union of a value `k` with another value joins is the
node of a value that the source stores in a node that is not a leader, when `k` is. -/
theorem CopyShape.first_leader {S t : NodeSet ElemTy} (hc : CopyShape S t) {k : ElemTy}
    {rk ra : ECValue ElemTy} (hk : NodeSet.deref S k = some rk) (hkb : rk.leaderBit = false)
    (hra : NodeSet.deref t k = some ra) :
    ∃ ry, NodeSet.deref S (if ra.leaderBit = true then k else ra.Leader) = some ry ∧
      ry.leaderBit = false := by
  by_cases hb : ra.leaderBit = true
  · rw [if_pos hb]
    exact ⟨rk, hk, hkb⟩
  · rw [if_neg hb]
    exact hc k ra hra (by simpa using hb)

theorem CopyShape.copy_unionSets {S t : NodeSet ElemTy} (hc : CopyShape S t) (ht : Inv t)
    {k y : ElemTy} {rk : ECValue ElemTy} (hk : NodeSet.deref S k = some rk)
    (hkb : rk.leaderBit = false) {res : member_iterator ElemTy}
    {T1 : EquivalenceClasses ElemTy}
    (hu : EquivalenceClasses.unionSets ⟨t⟩ k y = .ok (res, T1)) :
    CopyShape S T1.TheMapping := by
  obtain ⟨ra, rb, hra, hrb, e⟩ := EquivalenceClasses.unionSets_eq ht k y
  rw [e] at hu
  have h1 := ht.insert k
  have c2 := (hc.copy_insert ht k).copy_insert h1 y
  have hla := c2.first_leader hk hkb hra
  by_cases hne : (if ra.leaderBit then k else ra.Leader) = (if rb.leaderBit then y else rb.Leader)
  · simp only [EquivalenceClasses.unionSetsIt, hne, if_true, Except.ok.injEq,
      Prod.mk.injEq] at hu
    rw [← hu.2]
    exact c2
  · obtain ⟨la, lb, lt, hla1, hlal, hlb, hlbl, _, _, _, e1⟩ :=
      EquivalenceClasses.unionSetsIt_ok hne hu
    rw [e1]
    intro x rx hx hb
    obtain ⟨r, hr, ex⟩ := NodeSet.deref_merged_inv _ _ _ hne hx
    by_cases hxb : x = (if rb.leaderBit then y else rb.Leader)
    · have : rx.Leader = (if ra.leaderBit then k else ra.Leader) := by
        rw [ex]; simp [hxb]
      rw [this]
      exact hla
    · have hrb0 : r.leaderBit = false := by
        rw [ex] at hb
        simpa [hxb] using hb
      have hxa : x ≠ (if ra.leaderBit then k else ra.Leader) := by
        intro e2
        rw [e2, hla1] at hr
        cases hr
        rw [hlal] at hrb0
        cases hrb0
      have : rx.Leader = r.Leader := by
        rw [ex]; simp [hxa, hxb]
      rw [this]
      exact c2 x r hr hrb0

/-- What is known of the nodes done stays known when no leader bit is set. -/
theorem CopyDone.mono {S t t1 : NodeSet ElemTy} {done : List ElemTy} (hd : CopyDone S t done)
    (hbits : ∀ x r, NodeSet.deref t x = some r →
      ∃ r1, NodeSet.deref t1 x = some r1 ∧ (r1.leaderBit = true → r.leaderBit = true)) :
    CopyDone S t1 done := by
  intro k hk rk rl hrk hkb hrl hlb
  have h0 := hd k hk rk rl hrk hkb hrl hlb
  cases hx : NodeSet.deref t rk.Leader with
  | none => rw [hx] at h0; cases h0
  | some r =>
    rw [hx] at h0
    obtain ⟨r1, hr1, himp⟩ := hbits _ r hx
    rw [hr1]
    have hr0 : r.leaderBit = false := by simpa [ECValue.isLeader] using h0
    cases hb1 : r1.leaderBit with
    | false => simp [ECValue.isLeader, hb1]
    | true =>
      have := himp hb1
      rw [hr0] at this
      cases this

/-- After the union of a node `k` of the source that is not a leader with the target `y`
of its `Leader` pointer, a leader of the source, `y` has a node that is not a leader. -/
theorem CopyShape.demotes {S t : NodeSet ElemTy} (hc : CopyShape S t) (ht : Inv t)
    {k y : ElemTy} {rk rl : ECValue ElemTy} (hk : NodeSet.deref S k = some rk)
    (hkb : rk.leaderBit = false) (hy : NodeSet.deref S y = some rl)
    (hyl : rl.leaderBit = true) {res : member_iterator ElemTy}
    {T1 : EquivalenceClasses ElemTy}
    (hu : EquivalenceClasses.unionSets ⟨t⟩ k y = .ok (res, T1)) :
    (NodeSet.deref T1.TheMapping y).map ECValue.isLeader = some false := by
  obtain ⟨ra, rb, hra, hrb, e⟩ := EquivalenceClasses.unionSets_eq ht k y
  rw [e] at hu
  have h1 := ht.insert k
  have c2 := (hc.copy_insert ht k).copy_insert h1 y
  obtain ⟨ry, hry, hryb⟩ := c2.first_leader hk hkb hra
  by_cases hbb : rb.leaderBit = true
  · have hne : (if ra.leaderBit then k else ra.Leader) ≠
        (if rb.leaderBit then y else rb.Leader) := by
      rw [if_pos hbb]
      intro e2
      rw [e2, hy] at hry
      cases hry
      rw [hyl] at hryb
      cases hryb
    obtain ⟨la, lb, lt, _, _, _, _, _, _, _, e1⟩ := EquivalenceClasses.unionSetsIt_ok hne hu
    rw [e1, NodeSet.deref_merged_some _ _ _ hne hrb]
    simp [ECValue.isLeader, hbb]
  · obtain ⟨r1, hr1, himp⟩ := EquivalenceClasses.unionSetsIt_bit hu hrb
    rw [hr1]
    cases hb1 : r1.leaderBit with
    | false => simp [ECValue.isLeader, hb1]
    | true => exact absurd (himp hb1) hbb

/-- The copy loop on a well-shaped source leaves the source as it is and keeps the shape of
the copy; every node visited is accounted for. -/
theorem EquivalenceClasses.assignLoop_shape {S : NodeSet ElemTy} (hS : Inv S)
    (ks : List ElemTy) :
    ∀ (t : NodeSet ElemTy) (done : List ElemTy) (T S1 : EquivalenceClasses ElemTy),
      (∀ k ∈ ks, ∃ r, NodeSet.deref S k = some r) → Inv t → CopyShape S t →
      CopyDone S t done → assignLoop ⟨t⟩ ⟨S⟩ ks = .ok (T, S1) →
      S1 = ⟨S⟩ ∧ Inv T.TheMapping ∧ CopyShape S T.TheMapping ∧
        CopyDone S T.TheMapping (done ++ ks) := by
  induction ks with
  | nil =>
    intro t done T S1 _ ht hc hd hl
    simp only [assignLoop, Except.ok.injEq, Prod.mk.injEq] at hl
    rw [← hl.1, ← hl.2, List.append_nil]
    exact ⟨rfl, ht, hc, hd⟩
  | cons k ks ih =>
    intro t done T S1 hks ht hc hd hl
    obtain ⟨rk, hrk⟩ := hks k (List.mem_cons_self _ _)
    have hks1 : ∀ k1 ∈ ks, ∃ r, NodeSet.deref S k1 = some r :=
      fun k1 h1 => hks k1 (List.mem_cons_of_mem _ h1)
    simp only [assignLoop, assignStep_eq hS ⟨t⟩ hrk] at hl
    have hfin : ∀ (t1 : NodeSet ElemTy), Inv t1 → CopyShape S t1 →
        CopyDone S t1 (done ++ [k]) → assignLoop ⟨t1⟩ ⟨S⟩ ks = .ok (T, S1) →
        S1 = ⟨S⟩ ∧ Inv T.TheMapping ∧ CopyShape S T.TheMapping ∧
          CopyDone S T.TheMapping (done ++ k :: ks) := by
      intro t1 h1 c1 d1 hl1
      have := ih t1 (done ++ [k]) T S1 hks1 h1 c1 d1 hl1
      rwa [List.append_assoc, List.singleton_append] at this
    by_cases hb : rk.leaderBit = true
    · simp only [hb, if_true, EquivalenceClasses.insert] at hl
      refine hfin _ (ht.insert k) (hc.copy_insert ht k) ?_ hl
      intro k1 hk1 rk1 rl hrk1 hkb1 hrl hlb
      rcases List.mem_append.1 hk1 with hk2 | hk2
      · exact (hd.mono (fun x r hx =>
          ⟨r, NodeSet.deref_insert_of_some k ht.sorted hx, id⟩)) k1 hk2 rk1 rl hrk1 hkb1 hrl hlb
      · rw [List.mem_singleton] at hk2
        subst hk2
        rw [hrk] at hrk1
        cases hrk1
        rw [hb] at hkb1
        cases hkb1
    · have hb0 : rk.leaderBit = false := by simpa using hb
      simp only [hb, if_false] at hl
      cases hu : unionSets ⟨t⟩ k rk.Leader with
      | error e => simp [hu] at hl
      | ok x =>
        obtain ⟨res, T1⟩ := x
        simp only [hu] at hl
        refine hfin T1.TheMapping (unionSets_inv ht hu) (hc.copy_unionSets ht hrk hb0 hu) ?_ hl
        intro k1 hk1 rk1 rl hrk1 hkb1 hrl hlb
        rcases List.mem_append.1 hk1 with hk2 | hk2
        · exact (hd.mono (fun x r hx => unionSets_bit ht hu hx)) k1 hk2 rk1 rl hrk1 hkb1 hrl hlb
        · rw [List.mem_singleton] at hk2
          subst hk2
          rw [hrk] at hrk1
          cases hrk1
          exact hc.demotes ht hrk hb0 hrl hlb hu

end
end llvm

/-! ## Claims on lookups, file comparison, chains of unions, frames, copies and iterators -/

namespace llvm

/-- On a well-shaped collection `findLeader` goes through and changes nothing. -/
theorem EquivalenceClasses.findLeader_total {ElemTy : Type} [LinearOrder ElemTy]
    {m : NodeSet ElemTy} (h : Inv m) (v : ElemTy) :
    ∃ MI, findLeader ⟨m⟩ v = .ok (MI, ⟨m⟩) := by
  rw [findLeader_eq h v]
  cases NodeSet.deref m v with
  | none => exact ⟨_, rfl⟩
  | some r => exact ⟨_, rfl⟩

/-- A climb from a node that is not a leader follows at least one pointer. -/
theorem NodeSet.climbFuel_pos {ElemTy : Type} [LinearOrder ElemTy] {m : NodeSet ElemTy}
    {fuel : Nat} {p : ElemTy} {r : ECValue ElemTy} {n : Nat} {l : ElemTy}
    (hr : NodeSet.deref m p = some r) (hb : r.leaderBit = false)
    (h : NodeSet.climbFuel fuel m p = some (n, l)) : 1 ≤ n := by
  cases fuel with
  | zero => simp [NodeSet.climbFuel] at h
  | succ f =>
    rw [NodeSet.climbFuel] at h
    simp only [hr, ECValue.isLeader, hb, Bool.false_eq_true, if_false] at h
    cases hc : NodeSet.climbFuel f m r.Leader with
    | none => simp [hc] at h
    | some y =>
      simp only [hc, Option.some.injEq, Prod.mk.injEq] at h
      omega

/-- C21: on a reachable collection `findLeader(x)` and `findLeader(y)` go through and leave
the collection as it is, so that after any `findLeader(x)` a following `findLeader(y)`
returns what it returned before, and a second `findLeader(x)` what the first returned. -/
theorem C21_lookup_stability {ElemTy : Type} [LinearOrder ElemTy]
    (EC : EquivalenceClasses ElemTy) (x y : ElemTy) (hR : Reachable EC) :
    ∃ MIx MIy, EC.findLeader x = .ok (MIx, EC) ∧ EC.findLeader y = .ok (MIy, EC) ∧
      ∀ MI EC1, EC.findLeader x = .ok (MI, EC1) →
        EC1.findLeader y = .ok (MIy, EC1) ∧ EC1.findLeader x = .ok (MI, EC1) := by
  obtain ⟨MIx, hx⟩ := EquivalenceClasses.findLeader_total hR.inv x
  obtain ⟨MIy, hy⟩ := EquivalenceClasses.findLeader_total hR.inv y
  refine ⟨MIx, MIy, hx, hy, ?_⟩
  intro MI EC1 h1
  have hx1 : EC.findLeader x = .ok (MIx, EC) := hx
  rw [hx1] at h1
  cases h1
  exact ⟨hy, hx⟩

/-- C21 at `unionSets(1,2); unionSets(3,1)` with `x = 2` and `y = 1`. -/
theorem C21_lookup_stability_witness :
    ∃ EC : EquivalenceClasses Int,
      run [.unionSets 1 2, .unionSets 3 1] = .ok EC ∧
      ∃ MIx MIy, EC.findLeader 2 = .ok (MIx, EC) ∧ EC.findLeader 1 = .ok (MIy, EC) ∧
        ∀ MI EC1, EC.findLeader 2 = .ok (MI, EC1) →
          EC1.findLeader 1 = .ok (MIy, EC1) ∧ EC1.findLeader 2 = .ok (MI, EC1) :=
  ⟨⟨[⟨3, some 2, false, 1⟩, ⟨1, none, false, 2⟩, ⟨2, some 1, true, 3⟩]⟩, by decide,
   C21_lookup_stability _ 2 1 ⟨[.unionSets 1 2, .unionSets 3 1], by decide⟩⟩

/-- C22: `DiffFiles` on two files that can be opened returns `false` when their byte
sequences are the same and `true` when they differ, and leaves the error string alone; when
the first file cannot be opened, or else the second, it returns `true` and a supplied error
string becomes `Couldn't open file '<name>'` with the name of that file, while a null error
pointer stays null. -/
theorem C22_DiffFiles (fs : String → Option (List Byte)) (FileA FileB : String)
    (Error : Option String) :
    (∀ a b, fs FileA = some a → fs FileB = some b →
      DiffFiles fs FileA FileB Error = some (decide (a ≠ b), Error)) ∧
    (fs FileA = none →
      DiffFiles fs FileA FileB Error =
        some (true, Error.map (fun _ => "Couldn't open file '" ++ FileA ++ "'"))) ∧
    (∀ a, fs FileA = some a → fs FileB = none →
      DiffFiles fs FileA FileB Error =
        some (true, Error.map (fun _ => "Couldn't open file '" ++ FileB ++ "'"))) ∧
    DiffFiles (fun _ => none) "a.txt" "b.txt" (some "") =
      some (true, some "Couldn't open file 'a.txt'") ∧
    DiffFiles (fun File => if File = "a.txt" then some [] else none) "a.txt" "b.txt"
      (some "") = some (true, some "Couldn't open file 'b.txt'") ∧
    DiffFiles (fun _ => none) "a.txt" "b.txt" none = some (true, none) := by
  refine ⟨?_, ?_, ?_, ?_, ?_, ?_⟩
  · intro a b ha hb
    simp only [DiffFiles, ha, hb, DiffFilesLoop_eq a b _ (Nat.lt_succ_self _), Option.map_some']
  · intro ha
    simp only [DiffFiles, ha, couldntOpen]
  · intro a ha hb
    simp only [DiffFiles, ha, hb, couldntOpen]
  · decide
  · decide
  · decide

/-- C23 (fails on the code): after `unionSets(1,2); unionSets(3,1)` the node of `2` is not
a leader; `findLeader(2)` returns the node of `1` and changes nothing, so that the `Leader`
pointer of `2` still refers to the node of `1`, which is not a leader, and `2` is still two
pointers away from a leader. -/
theorem C23_no_path_compression :
    ∃ EC : EquivalenceClasses Int,
      run [.unionSets 1 2, .unionSets 3 1] = .ok EC ∧
      (NodeSet.deref EC.TheMapping 2).map ECValue.isLeader = some false ∧
      EC.findLeader 2 = .ok (some 1, EC) ∧
      (NodeSet.deref EC.TheMapping 2).map ECValue.Leader = some 1 ∧
      (NodeSet.deref EC.TheMapping 1).map ECValue.isLeader = some false ∧
      EC.hops 2 = some 2 :=
  ⟨⟨[⟨3, some 2, false, 1⟩, ⟨1, none, false, 2⟩, ⟨2, some 1, true, 3⟩]⟩,
   by decide, by decide, by decide, by decide, by decide, by decide⟩

/-- C24: for pairwise different values `x1, x2, ...`, at least two, the calls
`unionSets(x1,x2); unionSets(x2,x3); ...` on the empty collection all go through; afterwards
`findLeader` of each of the values is the node of `x1`, and the member walk from `x1` is the
list of the values. -/
theorem C24_chain_of_unions {ElemTy : Type} [LinearOrder ElemTy]
    (x1 x2 : ElemTy) (rest : List ElemTy) (hnd : (x1 :: x2 :: rest).Nodup) :
    ∃ EC, run (chainOps (x1 :: x2 :: rest)) = .ok EC ∧
      (∀ x ∈ x1 :: x2 :: rest, EC.findLeader x = .ok (some x1, EC)) ∧
      EC.members (some x1) = .ok (x1 :: x2 :: rest) := by
  have h0 : Inv ([ECValue.ofElt x1] : NodeSet ElemTy) := Inv.nil.insert x1
  obtain ⟨m1, hrun, h1, hc⟩ := ChainShape.run_chain (x2 :: rest) [x1] _ x1
    (ChainShape.of_single x1) h0 (List.mem_singleton_self _) hnd
  obtain ⟨hseg, ⟨r1, hr1, hl1⟩, hmem, _⟩ := hc
  refine ⟨⟨m1⟩, ?_, ?_, ?_⟩
  · simp only [chainFrom, runFrom, Op.apply] at hrun
    simp only [run, chainOps, chainFrom, runFrom, Op.apply,
      EquivalenceClasses.unionSets_empty]
    exact hrun
  · intro x hx
    rw [EquivalenceClasses.findLeader_eq h1 x]
    by_cases hxx : x = x1
    · subst hxx
      simp [hr1, hl1]
    · obtain ⟨r, hr, hb, hL⟩ := hmem x hx hxx
      simp [hr, hb, hL]
  · exact h1.members_eq ⟨⟨r1, hr1, hl1⟩, hseg⟩

/-- C24 at the values `1, 2, 3, 4`. -/
theorem C24_chain_of_unions_witness :
    run [Op.unionSets (1 : Int) 2, .unionSets 2 3, .unionSets 3 4] =
        run (chainOps [(1 : Int), 2, 3, 4]) ∧
      ∃ EC, run (chainOps [(1 : Int), 2, 3, 4]) = .ok EC ∧
        (∀ x ∈ [(1 : Int), 2, 3, 4], EC.findLeader x = .ok (some 1, EC)) ∧
        EC.members (some 1) = .ok [1, 2, 3, 4] :=
  ⟨rfl, C24_chain_of_unions 1 2 [3, 4] (by decide)⟩

/-- C25: on a reachable collection, following the `Leader` pointers from a node that is
not a leader arrives, within a visit per node of the set and after at least one pointer, at
a leader; the node is on the member walk of that leader and of no other leader. -/
theorem C25_leader_pointers_well_founded {ElemTy : Type} [LinearOrder ElemTy]
    (EC : EquivalenceClasses ElemTy) (p : ElemTy) (r : ECValue ElemTy)
    (hR : Reachable EC) (hr : NodeSet.deref EC.TheMapping p = some r)
    (hm : r.isLeader = false) :
    ∃ n L c, NodeSet.climbFuel EC.TheMapping.length EC.TheMapping p = some (n, L) ∧ 1 ≤ n ∧
      (NodeSet.deref EC.TheMapping L).map ECValue.isLeader = some true ∧
      EC.members (some L) = .ok c ∧ p ∈ c ∧
      ∀ L1 c1, (NodeSet.deref EC.TheMapping L1).map ECValue.isLeader = some true →
        EC.members (some L1) = .ok c1 → p ∈ c1 → L1 = L := by
  have h := hR.inv
  obtain ⟨n, L, c, hcl, hc, hpc, _⟩ := hR.anchored.climb_total h hr
  obtain ⟨⟨rL, hrL, hlL⟩, hs⟩ := hc
  refine ⟨n, L, c, hcl, NodeSet.climbFuel_pos hr hm hcl, ?_,
    h.members_eq ⟨⟨rL, hrL, hlL⟩, hs⟩, hpc, ?_⟩
  · rw [hrL]
    simp [ECValue.isLeader, hlL]
  · intro L1 c1 hL1 hw hp1
    cases hd : NodeSet.deref EC.TheMapping L1 with
    | none => rw [hd] at hL1; cases hL1
    | some r1 =>
      rw [hd] at hL1
      have hl1 : r1.leaderBit = true := by simpa [ECValue.isLeader] using hL1
      exact h.disjoint L1 L c1 c p
        ⟨⟨r1, hd, hl1⟩, EquivalenceClasses.seg_of_membersFuel hw⟩ ⟨⟨rL, hrL, hlL⟩, hs⟩ hp1 hpc

/-- C25 at `unionSets(1,2); unionSets(3,1)` and the node of `2`. -/
theorem C25_leader_pointers_well_founded_witness :
    ∃ EC : EquivalenceClasses Int,
      run [.unionSets 1 2, .unionSets 3 1] = .ok EC ∧
      NodeSet.climbFuel EC.TheMapping.length EC.TheMapping 2 = some (2, 3) ∧
      ∃ n L c, NodeSet.climbFuel EC.TheMapping.length EC.TheMapping 2 = some (n, L) ∧ 1 ≤ n ∧
        (NodeSet.deref EC.TheMapping L).map ECValue.isLeader = some true ∧
        EC.members (some L) = .ok c ∧ 2 ∈ c ∧
        ∀ L1 c1, (NodeSet.deref EC.TheMapping L1).map ECValue.isLeader = some true →
          EC.members (some L1) = .ok c1 → 2 ∈ c1 → L1 = L :=
  ⟨⟨[⟨3, some 2, false, 1⟩, ⟨1, none, false, 2⟩, ⟨2, some 1, true, 3⟩]⟩,
   by decide, by decide,
   C25_leader_pointers_well_founded _ 2 ⟨1, none, false, 2⟩
     ⟨[.unionSets 1 2, .unionSets 3 1], by decide⟩ (by decide) (by decide)⟩

/-- C26: on a reachable collection, `unionSets(La, Lb)` of two different leaders, with
member walks `A` and `B`, goes through; the set keeps its nodes; the `Next` pointer changes
only in the last node of `A`, where it becomes `Lb`; the leader bit changes only in `Lb`,
where it is cleared; the `Leader` pointer changes only in `Lb`, where it becomes `La`, and
in `La`, where it becomes the old end of list of `Lb`; a node outside `A` and `B` keeps
all its fields. -/
theorem C26_frame_of_merge {ElemTy : Type} [LinearOrder ElemTy]
    (EC : EquivalenceClasses ElemTy) (La Lb : ElemTy) (ra rb : ECValue ElemTy)
    (A B : List ElemTy) (hR : Reachable EC)
    (hra : NodeSet.deref EC.TheMapping La = some ra) (hal : ra.isLeader = true)
    (hrb : NodeSet.deref EC.TheMapping Lb = some rb) (hbl : rb.isLeader = true)
    (hne : La ≠ Lb)
    (hA : EC.members (some La) = .ok A) (hB : EC.members (some Lb) = .ok B) :
    ∃ EC1, EC.unionSetsIt (some La) (some Lb) = .ok (some La, EC1) ∧
      A.getLast? = some ra.Leader ∧ Lb ≠ ra.Leader ∧
      (∀ x, NodeSet.deref EC.TheMapping x = none → NodeSet.deref EC1.TheMapping x = none) ∧
      ∀ x r, NodeSet.deref EC.TheMapping x = some r →
        ∃ r1, NodeSet.deref EC1.TheMapping x = some r1 ∧
          r1.Data = r.Data ∧
          r1.Next = (if x = ra.Leader then some Lb else r.Next) ∧
          r1.leaderBit = (if x = Lb then false else r.leaderBit) ∧
          r1.Leader = (if x = Lb then La else if x = La then rb.Leader else r.Leader) ∧
          (x ∉ A → x ∉ B → r1 = r) := by
  have h := hR.inv
  have hsA := EquivalenceClasses.seg_of_membersFuel hA
  have hsB := EquivalenceClasses.seg_of_membersFuel hB
  obtain ⟨c, hc, hlast, _⟩ := h.chain La ra hra hal
  have e : A = c := IsSeg.unique hsA hc
  subst e
  obtain ⟨rt, hrt, htn⟩ := hc.last_next hlast
  have htA : ra.Leader ∈ A := List.mem_of_getLast?_eq_some hlast
  obtain ⟨tA, hAh⟩ := hsA.head
  obtain ⟨tB, hBh⟩ := hsB.head
  have hLaA : La ∈ A := by rw [hAh]; exact List.mem_cons_self _ _
  have hLbB : Lb ∈ B := by rw [hBh]; exact List.mem_cons_self _ _
  have hLbt : Lb ≠ ra.Leader := by
    intro e1
    exact hne (h.disjoint La Lb A B Lb ⟨⟨ra, hra, hal⟩, hsA⟩ ⟨⟨rb, hrb, hbl⟩, hsB⟩
      (e1 ▸ htA) hLbB)
  refine ⟨_, EquivalenceClasses.unionSetsIt_leaders hne hra hal hrb hbl hrt htn, hlast, hLbt,
    ?_, ?_⟩
  · intro x hx
    rw [NodeSet.deref_merged _ _ _ _ hne, hx]
    rfl
  · intro x r hx
    refine ⟨_, NodeSet.deref_merged_some _ _ _ hne hx, rfl, rfl, rfl, rfl, ?_⟩
    intro hxA hxB
    have h1 : x ≠ ra.Leader := fun e1 => hxA (e1 ▸ htA)
    have h2 : x ≠ La := fun e1 => hxA (e1 ▸ hLaA)
    have h3 : x ≠ Lb := fun e1 => hxB (e1 ▸ hLbB)
    simp [h1, h2, h3]

/-- C26 at `unionSets(1,2); insert(4); insert(5)` with the leaders `5` and `1`. -/
theorem C26_frame_of_merge_witness :
    ∃ EC EC1 : EquivalenceClasses Int,
      run [.unionSets 1 2, .insert 4, .insert 5] = .ok EC ∧
      EC.unionSetsIt (some 5) (some 1) = .ok (some 5, EC1) ∧
      NodeSet.deref EC1.TheMapping 4 = NodeSet.deref EC.TheMapping 4 ∧
      ∃ EC2, EC.unionSetsIt (some 5) (some 1) = .ok (some 5, EC2) ∧
        [(5 : Int)].getLast? = some 5 ∧ (1 : Int) ≠ 5 ∧
        (∀ x, NodeSet.deref EC.TheMapping x = none → NodeSet.deref EC2.TheMapping x = none) ∧
        ∀ x r, NodeSet.deref EC.TheMapping x = some r →
          ∃ r1, NodeSet.deref EC2.TheMapping x = some r1 ∧
            r1.Data = r.Data ∧
            r1.Next = (if x = 5 then some 1 else r.Next) ∧
            r1.leaderBit = (if x = 1 then false else r.leaderBit) ∧
            r1.Leader = (if x = 1 then 5 else if x = 5 then 2 else r.Leader) ∧
            (x ∉ [(5 : Int)] → x ∉ [(1 : Int), 2] → r1 = r) :=
  ⟨⟨[⟨2, some 2, true, 1⟩, ⟨1, none, false, 2⟩, ⟨4, none, true, 4⟩, ⟨5, none, true, 5⟩]⟩,
   ⟨[⟨5, some 2, false, 1⟩, ⟨1, none, false, 2⟩, ⟨4, none, true, 4⟩, ⟨2, some 1, true, 5⟩]⟩,
   by decide, by decide, by decide,
   C26_frame_of_merge
     ⟨[⟨2, some 2, true, 1⟩, ⟨1, none, false, 2⟩, ⟨4, none, true, 4⟩, ⟨5, none, true, 5⟩]⟩
     5 1 ⟨5, none, true, 5⟩ ⟨2, some 2, true, 1⟩ [5] [1, 2]
     ⟨[.unionSets 1 2, .insert 4, .insert 5], by decide⟩
     (by decide) (by decide) (by decide) (by decide) (by decide) (by decide) (by decide)⟩

section
variable {ElemTy : Type} [LinearOrder ElemTy]

end

/-- C28 as stated fails: the collection `S` after `unionSets(1,2); unionSets(3,1)` has the
class `[3, 1, 2]` with representative `3`, whose smallest other element is `1`; in the copy
`T` the only leader is `2`, with the member walk `[2, 1, 3]`, and `1` is not a leader. -/
theorem C28_copy_representative_not_smallest :
    ∃ S T : EquivalenceClasses Int,
      run [.unionSets 1 2, .unionSets 3 1] = .ok S ∧
      S.classes = [.ok [3, 1, 2]] ∧
      S.copy = .ok (T, S) ∧
      T.classes = [.ok [2, 1, 3]] ∧
      (T.nodes.filter (fun I => I.isLeader)).map ECValue.getData = [2] ∧
      (NodeSet.deref T.TheMapping 1).map ECValue.isLeader = some false :=
  ⟨⟨[⟨3, some 2, false, 1⟩, ⟨1, none, false, 2⟩, ⟨2, some 1, true, 3⟩]⟩,
   ⟨[⟨2, some 3, false, 1⟩, ⟨3, some 1, true, 2⟩, ⟨1, none, false, 3⟩]⟩,
   by decide, by decide, by decide, by decide, by decide, by decide⟩

/-- C28, amended: when the copy of a reachable collection `S` goes through, `S` is left as
it is, and the representative in `S` of a class of at least two members has in the copy a
node that is not a leader. -/
theorem C28_copy_demotes_representative {ElemTy : Type} [LinearOrder ElemTy]
    (S T S1 : EquivalenceClasses ElemTy) (L : ElemTy) (r : ECValue ElemTy) (c : List ElemTy)
    (hR : Reachable S) (hcopy : S.copy = .ok (T, S1))
    (hr : NodeSet.deref S.TheMapping L = some r) (hl : r.isLeader = true)
    (hw : S.members (some L) = .ok c) (h2 : 2 ≤ c.length) :
    S1 = S ∧ (NodeSet.deref T.TheMapping L).map ECValue.isLeader = some false := by
  have h := hR.inv
  have hks : ∀ k ∈ S.nodes.map ECValue.getData, ∃ rk, NodeSet.deref S.TheMapping k = some rk := by
    intro k hk
    have := (NodeSet.mem_map_data_iff S.TheMapping k).1 hk
    cases hd : NodeSet.deref S.TheMapping k with
    | none => rw [hd] at this; cases this
    | some rk => exact ⟨rk, rfl⟩
  obtain ⟨e1, _, _, hdone⟩ := EquivalenceClasses.assignLoop_shape h
    (S.nodes.map ECValue.getData) [] [] T S1 hks Inv.nil
    (fun x rx hx => by simp [NodeSet.deref_nil] at hx)
    (fun k hk => by cases hk) hcopy
  refine ⟨e1, ?_⟩
  have hs := EquivalenceClasses.seg_of_membersFuel hw
  obtain ⟨c0, hc0, _, hnd⟩ := h.chain L r hr hl
  have ec : c = c0 := IsSeg.unique hs hc0
  subst ec
  have hcl : IsClass S.TheMapping L c := ⟨⟨r, hr, hl⟩, hs⟩
  obtain ⟨t, ht⟩ := hs.head
  subst ht
  cases t with
  | nil => simp at h2
  | cons k t1 =>
    have hkc : k ∈ L :: k :: t1 := List.mem_cons_of_mem _ (List.mem_cons_self _ _)
    have hkL : k ≠ L := by
      intro e
      rw [List.nodup_cons] at hnd
      exact hnd.1 (e ▸ List.mem_cons_self _ _)
    obtain ⟨rk, hrk⟩ := hs.deref_of_mem hkc
    have hkb : rk.leaderBit = false := by
      cases hb : rk.leaderBit with
      | false => rfl
      | true =>
        obtain ⟨ck, hck, _, _⟩ := h.class_of_leader hrk hb
        obtain ⟨tk, htk⟩ := hck.2.head
        exact absurd (h.disjoint k L ck _ k hck hcl (by rw [htk]; exact List.mem_cons_self _ _)
          hkc) hkL
    obtain ⟨hmem, hidx⟩ := hR.anchored L _ k rk hcl hkc hrk hkb
    have hL : rk.Leader = L := by
      by_contra hne
      rw [List.indexOf_cons_ne _ (fun e => hne e.symm), List.indexOf_cons_ne _ (Ne.symm hkL),
        List.indexOf_cons_self] at hidx
      omega
    have hkm : k ∈ [] ++ S.nodes.map ECValue.getData := by
      rw [List.nil_append]
      exact (NodeSet.mem_map_data_iff S.TheMapping k).2 (by rw [hrk]; rfl)
    have := hdone k hkm rk r hrk hkb (by rw [hL]; exact hr) hl
    rw [hL] at this
    exact this

/-- C28, amended, at `unionSets(1,2); unionSets(3,1)` and its representative `3`. -/
theorem C28_copy_demotes_representative_witness :
    ∃ S T : EquivalenceClasses Int,
      run [.unionSets 1 2, .unionSets 3 1] = .ok S ∧
      S.copy = .ok (T, S) ∧
      S.members (some 3) = .ok [3, 1, 2] ∧
      S = S ∧ (NodeSet.deref T.TheMapping 3).map ECValue.isLeader = some false :=
  ⟨⟨[⟨3, some 2, false, 1⟩, ⟨1, none, false, 2⟩, ⟨2, some 1, true, 3⟩]⟩,
   ⟨[⟨2, some 3, false, 1⟩, ⟨3, some 1, true, 2⟩, ⟨1, none, false, 3⟩]⟩,
   by decide, by decide, by decide,
   C28_copy_demotes_representative
     ⟨[⟨3, some 2, false, 1⟩, ⟨1, none, false, 2⟩, ⟨2, some 1, true, 3⟩]⟩
     ⟨[⟨2, some 3, false, 1⟩, ⟨3, some 1, true, 2⟩, ⟨1, none, false, 3⟩]⟩
     ⟨[⟨3, some 2, false, 1⟩, ⟨1, none, false, 2⟩, ⟨2, some 1, true, 3⟩]⟩
     3 ⟨2, some 1, true, 3⟩ [3, 1, 2]
     ⟨[.unionSets 1 2, .unionSets 3 1], by decide⟩
     (by decide) (by decide) (by decide) (by decide) (by decide)⟩

/-- C29: on a reachable collection, for a node `I` of the set, `member_begin(I)` is
`member_end()`, whose iteration is empty, when `I` is not a leader; when `I` is a leader it
is the iterator at the node `I`, `*` on it gives the data of `I`, and its iteration ends and
yields the data of `I` first. -/
theorem C29_only_leaders_provide_members {ElemTy : Type} [LinearOrder ElemTy]
    (EC : EquivalenceClasses ElemTy) (I : ECValue ElemTy)
    (hR : Reachable EC) (hI : I ∈ EC.nodes) :
    (I.isLeader = false →
      EquivalenceClasses.member_begin I = EquivalenceClasses.member_end ∧
      EC.members (EquivalenceClasses.member_begin I) = .ok []) ∧
    (I.isLeader = true →
      EquivalenceClasses.member_begin I = some I.getData ∧
      NodeSet.deref EC.TheMapping I.getData = some I ∧
      EC.star (EquivalenceClasses.member_begin I) = .ok I.getData ∧
      ∃ rest, EC.members (EquivalenceClasses.member_begin I) = .ok (I.getData :: rest)) := by
  have h := hR.inv
  have hd : NodeSet.deref EC.TheMapping I.Data = some I := NodeSet.deref_of_mem_sorted h.sorted hI
  constructor
  · intro hb
    have e : EquivalenceClasses.member_begin I = none := by
      simp [EquivalenceClasses.member_begin, hb]
    rw [e]
    exact ⟨rfl, EquivalenceClasses.membersFuel_none _ _⟩
  · intro hb
    have e : EquivalenceClasses.member_begin I = some I.Data := by
      simp [EquivalenceClasses.member_begin, hb]
    rw [e]
    obtain ⟨c, hc, _, _⟩ := h.class_of_leader hd hb
    obtain ⟨t, ht⟩ := hc.2.head
    refine ⟨rfl, hd, ?_, t, ?_⟩
    · simp [EquivalenceClasses.star, hd]
    · rw [h.members_eq hc, ht]
      rfl

/-- C29 at `unionSets(1,2)` and its leader node. -/
theorem C29_only_leaders_provide_members_witness :
    ∃ EC : EquivalenceClasses Int,
      run [.unionSets 1 2] = .ok EC ∧
      EC.members (EquivalenceClasses.member_begin ⟨2, some 2, true, 1⟩) = .ok [1, 2] ∧
      EC.members (EquivalenceClasses.member_begin ⟨1, none, false, 2⟩) = .ok [] ∧
      ((⟨2, some 2, true, 1⟩ : ECValue Int).isLeader = true →
        EquivalenceClasses.member_begin (⟨2, some 2, true, 1⟩ : ECValue Int) = some 1 ∧
        NodeSet.deref EC.TheMapping 1 = some ⟨2, some 2, true, 1⟩ ∧
        EC.star (EquivalenceClasses.member_begin ⟨2, some 2, true, 1⟩) = .ok 1 ∧
        ∃ rest, EC.members (EquivalenceClasses.member_begin ⟨2, some 2, true, 1⟩) =
          .ok (1 :: rest)) :=
  ⟨⟨[⟨2, some 2, true, 1⟩, ⟨1, none, false, 2⟩]⟩, by decide, by decide, by decide,
   (C29_only_leaders_provide_members
     ⟨[⟨2, some 2, true, 1⟩, ⟨1, none, false, 2⟩]⟩ ⟨2, some 2, true, 1⟩
     ⟨[.unionSets 1 2], by decide⟩ (by decide)).2⟩

end llvm

/-! ## Assignment into a collection that has nodes -/

namespace llvm
section
variable {ElemTy : Type} [LinearOrder ElemTy]

theorem SameWalk.walk_insert {m : NodeSet ElemTy} {x y : ElemTy} (hw : SameWalk m x y)
    (h : Inv m) (v : ElemTy) : SameWalk (NodeSet.insert m v) x y := by
  obtain ⟨p, c, ⟨⟨r, hr, hl⟩, hs⟩, hx, hy⟩ := hw
  refine ⟨p, c, ⟨⟨r, NodeSet.deref_insert_of_some v h.sorted hr, hl⟩, ?_⟩, hx, hy⟩
  refine IsSeg.congr ?_ hs
  intro z _ rz hz
  exact ⟨rz, NodeSet.deref_insert_of_some v h.sorted hz, rfl⟩

/-- A real union keeps two values that were on one chain on one chain. -/
theorem SameWalk.walk_merged {m : NodeSet ElemTy} {x y : ElemTy} (hw : SameWalk m x y)
    (h : Inv m) {La Lb : ElemTy} {ra rb : ECValue ElemTy}
    (hne : La ≠ Lb) (ha : NodeSet.deref m La = some ra) (hal : ra.leaderBit = true)
    (hb : NodeSet.deref m Lb = some rb) (hbl : rb.leaderBit = true) :
    SameWalk (NodeSet.merged m La Lb ra.Leader rb.Leader) x y := by
  obtain ⟨cA, hclA, hlastA, _⟩ := h.class_of_leader ha hal
  obtain ⟨cB, hclB, _, _⟩ := h.class_of_leader hb hbl
  have hAB := h.merged_chain hne ha hal hb hbl hclA.2 hclB.2
  have hnew : IsClass (NodeSet.merged m La Lb ra.Leader rb.Leader) La (cA ++ cB) :=
    ⟨⟨_, NodeSet.deref_merged_some m _ _ hne ha, by simp [hne, hal]⟩, hAB⟩
  have htA : ra.Leader ∈ cA := List.mem_of_getLast?_eq_some hlastA
  obtain ⟨p, c, hc, hx, hy⟩ := hw
  by_cases hpa : p = La
  · subst hpa
    have e : c = cA := IsSeg.unique hc.2 hclA.2
    subst e
    exact ⟨p, c ++ cB, hnew, List.mem_append.2 (Or.inl hx), List.mem_append.2 (Or.inl hy)⟩
  · by_cases hpb : p = Lb
    · subst hpb
      have e : c = cB := IsSeg.unique hc.2 hclB.2
      subst e
      exact ⟨La, cA ++ c, hnew, List.mem_append.2 (Or.inr hx), List.mem_append.2 (Or.inr hy)⟩
    · obtain ⟨⟨r, hr, hl⟩, hs⟩ := hc
      refine ⟨p, c, ⟨⟨_, NodeSet.deref_merged_some m _ _ hne hr, by simp [hpb, hl]⟩, ?_⟩, hx, hy⟩
      refine hs.merged_of_not_mem _ _ hne ?_
      intro hmem
      exact hpa (h.disjoint p La c cA _ ⟨⟨r, hr, hl⟩, hs⟩ hclA hmem htA)

theorem SameWalk.walk_unionSets {m : NodeSet ElemTy} {x y : ElemTy} (hw : SameWalk m x y)
    (h : Inv m) {a b : ElemTy} {res : member_iterator ElemTy}
    {EC1 : EquivalenceClasses ElemTy}
    (hu : EquivalenceClasses.unionSets ⟨m⟩ a b = .ok (res, EC1)) :
    SameWalk EC1.TheMapping x y := by
  obtain ⟨ra, rb, _, _, e⟩ := EquivalenceClasses.unionSets_eq h a b
  rw [e] at hu
  have h1 := h.insert a
  have h2 := h1.insert b
  have w2 := (hw.walk_insert h a).walk_insert h1 b
  by_cases hne : (if ra.leaderBit then a else ra.Leader) = (if rb.leaderBit then b else rb.Leader)
  · simp only [EquivalenceClasses.unionSetsIt, hne, if_true, Except.ok.injEq,
      Prod.mk.injEq] at hu
    rw [← hu.2]
    exact w2
  · obtain ⟨la, lb, lt, hla, hlal, hlb, hlbl, _, _, _, e1⟩ :=
      EquivalenceClasses.unionSetsIt_ok hne hu
    rw [e1]
    exact w2.walk_merged h2 hne hla hlal hlb hlbl

/-- The loop of `operator=` on a well-shaped source and a well-shaped target, when it goes
through: the source is left as it is; the target keeps its nodes and gets a node for every
node visited; two values on one chain of the target stay on one chain. -/
theorem EquivalenceClasses.assignLoop_keeps {S : NodeSet ElemTy} (hS : Inv S)
    (ks : List ElemTy) :
    ∀ (t : NodeSet ElemTy) (T S1 : EquivalenceClasses ElemTy),
      (∀ k ∈ ks, ∃ r, NodeSet.deref S k = some r) → Inv t →
      assignLoop ⟨t⟩ ⟨S⟩ ks = .ok (T, S1) →
      S1 = ⟨S⟩ ∧ Inv T.TheMapping ∧
        (∀ q, (NodeSet.deref t q).isSome = true → (NodeSet.deref T.TheMapping q).isSome = true) ∧
        (∀ k ∈ ks, (NodeSet.deref T.TheMapping k).isSome = true) ∧
        (∀ x y, SameWalk t x y → SameWalk T.TheMapping x y) := by
  induction ks with
  | nil =>
    intro t T S1 _ ht hl
    simp only [assignLoop, Except.ok.injEq, Prod.mk.injEq] at hl
    rw [← hl.1, ← hl.2]
    exact ⟨rfl, ht, fun _ hq => hq, fun k hk => absurd hk (List.not_mem_nil k),
      fun _ _ hw => hw⟩
  | cons k ks ih =>
    intro t T S1 hks ht hl
    obtain ⟨rk, hrk⟩ := hks k (List.mem_cons_self _ _)
    have hks1 : ∀ k1 ∈ ks, ∃ r, NodeSet.deref S k1 = some r :=
      fun k1 h1 => hks k1 (List.mem_cons_of_mem _ h1)
    simp only [assignLoop, assignStep_eq hS ⟨t⟩ hrk] at hl
    have hfin : ∀ (t1 : NodeSet ElemTy), Inv t1 →
        (∀ q, (NodeSet.deref t q).isSome = true → (NodeSet.deref t1 q).isSome = true) →
        (NodeSet.deref t1 k).isSome = true →
        (∀ x y, SameWalk t x y → SameWalk t1 x y) →
        assignLoop ⟨t1⟩ ⟨S⟩ ks = .ok (T, S1) →
        S1 = ⟨S⟩ ∧ Inv T.TheMapping ∧
          (∀ q, (NodeSet.deref t q).isSome = true →
            (NodeSet.deref T.TheMapping q).isSome = true) ∧
          (∀ k1 ∈ k :: ks, (NodeSet.deref T.TheMapping k1).isSome = true) ∧
          (∀ x y, SameWalk t x y → SameWalk T.TheMapping x y) := by
      intro t1 h1 hkeys hk hwalk hl1
      obtain ⟨e1, hT, hq, hk1, hw⟩ := ih t1 T S1 hks1 h1 hl1
      refine ⟨e1, hT, fun q hq0 => hq q (hkeys q hq0), ?_, fun x y h0 => hw x y (hwalk x y h0)⟩
      intro k1 hk1m
      rcases List.mem_cons.1 hk1m with e | hmem
      · rw [e]; exact hq k hk
      · exact hk1 k1 hmem
    by_cases hb : rk.leaderBit = true
    · simp only [hb, if_true, EquivalenceClasses.insert] at hl
      refine hfin _ (ht.insert k) ?_ ?_ (fun x y hw => hw.walk_insert ht k) hl
      · intro q hq
        exact (NodeSet.deref_insert_isSome t k q ht.sorted).2 (Or.inr hq)
      · exact (NodeSet.deref_insert_isSome t k k ht.sorted).2 (Or.inl rfl)
    · simp only [hb, if_false] at hl
      cases hu : unionSets ⟨t⟩ k rk.Leader with
      | error e => simp [hu] at hl
      | ok x =>
        obtain ⟨res, T1⟩ := x
        simp only [hu] at hl
        refine hfin T1.TheMapping (unionSets_inv ht hu) ?_ ?_
          (fun x y hw => hw.walk_unionSets ht hu) hl
        · intro q hq
          exact (unionSets_isSome ht hu q).2 (Or.inr hq)
        · exact (unionSets_isSome ht hu k).2 (Or.inl (Or.inl rfl))

end
end llvm

/-! ## Claims on what `getLeader` returns, on `findLeader` as a reader, and on assignment -/

namespace llvm

/-- C31: in every state, for a node `x` of the set, `getLeader` and `findLeader` return the
node itself when it is a leader; when it is not a leader and its `Leader` pointer refers to
a node, they return that node, whether it is a leader or not; no node is changed. -/
theorem C31_getLeader_returns_Leader_field {ElemTy : Type} [LinearOrder ElemTy]
    (m : NodeSet ElemTy) (x : ElemTy) (r : ECValue ElemTy)
    (hr : NodeSet.deref m x = some r) :
    (r.isLeader = true →
      NodeSet.getLeader m x = .ok (x, m) ∧
      EquivalenceClasses.findLeader ⟨m⟩ x = .ok (some x, ⟨m⟩)) ∧
    (r.isLeader = false → ∀ rp, NodeSet.deref m r.Leader = some rp →
      NodeSet.getLeader m x = .ok (r.Leader, m) ∧
      EquivalenceClasses.findLeader ⟨m⟩ x = .ok (some r.Leader, ⟨m⟩)) := by
  constructor
  · intro hl
    have hl1 : r.leaderBit = true := hl
    have hg : NodeSet.getLeader m x = .ok (x, m) := by
      rw [NodeSet.getLeader_eq, hr]
      simp [hl1]
    refine ⟨hg, ?_⟩
    simp only [EquivalenceClasses.findLeader, NodeSet.find, hr,
      EquivalenceClasses.findLeaderIt, hg]
  · intro hl rp hp
    have hl1 : r.leaderBit = false := hl
    have hg : NodeSet.getLeader m x = .ok (r.Leader, m) := by
      rw [NodeSet.getLeader_eq, hr]
      simp [hl1, hp]
    refine ⟨hg, ?_⟩
    simp only [EquivalenceClasses.findLeader, NodeSet.find, hr,
      EquivalenceClasses.findLeaderIt, hg]

/-- C31 at `unionSets(1,2); unionSets(3,1)` and the node of `2`, whose `Leader` pointer
refers to the node of `1`, not a leader. -/
theorem C31_getLeader_returns_Leader_field_witness :
    ∃ EC : EquivalenceClasses Int,
      run [.unionSets 1 2, .unionSets 3 1] = .ok EC ∧
      NodeSet.deref EC.TheMapping 2 = some ⟨1, none, false, 2⟩ ∧
      NodeSet.deref EC.TheMapping 1 = some ⟨3, some 2, false, 1⟩ ∧
      NodeSet.getLeader EC.TheMapping 2 = .ok (1, EC.TheMapping) ∧
      EquivalenceClasses.findLeader ⟨EC.TheMapping⟩ 2 = .ok (some 1, ⟨EC.TheMapping⟩) :=
  ⟨⟨[⟨3, some 2, false, 1⟩, ⟨1, none, false, 2⟩, ⟨2, some 1, true, 3⟩]⟩,
   by decide, by decide, by decide,
   (C31_getLeader_returns_Leader_field
     [⟨3, some 2, false, 1⟩, ⟨1, none, false, 2⟩, ⟨2, some 1, true, 3⟩] 2 ⟨1, none, false, 2⟩
     (by decide)).2 (by decide) ⟨3, some 2, false, 1⟩ (by decide)⟩

/-- C32: on a reachable collection `findLeader(v)` goes through, and the collection after
the call is the collection before it: the same nodes with the same fields, hence the same
`getNumClasses()` and the same member walks. -/
theorem C32_findLeader_read_only {ElemTy : Type} [LinearOrder ElemTy]
    (EC : EquivalenceClasses ElemTy) (v : ElemTy) (hR : Reachable EC) :
    ∃ MI, EC.findLeader v = .ok (MI, EC) ∧
      ∀ MI1 EC1, EC.findLeader v = .ok (MI1, EC1) →
        EC1.nodes = EC.nodes ∧
        (∀ q, NodeSet.deref EC1.TheMapping q = NodeSet.deref EC.TheMapping q) ∧
        EC1.getNumClasses = EC.getNumClasses ∧
        ∀ MI2, EC1.members MI2 = EC.members MI2 := by
  obtain ⟨MI, hf⟩ := EquivalenceClasses.findLeader_total hR.inv v
  have hf1 : EC.findLeader v = .ok (MI, EC) := hf
  refine ⟨MI, hf1, ?_⟩
  intro MI1 EC1 h1
  rw [hf1] at h1
  cases h1
  exact ⟨rfl, fun _ => rfl, rfl, fun _ => rfl⟩

/-- C32 at `unionSets(1,2); unionSets(3,1)` and the value `2`. -/
theorem C32_findLeader_read_only_witness :
    ∃ EC : EquivalenceClasses Int,
      run [.unionSets 1 2, .unionSets 3 1] = .ok EC ∧
      EC.findLeader 2 = .ok (some 1, EC) ∧
      ∃ MI, EC.findLeader 2 = .ok (MI, EC) ∧
        ∀ MI1 EC1, EC.findLeader 2 = .ok (MI1, EC1) →
          EC1.nodes = EC.nodes ∧
          (∀ q, NodeSet.deref EC1.TheMapping q = NodeSet.deref EC.TheMapping q) ∧
          EC1.getNumClasses = EC.getNumClasses ∧
          ∀ MI2, EC1.members MI2 = EC.members MI2 :=
  ⟨⟨[⟨3, some 2, false, 1⟩, ⟨1, none, false, 2⟩, ⟨2, some 1, true, 3⟩]⟩,
   by decide, by decide,
   C32_findLeader_read_only _ 2 ⟨[.unionSets 1 2, .unionSets 3 1], by decide⟩⟩

/-- An assignment `T = S` that returns, for a reachable source `S` and a reachable target
`T`: `S` is left as it is, every value that had a node in `T` still has one, every value
with a node in `S` has one in `T`, and two values that were on the member walk of one leader
of `T` are on the member walk of one leader afterwards. -/
theorem EquivalenceClasses.assign_keeps_target {ElemTy : Type} [LinearOrder ElemTy]
    (S T T1 S1 : EquivalenceClasses ElemTy)
    (hS : Reachable S) (hT : Reachable T) (ha : T.assign S = .ok (T1, S1)) :
    S1 = S ∧
    (∀ q, (NodeSet.deref T.TheMapping q).isSome = true →
      (NodeSet.deref T1.TheMapping q).isSome = true) ∧
    (∀ q, (NodeSet.deref S.TheMapping q).isSome = true →
      (NodeSet.deref T1.TheMapping q).isSome = true) ∧
    (∀ L c x y, (NodeSet.deref T.TheMapping L).map ECValue.isLeader = some true →
      T.members (some L) = .ok c → x ∈ c → y ∈ c →
      ∃ L1 c1, (NodeSet.deref T1.TheMapping L1).map ECValue.isLeader = some true ∧
        T1.members (some L1) = .ok c1 ∧ x ∈ c1 ∧ y ∈ c1) := by
  have hks : ∀ k ∈ S.nodes.map ECValue.getData, ∃ rk, NodeSet.deref S.TheMapping k = some rk := by
    intro k hk
    have := (NodeSet.mem_map_data_iff S.TheMapping k).1 hk
    cases hd : NodeSet.deref S.TheMapping k with
    | none => rw [hd] at this; cases this
    | some rk => exact ⟨rk, rfl⟩
  obtain ⟨e1, hT1, hkeep, hall, hwalk⟩ := EquivalenceClasses.assignLoop_keeps hS.inv
    (S.nodes.map ECValue.getData) T.TheMapping T1 S1 hks hT.inv ha
  refine ⟨e1, hkeep, ?_, ?_⟩
  · intro q hq
    exact hall q ((NodeSet.mem_map_data_iff S.TheMapping q).2 hq)
  · intro L c x y hL hw hx hy
    cases hd : NodeSet.deref T.TheMapping L with
    | none => rw [hd] at hL; cases hL
    | some r =>
      rw [hd] at hL
      have hl : r.leaderBit = true := by simpa [ECValue.isLeader] using hL
      obtain ⟨p, c1, hc1, hx1, hy1⟩ := hwalk x y
        ⟨L, c, ⟨⟨r, hd, hl⟩, EquivalenceClasses.seg_of_membersFuel hw⟩, hx, hy⟩
      refine ⟨p, c1, ?_, hT1.members_eq hc1, hx1, hy1⟩
      obtain ⟨⟨rp, hrp, hlp⟩, _⟩ := hc1
      rw [hrp]
      simp [ECValue.isLeader, hlp]

/-- C33 (fails on the code): with `S` after `unionSets(1,2); unionSets(1,3); unionSets(1,4);`
`unionSets(1,5)` and `T` after `insert(9)`, the assignment `T = S` does not return.  Its
rounds for the nodes `1`, `2` and `3` of `S` go through and leave `S` as it is; the round for
the node `4` calls `unionSets(4, 1)`, in which `findLeader(1)` answers the node of `2`, which
is not a leader, and the call violates the check "Cannot get the end of a list for a
non-leader!".  The collection `T` then has nodes for `1`, `2`, `3`, `4` and `9`, and none for
the value `5` of `S`. -/
theorem C33_assignment_stops :
    ∃ S T T3 T4 : EquivalenceClasses Int,
      run [.unionSets 1 2, .unionSets 1 3, .unionSets 1 4, .unionSets 1 5] = .ok S ∧
      run [.insert 9] = .ok T ∧
      S.classes = [.ok [1, 2, 3, 4, 5]] ∧
      (NodeSet.deref S.TheMapping 5).isSome = true ∧
      T.assign S = .error .EndOfListOfNonLeader ∧
      T.assignLoop S [1, 2, 3] = .ok (T3, S) ∧
      T3.assignLoop S [4, 5] = .error .EndOfListOfNonLeader ∧
      T3.assignStep S 4 = .error .EndOfListOfNonLeader ∧
      S.findLeaderIt (some 4) = .ok (some 1, S) ∧
      T3.unionSets 4 1 = .error .EndOfListOfNonLeader ∧
      T3.findLeader 1 = .ok (some 2, T3) ∧
      (NodeSet.deref T3.TheMapping 2).map ECValue.isLeader = some false ∧
      T3.unionSetsStop 4 1 = T4 ∧
      T4.nodes.map ECValue.getData = [1, 2, 3, 4, 9] ∧
      NodeSet.deref T4.TheMapping 5 = none :=
  ⟨⟨[⟨5, some 2, true, 1⟩, ⟨1, some 3, false, 2⟩, ⟨1, some 4, false, 3⟩,
      ⟨1, some 5, false, 4⟩, ⟨1, none, false, 5⟩]⟩,
   ⟨[⟨9, none, true, 9⟩]⟩,
   ⟨[⟨2, none, false, 1⟩, ⟨3, some 1, false, 2⟩, ⟨1, some 2, true, 3⟩, ⟨9, none, true, 9⟩]⟩,
   ⟨[⟨2, none, false, 1⟩, ⟨3, some 1, false, 2⟩, ⟨1, some 2, true, 3⟩, ⟨4, some 2, true, 4⟩,
      ⟨9, none, true, 9⟩]⟩,
   by decide, by decide, by decide, by decide, by decide, by decide, by decide, by decide,
   by decide, by decide, by decide, by decide, by decide, by decide, by decide⟩

end llvm
